import Mathlib

/-!
OpenDMR frame codec: a shallow embedding.

The definitions below transcribe the bit-level functions of `src/opendmr.cpp` and
`src/encoder/mbeenc.cpp`.

Conventions of the embedding

* A C array or pointed-to buffer is a `Buf`: a total map from indices to cells.
  A store `a[i] = v` is `Buf.set`, `memset(a, 0, n)` is `Buf.zero`.  Cells that the
  C code never initialises are modelled as `0`; the code never reads them before
  writing them.
* `uint8_t`, `uint16_t` and `uint32_t` values are natural numbers; a reduction modulo
  `2^w` is written out wherever the C expression can exceed the width.
* `int` values are integers; `(x >> j) & 1` on an `int` is `((x >>> j) % 2).toNat`.
* A counted loop `for (i = lo; i < hi; i++)` is `forLoop lo hi body`, the descending
  loop `for (j = n - 1; j >= 0; j--)` is `forDown body n`.
* The Golay routines of `CGolay24128` and the synthesiser entry point of mbelib are
  not part of the sources; the functions that call them take them as parameters.
* A read outside a constant table has no defined value: the function that makes it
  returns an `Option` and has no result in that case.
* Statements over exact arithmetic take `float` to be a linearly ordered field.
-/

namespace OpenDMR

/-- A C buffer: a total map from index to cell content. -/
structure Buf (α : Type) where
  get : Nat → α

/-- The store `a[i] = v`. -/
def Buf.set {α : Type} (a : Buf α) (i : Nat) (v : α) : Buf α :=
  ⟨fun k => if k = i then v else a.get k⟩

/-- A zero-filled buffer (`memset(a, 0, n)`, also the model of a fresh local array). -/
def Buf.zero : Buf Nat := ⟨fun _ => 0⟩

/-- The buffer holding the elements of a list, `d` elsewhere. -/
def Buf.ofList {α : Type} (l : List α) (d : α) : Buf α := ⟨fun i => l.getD i d⟩

/-- Runs `body lo`, `body (lo + 1)`, ..., `body (lo + n - 1)` in this order. -/
def forCount {σ : Type} (lo : Nat) (body : Nat → σ → σ) : Nat → σ → σ
  | 0, s => s
  | n + 1, s => body (lo + n) (forCount lo body n s)

/-- The loop `for (i = lo; i < hi; i++) s = body i s`. -/
def forLoop {σ : Type} (lo hi : Nat) (body : Nat → σ → σ) (s : σ) : σ :=
  forCount lo body (hi - lo) s

/-- The loop `for (j = n - 1; j >= 0; j--) s = body j s`. -/
def forDown {σ : Type} (body : Nat → σ → σ) : Nat → σ → σ
  | 0, s => s
  | n + 1, s => forDown body n (body n s)

/-! ## `src/opendmr.cpp` -/

/-- The function `compute_prng_mask_23bit` (opendmr.cpp:79-98).  `16U * aOrig` is a
32-bit product narrowed to `uint16_t`; `173 * pr[i-1] + 13849` fits 32 bits. -/
def compute_prng_mask_23bit (aOrig : Nat) : Nat :=
  let pr : Buf Nat := Buf.zero.set 0 ((16 * aOrig) % 4294967296 % 65536)
  let pr := forLoop 1 24 (fun i pr =>
    pr.set i ((173 * pr.get (i - 1) + 13849) % 65536 % 65536)) pr
  let pr := forLoop 1 24 (fun i pr => pr.set i (pr.get i / 32768)) pr
  forLoop 1 24 (fun i mask =>
    if pr.get i ≠ 0 then mask ||| (1 <<< (23 - i)) else mask) 0

/-- The function `decode_ambe_frame` (opendmr.cpp:114-167): the 9 frame bytes in, the
49 cells of `ambe_d` out. -/
def decode_ambe_frame (decode24128 decode23127 : Nat → Nat) (frame72 : Buf Nat) :
    Buf Nat :=
  let a := forLoop 0 24 (fun i a =>
    let byte_idx := i / 8
    let bit_pos := 7 - (i % 8)
    if (frame72.get byte_idx >>> bit_pos) &&& 1 ≠ 0 then a ||| (0x800000 >>> i) else a) 0
  let b := forLoop 0 23 (fun i b =>
    let pos := 24 + i
    let byte_idx := pos / 8
    let bit_pos := 7 - (pos % 8)
    if (frame72.get byte_idx >>> bit_pos) &&& 1 ≠ 0 then b ||| (0x400000 >>> i) else b) 0
  let c := forLoop 0 25 (fun i c =>
    let pos := 47 + i
    let byte_idx := pos / 8
    let bit_pos := 7 - (pos % 8)
    if (frame72.get byte_idx >>> bit_pos) &&& 1 ≠ 0 then c ||| (0x1000000 >>> i) else c) 0
  let aOrig := decode24128 a
  let prng_mask := compute_prng_mask_23bit aOrig
  let b_descrambled := b ^^^ prng_mask
  let bOrig := decode23127 b_descrambled
  let ambe_d := Buf.zero
  let ambe_d := forLoop 0 12 (fun i d => d.set i ((aOrig >>> (11 - i)) &&& 1)) ambe_d
  let ambe_d := forLoop 0 12 (fun i d => d.set (12 + i) ((bOrig >>> (11 - i)) &&& 1)) ambe_d
  forLoop 0 25 (fun i d => d.set (24 + i) ((c >>> (24 - i)) &&& 1)) ambe_d

/-- What the mbelib call `mbe_processAmbe2450Data` leaves behind: the PCM samples, the
two error counters it was handed by pointer, and the decoder parameter sets. -/
structure MbeOut (St Pcm : Type) where
  pcm : Pcm
  errs : Int
  errs2 : Int
  st : St

/-- What a call of `opendmr_decode` leaves behind: its return value, the decoder
state, the PCM buffer and the cell `*errs` (`none` stands for a null pointer). -/
structure DecodeOutcome (St Pcm : Type) where
  ret : Bool
  dec : Option St
  pcm : Option Pcm
  errs : Option Int

/-- The function `opendmr_decode` (opendmr.cpp:169-194).  Pointers are options; the
mbelib routine is a parameter receiving the initial counters `0`, `0`, the decoded
49 cells, the decoder state and the quality argument `3`. -/
def opendmr_decode {St Pcm : Type} (decode24128 decode23127 : Nat → Nat)
    (mbe_processAmbe2450Data : Int → Int → Buf Nat → St → Nat → MbeOut St Pcm)
    (dec : Option St) (ambe : Option (Buf Nat)) (pcm : Option Pcm) (errs : Option Int) :
    DecodeOutcome St Pcm :=
  match dec, ambe, pcm with
  | some st, some frame, some _ =>
    let ambe_d := decode_ambe_frame decode24128 decode23127 frame
    let err_count : Int := 0
    let err_count2 : Int := 0
    let r := mbe_processAmbe2450Data err_count err_count2 ambe_d st 3
    { ret := true, dec := some r.st, pcm := some r.pcm, errs := errs.map (fun _ => r.errs) }
  | _, _, _ => { ret := false, dec := dec, pcm := pcm, errs := errs }

/-- The table `b_lengths` of `encode_ambe_frame` (opendmr.cpp:267). -/
def b_lengths (i : Nat) : Nat := [7, 5, 5, 9, 7, 5, 4, 4, 3].getD i 0

/-- First loop nest of `encode_ambe_frame` (opendmr.cpp:268-275): the array `bits49`
it serialises from `b[9]`.  The loop state is the array and the cursor `pos`. -/
def encode_ambe_frame_bits49 (b : Buf Int) : Buf Nat :=
  (forLoop 0 9 (fun i (st : Buf Nat × Nat) =>
    let val := b.get i
    forDown (fun j (st : Buf Nat × Nat) =>
      (st.1.set st.2 (((val >>> j) % 2).toNat), st.2 + 1)) (b_lengths i) st)
    (Buf.zero, 0)).1

/-- The function `encode_ambe_frame` (opendmr.cpp:264-327): the 9 frame bytes written
for the parameters `b[9]`. -/
def encode_ambe_frame (encode24128 encode23127 : Nat → Nat) (b : Buf Int) : Buf Nat :=
  let bits49 := encode_ambe_frame_bits49 b
  let c01 := forLoop 0 12 (fun i (c : Nat × Nat) =>
    ((c.1 <<< 1) ||| bits49.get i, (c.2 <<< 1) ||| bits49.get (12 + i))) (0, 0)
  let c0 := c01.1
  let c1 := c01.2
  let a := encode24128 c0
  let b_codeword := encode23127 c1
  let prng_mask := compute_prng_mask_23bit c0
  let b_codeword := b_codeword ^^^ prng_mask
  let c_block := forLoop 24 49 (fun i c_block => (c_block <<< 1) ||| bits49.get i) 0
  let frame72 := Buf.zero
  let frame72 := forLoop 0 24 (fun i fr =>
    let byte_idx := i / 8
    let bit_pos := 7 - (i % 8)
    if (a >>> (23 - i)) &&& 1 ≠ 0 then
      fr.set byte_idx (fr.get byte_idx ||| (1 <<< bit_pos)) else fr) frame72
  let frame72 := forLoop 0 23 (fun i fr =>
    let pos := 24 + i
    let byte_idx := pos / 8
    let bit_pos := 7 - (pos % 8)
    if (b_codeword >>> (22 - i)) &&& 1 ≠ 0 then
      fr.set byte_idx (fr.get byte_idx ||| (1 <<< bit_pos)) else fr) frame72
  forLoop 0 25 (fun i fr =>
    let pos := 47 + i
    let byte_idx := pos / 8
    let bit_pos := 7 - (pos % 8)
    if (c_block >>> (24 - i)) &&& 1 ≠ 0 then
      fr.set byte_idx (fr.get byte_idx ||| (1 <<< bit_pos)) else fr) frame72

/-! ## `src/encoder/mbeenc.cpp` -/

/-- The table `DMR_A_TABLE` (mbeenc.cpp:144-148). -/
def DMR_A_TABLE (i : Nat) : Nat :=
  [0, 4, 8, 12, 16, 20, 24, 28, 32, 36, 40, 44, 48, 52, 56, 60,
   64, 68, 1, 5, 9, 13, 17, 21].getD i 0

/-- The table `DMR_B_TABLE` (mbeenc.cpp:150-154). -/
def DMR_B_TABLE (i : Nat) : Nat :=
  [25, 29, 33, 37, 41, 45, 49, 53, 57, 61, 65, 69, 2, 6, 10, 14,
   18, 22, 26, 30, 34, 38, 42].getD i 0

/-- The table `DMR_C_TABLE` (mbeenc.cpp:156-160). -/
def DMR_C_TABLE (i : Nat) : Nat :=
  [46, 50, 54, 58, 62, 66, 70, 3, 7, 11, 15, 19, 23, 27, 31, 35,
   39, 43, 47, 51, 55, 59, 63, 67, 71].getD i 0

/-- One store `outp[k] = (b[f] >> s) & 1` of `encode_49bit`. -/
def put49 (b : Buf Int) (outp : Buf Nat) (k f s : Nat) : Buf Nat :=
  outp.set k (((b.get f >>> s) % 2).toNat)

/-- The function `encode_49bit` (mbeenc.cpp:209-260): its 49 stores, in source order
(`b[f] & 1` is the store with shift `0`). -/
def encode_49bit (b : Buf Int) : Buf Nat :=
  let o := Buf.zero
  let o := put49 b o 0 0 6
  let o := put49 b o 1 0 5
  let o := put49 b o 2 0 4
  let o := put49 b o 3 0 3
  let o := put49 b o 4 1 4
  let o := put49 b o 5 1 3
  let o := put49 b o 6 1 2
  let o := put49 b o 7 1 1
  let o := put49 b o 8 2 4
  let o := put49 b o 9 2 3
  let o := put49 b o 10 2 2
  let o := put49 b o 11 2 1
  let o := put49 b o 12 3 8
  let o := put49 b o 13 3 7
  let o := put49 b o 14 3 6
  let o := put49 b o 15 3 5
  let o := put49 b o 16 3 4
  let o := put49 b o 17 3 3
  let o := put49 b o 18 3 2
  let o := put49 b o 19 3 1
  let o := put49 b o 20 4 6
  let o := put49 b o 21 4 5
  let o := put49 b o 22 4 4
  let o := put49 b o 23 4 3
  let o := put49 b o 24 5 4
  let o := put49 b o 25 5 3
  let o := put49 b o 26 5 2
  let o := put49 b o 27 5 1
  let o := put49 b o 28 6 3
  let o := put49 b o 29 6 2
  let o := put49 b o 30 6 1
  let o := put49 b o 31 7 3
  let o := put49 b o 32 7 2
  let o := put49 b o 33 7 1
  let o := put49 b o 34 8 2
  let o := put49 b o 35 1 0
  let o := put49 b o 36 2 0
  let o := put49 b o 37 0 2
  let o := put49 b o 38 0 1
  let o := put49 b o 39 0 0
  let o := put49 b o 40 3 0
  let o := put49 b o 41 4 2
  let o := put49 b o 42 4 1
  let o := put49 b o 43 4 0
  let o := put49 b o 44 5 0
  let o := put49 b o 45 6 0
  let o := put49 b o 46 7 0
  let o := put49 b o 47 8 1
  put49 b o 48 8 0

/-! ## Bit-level vocabulary of the statements -/

/-- Frame bit `p` of a byte buffer: bit `7 - p % 8` of byte `p / 8`. -/
def frameBit (fr : Buf Nat) (p : Nat) : Nat := (fr.get (p / 8) >>> (7 - p % 8)) &&& 1

/-- Value of the bit string `bit 0, bit 1, ..., bit (n - 1)` read MSB first. -/
def msbWord (bit : Nat → Nat) : Nat → Nat
  | 0 => 0
  | n + 1 => 2 * msbWord bit n + bit n

/-- First twelve cells of `bits49`, read MSB first (the value `c0` of `encode_ambe_frame`). -/
def payload_c0 (b : Buf Int) : Nat := msbWord (fun i => (encode_ambe_frame_bits49 b).get i) 12

/-- Cells 12..23 of `bits49`, read MSB first (the value `c1` of `encode_ambe_frame`). -/
def payload_c1 (b : Buf Int) : Nat :=
  msbWord (fun i => (encode_ambe_frame_bits49 b).get (12 + i)) 12

/-- Cells 24..48 of `bits49`, read MSB first (the value `c_block` of `encode_ambe_frame`). -/
def payload_c (b : Buf Int) : Nat :=
  msbWord (fun i => (encode_ambe_frame_bits49 b).get (24 + i)) 25

/-- The `n` frame bits from position `base` on, read MSB first as a word. -/
def frameWord (fr : Buf Nat) (base n : Nat) : Nat := msbWord (fun i => frameBit fr (base + i)) n

/-- The scrambler recurrence in the words of the specification: `pr[0] = 16 * seed mod 65536`,
`pr[i] = (173 * pr[i-1] + 13849) mod 65536`. -/
def prSeq (seed : Nat) : Nat → Nat
  | 0 => (16 * seed) % 65536
  | i + 1 => (173 * prSeq seed i + 13849) % 65536

/-- The frame with frame bit `p` inverted. -/
def flipFrameBit (fr : Buf Nat) (p : Nat) : Buf Nat :=
  fr.set (p / 8) (fr.get (p / 8) ^^^ (1 <<< (7 - p % 8)))

/-- The frame with the listed frame bits inverted, one after the other. -/
def flipFrameBits (fr : Buf Nat) (ps : List Nat) : Buf Nat := ps.foldl flipFrameBit fr

/-! ## A concrete Golay codec

`CGolay24128` is not among the sources.  The functions below are a concrete codec with
the contract the frame functions rely on; they instantiate the Golay parameters where a
statement has to be evaluated on a concrete input. -/

/-- Modelled from the spec: `CGolay24128` is not among the sources.  Remainder of the
GF(2) polynomial `w` (degree below 23) modulo the Golay generator polynomial `0xC75`. -/
def golayRem (w : Nat) : Nat :=
  forCount 0 (fun k r => if r.testBit (22 - k) then r ^^^ (0xC75 <<< (11 - k)) else r) 12 w

/-- Modelled from the spec: `CGolay24128` is not among the sources.  The systematic
Golay (23,12) codeword of the 12-bit value `d`: 12 data bits, then 11 check bits. -/
def golay23 (d : Nat) : Nat := (d <<< 11) ||| golayRem (d <<< 11)

/-- Modelled from the spec: `CGolay24128` is not among the sources.  A syndrome decoder
for `golay23` that repairs one inverted bit and otherwise returns the data bits as
received. -/
def golay23_decode (w : Nat) : Nat :=
  let s := golayRem w
  if s = 0 then w >>> 11
  else match (List.range 23).find? (fun q => golayRem (1 <<< q) = s) with
    | some q => (w ^^^ (1 <<< q)) >>> 11
    | none => w >>> 11

/-- Parity of the 23 low bits of `w`. -/
def parity23 (w : Nat) : Nat :=
  forCount 0 (fun k p => p ^^^ ((w >>> k) &&& 1)) 23 0

/-- Modelled from the spec: `CGolay24128` is not among the sources.  The extended Golay
(24,12) codeword: the (23,12) codeword followed by its parity bit. -/
def golay24 (d : Nat) : Nat := (golay23 d <<< 1) ||| parity23 (golay23 d)

/-- Modelled from the spec: `CGolay24128` is not among the sources.  Decoder for
`golay24`: drops the parity bit and decodes the (23,12) codeword. -/
def golay24_decode (w : Nat) : Nat := golay23_decode (w >>> 1)

/-- Modelled from the spec: `CGolay24128::encode23127` is not among the sources.  This
is the encoder in the reference convention that `MBEEncoder::encode_dmr` undoes with
`>> 1`: the (23,12) codeword stored one bit to the left. -/
def encode23127_ref (d : Nat) : Nat := golay23 d <<< 1

/-- Modelled from the spec: `CGolay24128::decode23127` is not among the sources.  A
decoder for `encode23127_ref` in the same convention: it drops the low bit of the word
and decodes the (23,12) codeword, repairing one inverted bit. -/
def decode23127_ref (w : Nat) : Nat := golay23_decode (w >>> 1)

/-- A parameter set with every field in range. -/
def sampleParams : Buf Int := Buf.ofList [100, 17, 9, 300, 77, 21, 11, 6, 5] 0

/-- The parameter set with pitch index `b[0] = 1` and all other fields `0`. -/
def pitchOneParams : Buf Int := Buf.ofList [1, 0, 0, 0, 0, 0, 0, 0, 0] 0

/-- The parameter set with gain index `b[2] = 16` and all other fields `0`: the only
payload bit set is bit 12, the top bit of the second 12-bit field. -/
def gainTopParams : Buf Int := Buf.ofList [0, 0, 16, 0, 0, 0, 0, 0, 0] 0

/-- The parameter set with `b[3] = 1` and all other fields `0`. -/
def prbaOneParams : Buf Int := Buf.ofList [0, 0, 0, 1, 0, 0, 0, 0, 0] 0

/-- The parameter set with `b[3] = 4` and all other fields `0`; its second 12-bit
field is `1`. -/
def prbaFourParams : Buf Int := Buf.ofList [0, 0, 0, 4, 0, 0, 0, 0, 0] 0

/-- A stand-in for the mbelib synthesiser that leaves both counters as it received them. -/
def sampleSynth (errs errs2 : Int) (_ambe_d : Buf Nat) (st : Unit) (_uvquality : Nat) :
    MbeOut Unit Unit :=
  { pcm := (), errs := errs, errs2 := errs2, st := st }

/-- The table `b0_lookup` (mbeenc.cpp:27-141), 898 entries. -/
def b0_lookup_table : List Int :=
  [0, 0, 0, 1, 1, 2, 2, 2,
   3, 3, 4, 4, 4, 5, 5, 5,
   6, 6, 7, 7, 7, 8, 8, 8,
   9, 9, 9, 10, 10, 11, 11, 11,
   12, 12, 12, 13, 13, 13, 14, 14,
   14, 15, 15, 15, 16, 16, 16, 17,
   17, 17, 17, 18, 18, 18, 19, 19,
   19, 20, 20, 20, 21, 21, 21, 21,
   22, 22, 22, 23, 23, 23, 24, 24,
   24, 24, 25, 25, 25, 25, 26, 26,
   26, 27, 27, 27, 27, 28, 28, 28,
   29, 29, 29, 29, 30, 30, 30, 30,
   31, 31, 31, 31, 31, 32, 32, 32,
   32, 33, 33, 33, 33, 34, 34, 34,
   34, 35, 35, 35, 35, 36, 36, 36,
   36, 37, 37, 37, 37, 38, 38, 38,
   38, 38, 39, 39, 39, 39, 40, 40,
   40, 40, 40, 41, 41, 41, 41, 42,
   42, 42, 42, 42, 43, 43, 43, 43,
   43, 44, 44, 44, 44, 45, 45, 45,
   45, 45, 46, 46, 46, 46, 46, 47,
   47, 47, 47, 47, 48, 48, 48, 48,
   48, 49, 49, 49, 49, 49, 49, 50,
   50, 50, 50, 50, 51, 51, 51, 51,
   51, 52, 52, 52, 52, 52, 52, 53,
   53, 53, 53, 53, 54, 54, 54, 54,
   54, 54, 55, 55, 55, 55, 55, 56,
   56, 56, 56, 56, 56, 57, 57, 57,
   57, 57, 57, 58, 58, 58, 58, 58,
   58, 59, 59, 59, 59, 59, 59, 60,
   60, 60, 60, 60, 60, 61, 61, 61,
   61, 61, 61, 62, 62, 62, 62, 62,
   62, 63, 63, 63, 63, 63, 63, 63,
   64, 64, 64, 64, 64, 64, 65, 65,
   65, 65, 65, 65, 65, 66, 66, 66,
   66, 66, 66, 67, 67, 67, 67, 67,
   67, 67, 68, 68, 68, 68, 68, 68,
   68, 69, 69, 69, 69, 69, 69, 69,
   70, 70, 70, 70, 70, 70, 70, 71,
   71, 71, 71, 71, 71, 71, 72, 72,
   72, 72, 72, 72, 72, 73, 73, 73,
   73, 73, 73, 73, 73, 74, 74, 74,
   74, 74, 74, 74, 75, 75, 75, 75,
   75, 75, 75, 75, 76, 76, 76, 76,
   76, 76, 76, 76, 77, 77, 77, 77,
   77, 77, 77, 77, 77, 78, 78, 78,
   78, 78, 78, 78, 78, 79, 79, 79,
   79, 79, 79, 79, 79, 80, 80, 80,
   80, 80, 80, 80, 80, 81, 81, 81,
   81, 81, 81, 81, 81, 81, 82, 82,
   82, 82, 82, 82, 82, 82, 83, 83,
   83, 83, 83, 83, 83, 83, 83, 84,
   84, 84, 84, 84, 84, 84, 84, 84,
   85, 85, 85, 85, 85, 85, 85, 85,
   85, 86, 86, 86, 86, 86, 86, 86,
   86, 86, 87, 87, 87, 87, 87, 87,
   87, 87, 87, 88, 88, 88, 88, 88,
   88, 88, 88, 88, 89, 89, 89, 89,
   89, 89, 89, 89, 89, 89, 90, 90,
   90, 90, 90, 90, 90, 90, 90, 90,
   91, 91, 91, 91, 91, 91, 91, 91,
   91, 92, 92, 92, 92, 92, 92, 92,
   92, 92, 92, 93, 93, 93, 93, 93,
   93, 93, 93, 93, 93, 94, 94, 94,
   94, 94, 94, 94, 94, 94, 94, 95,
   95, 95, 95, 95, 95, 95, 95, 95,
   95, 95, 96, 96, 96, 96, 96, 96,
   96, 96, 96, 96, 96, 97, 97, 97,
   97, 97, 97, 97, 97, 97, 97, 98,
   98, 98, 98, 98, 98, 98, 98, 98,
   98, 98, 99, 99, 99, 99, 99, 99,
   99, 99, 99, 99, 99, 100, 100, 100,
   100, 100, 100, 100, 100, 100, 100, 100,
   101, 101, 101, 101, 101, 101, 101, 101,
   101, 101, 101, 101, 102, 102, 102, 102,
   102, 102, 102, 102, 102, 102, 102, 103,
   103, 103, 103, 103, 103, 103, 103, 103,
   103, 103, 103, 104, 104, 104, 104, 104,
   104, 104, 104, 104, 104, 104, 104, 105,
   105, 105, 105, 105, 105, 105, 105, 105,
   105, 105, 105, 106, 106, 106, 106, 106,
   106, 106, 106, 106, 106, 106, 106, 106,
   107, 107, 107, 107, 107, 107, 107, 107,
   107, 107, 107, 107, 108, 108, 108, 108,
   108, 108, 108, 108, 108, 108, 108, 108,
   108, 109, 109, 109, 109, 109, 109, 109,
   109, 109, 109, 109, 109, 109, 110, 110,
   110, 110, 110, 110, 110, 110, 110, 110,
   110, 110, 110, 111, 111, 111, 111, 111,
   111, 111, 111, 111, 111, 111, 111, 111,
   111, 112, 112, 112, 112, 112, 112, 112,
   112, 112, 112, 112, 112, 112, 113, 113,
   113, 113, 113, 113, 113, 113, 113, 113,
   113, 113, 113, 113, 114, 114, 114, 114,
   114, 114, 114, 114, 114, 114, 114, 114,
   114, 114, 115, 115, 115, 115, 115, 115,
   115, 115, 115, 115, 115, 115, 115, 115,
   116, 116, 116, 116, 116, 116, 116, 116,
   116, 116, 116, 116, 116, 116, 117, 117,
   117, 117, 117, 117, 117, 117, 117, 117,
   117, 117, 117, 117, 117, 118, 118, 118,
   118, 118, 118, 118, 118, 118, 118, 118,
   118, 118, 118, 118, 119, 119, 119, 119,
   119, 119, 119, 119, 119, 119, 119, 119,
   119, 119, 119, 120, 120, 120, 120, 120,
   120, 120, 120, 120, 120, 120, 120, 120,
   120, 120, 121, 121, 121, 121, 121, 121,
   121, 121, 121, 121, 121, 121, 121, 121,
   121, 121, 122, 122, 122, 122, 122, 122,
   122, 122, 122, 122, 122, 122, 122, 122,
   122, 123, 123, 123, 123, 123, 123, 123,
   123, 123, 123, 123, 123, 123, 123, 123,
   123, 124]

/-! ## `src/encoder/mbeenc.cpp`: the quantizer `encode_ambe`

`float` is a type parameter `F` with its arithmetic operators and its order; the
conversions, literals and `<cmath>` functions are the fields of `FloatFns`.  The mbelib
tables of `ambe3600x2450_const.h`, the types `IMBE_PARAM` and `mbe_parms` and the mbelib
routines are not part of the sources: the tables and routines are parameters, the types
carry the fields the quantizer touches.  An `int` array index is converted with
`Int.toNat`. -/

/-- Conversions, literals and library functions of `float` used by the encoder:
`(float) n`, a decimal literal, `(int) x`, `fabsf`, `log2f`, `cosf`, `sqrtf`, `powf` and
`(float) M_PI`. -/
structure FloatFns (F : Type) where
  ofInt : Int → F
  lit : ℚ → F
  toInt : F → Int
  fabsf : F → F
  log2f : F → F
  cosf : F → F
  sqrtf : F → F
  powf : F → F → F
  pi : F

/-- Modelled from the spec: `IMBE_PARAM` is declared outside the sources.  The voice
model frame: pitch period, harmonic count, per-harmonic magnitudes and voicing flags. -/
structure IMBE_PARAM where
  ref_pitch : Int
  num_harms : Int
  sa : Buf Int
  v_uv_dsn : Buf Int

/-- Modelled from the spec: `mbe_parms` is declared outside the sources.  The predictor
state: previous harmonic count `L`, previous gain `gamma`, previous log-magnitude
envelope `log2Ml`, and the remaining fields, which the encoder does not touch. -/
structure mbe_parms (F R : Type) where
  L : Int
  gamma : F
  log2Ml : Buf F
  rest : R

/-- The constant tables of `ambe3600x2450_const.h` read by `encode_ambe`. -/
structure AmbeTables (F : Type) where
  AmbeLtable : Nat → F
  AmbeW0table : Nat → F
  AmbeVuv : Nat → Nat → Int
  AmbeDg : Nat → F
  AmbePRBA24 : Nat → Nat → F
  AmbePRBA58 : Nat → Nat → F
  AmbeHOCb5 : Nat → Nat → F
  AmbeHOCb6 : Nat → Nat → F
  AmbeHOCb7 : Nat → Nat → F
  AmbeHOCb8 : Nat → Nat → F
  AmbeLmprbl : Nat → Nat → Int

/-- What a call of `encode_ambe` leaves behind: the array `b[]` and the two parameter
sets it received by pointer. -/
structure AmbeResult (F R : Type) where
  b : Buf Int
  cur_mp : mbe_parms F R
  prev_mp : mbe_parms F R

/-- The read `b0_lookup[i]`. -/
def b0_lookup (i : Int) : Int := b0_lookup_table.getD i.toNat 0

/-- The constant `b0_lmax = sizeof(b0_lookup) / sizeof(b0_lookup[0])`. -/
def b0_lmax : Int := b0_lookup_table.length

/-- How the pitch adjustment loop of `encode_ambe` ends: with a table index whose
harmonic count agrees, with the index outside the table, or not within the allotted
number of iterations. -/
inductive PitchSearch where
  | found (b0_i : Int)
  | aborted
  | running
  deriving DecidableEq

/-- The loop `while (L != imbe_param->num_harms)` of `encode_ambe` (mbeenc.cpp:281-300),
entered with the table index `b0_i`; the first argument bounds the number of executions
of the loop body. -/
def encode_ambe_pitch {F : Type} (fl : FloatFns F) (T : AmbeTables F) (num_harms : Int) :
    Nat → Int → PitchSearch
  | 0, b0_i =>
    if fl.toInt (T.AmbeLtable (b0_lookup b0_i).toNat) = num_harms then PitchSearch.found b0_i
    else PitchSearch.running
  | fuel + 1, b0_i =>
    let L := fl.toInt (T.AmbeLtable (b0_lookup b0_i).toNat)
    if L = num_harms then PitchSearch.found b0_i
    else
      let b0_i := if L < num_harms then b0_i + 1 else b0_i - 1
      if b0_i < 0 ∨ b0_i ≥ b0_lmax then PitchSearch.aborted
      else encode_ambe_pitch fl T num_harms fuel b0_i

/-- The fallback stores of `encode_ambe` (mbeenc.cpp:275-278 and 292-295). -/
def encode_ambe_fallback (b : Buf Int) : Buf Int :=
  let b := b.set 0 40
  let b := b.set 1 0
  let b := b.set 2 0
  forLoop 3 9 (fun i b => b.set i 0) b

/-- The squared magnitudes `m_float2` (mbeenc.cpp:302-307). -/
def encode_ambe_m_float2 {F : Type} [Mul F] (fl : FloatFns F) (imbe_param : IMBE_PARAM)
    (L : Int) : Buf F :=
  forLoop 1 (L.toNat + 1) (fun l m_float2 =>
    let m_float2 := m_float2.set (l - 1) (fl.ofInt (imbe_param.sa.get (l - 1)))
    m_float2.set (l - 1) (m_float2.get (l - 1) * m_float2.get (l - 1))) ⟨fun _ => fl.lit 0⟩

/-- The voicing search (mbeenc.cpp:309-326); the loop state is `(en_min, b[1])`, the
result is `b[1]`. -/
def encode_ambe_vuv {F : Type} [Add F] [Mul F] [LT F] [DecidableRel (fun a b : F => a < b)]
    (fl : FloatFns F) (T : AmbeTables F) (imbe_param : IMBE_PARAM) (b0 L : Int)
    (m_float2 : Buf F) : Int :=
  (forLoop 0 17 (fun n (st : F × Int) =>
    let En := forLoop 1 (L.toNat + 1) (fun l En =>
      let jl := fl.toInt (fl.ofInt l * fl.lit 16 * T.AmbeW0table b0.toNat)
      let jl := if jl > 7 then 7 else jl
      if imbe_param.v_uv_dsn.get (l - 1) ≠ T.AmbeVuv n jl.toNat then
        En + m_float2.get (l - 1) else En) (fl.lit 0)
    if n = 0 then (En, st.2)
    else if En < st.1 then (En, (n : Int)) else st) (fl.lit 0, 0)).2

/-- The log spectral amplitudes (mbeenc.cpp:328-343): the array `lsa` and `lsa_sum`. -/
def encode_ambe_lsa {F : Type} [Add F] [Mul F] [LT F] [DecidableRel (fun a b : F => a < b)]
    (fl : FloatFns F) (T : AmbeTables F) (imbe_param : IMBE_PARAM) (b0 : Int) : Buf F × F :=
  let num_harms_f := fl.ofInt imbe_param.num_harms
  let log_l_2 := fl.lit 0.5 * fl.log2f num_harms_f
  let log_l_w0 :=
    fl.lit 0.5 * fl.log2f (num_harms_f * T.AmbeW0table b0.toNat * fl.lit 2 * fl.pi)
      + fl.lit 2.289
  forLoop 0 imbe_param.num_harms.toNat (fun i1 (st : Buf F × F) =>
    let sa := fl.ofInt (imbe_param.sa.get i1)
    let sa := if sa < fl.ofInt 1 then fl.lit 1 else sa
    let lsa :=
      if imbe_param.v_uv_dsn.get i1 ≠ 0 then st.1.set i1 (log_l_2 + fl.log2f sa)
      else st.1.set i1 (log_l_w0 + fl.log2f sa)
    (lsa, st.2 + lsa.get i1)) (⟨fun _ => fl.lit 0⟩, fl.lit 0)

/-- The gain search (mbeenc.cpp:345-358); the loop state is `(error, error_index)`. -/
def encode_ambe_gain {F : Type} [Sub F] [Mul F] [Div F] [LT F]
    [DecidableRel (fun a b : F => a < b)] (fl : FloatFns F) (T : AmbeTables F)
    (imbe_param : IMBE_PARAM) (prev_gamma : F) (gain_adjust lsa_sum : F) : F × Int :=
  let num_harms_f := fl.ofInt imbe_param.num_harms
  let gain := lsa_sum / num_harms_f
  let diff_gain := gain - fl.lit 0.5 * prev_gamma - gain_adjust
  forLoop 0 32 (fun i1 (st : F × Int) =>
    let diff := fl.fabsf (diff_gain - T.AmbeDg i1)
    if i1 = 0 ∨ diff < st.1 then (diff, (i1 : Int)) else st) (fl.lit 0, 0)

/-- The prediction residuals `T` (mbeenc.cpp:360-371), computed on the previous
parameters after the store `prev_mp->log2Ml[0] = prev_mp->log2Ml[1]`. -/
def encode_ambe_T {F R : Type} [Sub F] [Mul F] [Div F] (fl : FloatFns F)
    (imbe_param : IMBE_PARAM) (prev_mp : mbe_parms F R) (lsa : Buf F) : Buf F :=
  let num_harms_f := fl.ofInt imbe_param.num_harms
  let l_prev_l := fl.ofInt prev_mp.L / num_harms_f
  forLoop 0 imbe_param.num_harms.toNat (fun i1 T =>
    let kl := l_prev_l * fl.ofInt (i1 + 1)
    let kl_floor := fl.toInt kl
    let kl_frac := kl - fl.ofInt kl_floor
    T.set i1 (lsa.get i1 - fl.lit 0.65 * (fl.lit 1 - kl_frac) * prev_mp.log2Ml.get kl_floor.toNat
      - fl.lit 0.65 * kl_frac * prev_mp.log2Ml.get (kl_floor + 1).toNat)) ⟨fun _ => fl.lit 0⟩

/-- Position of `C[r][k]` in the row-major array `float C[4][17]`. -/
def C_index (r k : Nat) : Nat := 17 * r + k

/-- The sub-band transform `C` (mbeenc.cpp:373-391); `c[i]` is kept as its offset in `T`. -/
def encode_ambe_C {F : Type} [Add F] [Sub F] [Mul F] [Div F] (fl : FloatFns F)
    (J : Nat → Int) (T : Buf F) : Buf F :=
  let c := (forLoop 0 4 (fun i (st : Buf Int × Int) => (st.1.set i st.2, st.2 + J i))
    (⟨fun _ => 0⟩, 0)).1
  forLoop 1 5 (fun i C =>
    forLoop 1 ((J (i - 1)).toNat + 1) (fun k C =>
      let s := forLoop 1 ((J (i - 1)).toNat + 1) (fun j s =>
        s + T.get (c.get (i - 1) + ((j : Int) - 1)).toNat *
          fl.cosf (fl.pi * (fl.ofInt k - fl.lit 1) * (fl.ofInt j - fl.lit 0.5)
            / fl.ofInt (J (i - 1)))) (fl.lit 0)
      C.set (C_index (i - 1) (k - 1)) (s / fl.ofInt (J (i - 1)))) C) ⟨fun _ => fl.lit 0⟩

/-- The combined coefficients `R` (mbeenc.cpp:393-401). -/
def encode_ambe_R {F : Type} [Add F] [Sub F] [Mul F] (fl : FloatFns F) (C : Buf F) : Buf F :=
  let SQRT_2 := fl.sqrtf (fl.lit 2)
  let R : Buf F := ⟨fun _ => fl.lit 0⟩
  let R := R.set 0 (C.get (C_index 0 0) + SQRT_2 * C.get (C_index 0 1))
  let R := R.set 1 (C.get (C_index 0 0) - SQRT_2 * C.get (C_index 0 1))
  let R := R.set 2 (C.get (C_index 1 0) + SQRT_2 * C.get (C_index 1 1))
  let R := R.set 3 (C.get (C_index 1 0) - SQRT_2 * C.get (C_index 1 1))
  let R := R.set 4 (C.get (C_index 2 0) + SQRT_2 * C.get (C_index 2 1))
  let R := R.set 5 (C.get (C_index 2 0) - SQRT_2 * C.get (C_index 2 1))
  let R := R.set 6 (C.get (C_index 3 0) + SQRT_2 * C.get (C_index 3 1))
  R.set 7 (C.get (C_index 3 0) - SQRT_2 * C.get (C_index 3 1))

/-- The PRBA values `G` (mbeenc.cpp:403-411). -/
def encode_ambe_G {F : Type} [Add F] [Sub F] [Mul F] [Div F] (fl : FloatFns F)
    (R : Buf F) : Buf F :=
  forLoop 1 9 (fun m G =>
    let G := G.set (m - 1) (fl.lit 0)
    let G := forLoop 1 9 (fun i G =>
      G.set (m - 1) (G.get (m - 1) + R.get (i - 1) *
        fl.cosf (fl.pi * (fl.ofInt m - fl.lit 1) * (fl.ofInt i - fl.lit 0.5) / fl.lit 8))) G
    G.set (m - 1) (G.get (m - 1) / fl.lit 8)) ⟨fun _ => fl.lit 0⟩

/-- The search over `AmbePRBA24` (mbeenc.cpp:413-424), entered with the `(error,
error_index)` left by the gain search. -/
def encode_ambe_prba24 {F : Type} [Add F] [Sub F] [Mul F] [LT F]
    [DecidableRel (fun a b : F => a < b)] (fl : FloatFns F) (T : AmbeTables F) (G : Buf F)
    (st : F × Int) : F × Int :=
  forLoop 0 512 (fun i (st : F × Int) =>
    let err := fl.lit 0
    let diff := G.get 1 - T.AmbePRBA24 i 0
    let err := err + diff * diff
    let diff := G.get 2 - T.AmbePRBA24 i 1
    let err := err + diff * diff
    let diff := G.get 3 - T.AmbePRBA24 i 2
    let err := err + diff * diff
    if i = 0 ∨ err < st.1 then (err, (i : Int)) else st) st

/-- The search over `AmbePRBA58` (mbeenc.cpp:426-438). -/
def encode_ambe_prba58 {F : Type} [Add F] [Sub F] [Mul F] [LT F]
    [DecidableRel (fun a b : F => a < b)] (fl : FloatFns F) (T : AmbeTables F) (G : Buf F)
    (st : F × Int) : F × Int :=
  forLoop 0 128 (fun i (st : F × Int) =>
    let err := fl.lit 0
    let diff := G.get 4 - T.AmbePRBA58 i 0
    let err := err + diff * diff
    let diff := G.get 5 - T.AmbePRBA58 i 1
    let err := err + diff * diff
    let diff := G.get 6 - T.AmbePRBA58 i 2
    let err := err + diff * diff
    let diff := G.get 7 - T.AmbePRBA58 i 3
    let err := err + diff * diff
    if i = 0 ∨ err < st.1 then (err, (i : Int)) else st) st

/-- One of the four blocks `b[5]` .. `b[8]` (mbeenc.cpp:440-514) for the sub-band `ii`, its
table `AmbeHOCb` and the table size: the value stored in `b[4 + ii]` and the `(error,
error_index)` it leaves.  The inner loop `j <= J[ii-1] - 2 && j <= 4` runs `j` from `1` to
the smaller of the two bounds. -/
def encode_ambe_hoc {F : Type} [Add F] [Sub F] [Mul F] [LT F]
    [DecidableRel (fun a b : F => a < b)] (fl : FloatFns F) (AmbeHOCb : Nat → Nat → F)
    (size ii : Nat) (J : Nat → Int) (C : Buf F) (st : F × Int) : Int × (F × Int) :=
  if J (ii - 1) ≤ 2 then (0, st)
  else
    let st := forLoop 0 size (fun n (st : F × Int) =>
      let err := forLoop 1 ((min (J (ii - 1) - 2) 4).toNat + 1) (fun j err =>
        let diff := AmbeHOCb n (j - 1) - C.get (C_index (ii - 1) (j + 2 - 1))
        err + diff * diff) (fl.lit 0)
      if n = 0 ∨ err < st.1 then (err, (n : Int)) else st) st
    (st.2, st)

/-- The body of `encode_ambe` after the pitch index `b0_i` is settled
(mbeenc.cpp:302-527). -/
def encode_ambe_quantize {F R : Type} [Add F] [Sub F] [Mul F] [Div F] [LT F]
    [DecidableRel (fun a b : F => a < b)] (fl : FloatFns F) (T : AmbeTables F)
    (mbe_decodeAmbe2450Parms :
      Buf Nat → mbe_parms F R → mbe_parms F R → mbe_parms F R × mbe_parms F R)
    (mbe_moveMbeParms : mbe_parms F R → mbe_parms F R → mbe_parms F R × mbe_parms F R)
    (imbe_param : IMBE_PARAM) (b : Buf Int) (cur_mp prev_mp : mbe_parms F R)
    (gain_adjust : F) (b0_i : Int) : AmbeResult F R :=
  let b := b.set 0 (b0_lookup b0_i)
  let L := fl.toInt (T.AmbeLtable (b.get 0).toNat)
  let m_float2 := encode_ambe_m_float2 fl imbe_param L
  let b := b.set 1 (encode_ambe_vuv fl T imbe_param (b.get 0) L m_float2)
  let lsa := encode_ambe_lsa fl T imbe_param (b.get 0)
  let st := encode_ambe_gain fl T imbe_param prev_mp.gamma gain_adjust lsa.2
  let b := b.set 2 st.2
  let prev_mp := { prev_mp with log2Ml := prev_mp.log2Ml.set 0 (prev_mp.log2Ml.get 1) }
  let T_ := encode_ambe_T fl imbe_param prev_mp lsa.1
  let J := T.AmbeLmprbl imbe_param.num_harms.toNat
  let C := encode_ambe_C fl J T_
  let R_ := encode_ambe_R fl C
  let G := encode_ambe_G fl R_
  let st := encode_ambe_prba24 fl T G st
  let b := b.set 3 st.2
  let st := encode_ambe_prba58 fl T G st
  let b := b.set 4 st.2
  let h := encode_ambe_hoc fl T.AmbeHOCb5 32 1 J C st
  let b := b.set (4 + 1) h.1
  let h := encode_ambe_hoc fl T.AmbeHOCb6 16 2 J C h.2
  let b := b.set (4 + 2) h.1
  let h := encode_ambe_hoc fl T.AmbeHOCb7 16 3 J C h.2
  let b := b.set (4 + 3) h.1
  let h := encode_ambe_hoc fl T.AmbeHOCb8 8 4 J C h.2
  let b := b.set (4 + 4) h.1
  let ambe_49 := encode_49bit b
  let ambe_d := forLoop 0 49 (fun i ambe_d => ambe_d.set i (ambe_49.get i)) Buf.zero
  let s := mbe_decodeAmbe2450Parms ambe_d cur_mp prev_mp
  let s := mbe_moveMbeParms s.1 s.2
  { b := b, cur_mp := s.1, prev_mp := s.2 }

/-- The function `encode_ambe` (mbeenc.cpp:266-527).  `fuel` bounds the number of
executions of the body of the pitch adjustment loop; the result is `none` when the loop
has not ended within that bound. -/
def encode_ambe {F R : Type} [Add F] [Sub F] [Mul F] [Div F] [LT F]
    [DecidableRel (fun a b : F => a < b)] (fl : FloatFns F) (T : AmbeTables F)
    (mbe_decodeAmbe2450Parms :
      Buf Nat → mbe_parms F R → mbe_parms F R → mbe_parms F R × mbe_parms F R)
    (mbe_moveMbeParms : mbe_parms F R → mbe_parms F R → mbe_parms F R × mbe_parms F R)
    (fuel : Nat) (imbe_param : IMBE_PARAM) (b : Buf Int) (cur_mp prev_mp : mbe_parms F R)
    (gain_adjust : F) : Option (AmbeResult F R) :=
  let b0_i := (imbe_param.ref_pitch >>> 5) - 159
  if b0_i < 0 ∨ b0_i ≥ b0_lmax then
    some { b := encode_ambe_fallback b, cur_mp := cur_mp, prev_mp := prev_mp }
  else
    match encode_ambe_pitch fl T imbe_param.num_harms fuel b0_i with
    | PitchSearch.running => none
    | PitchSearch.aborted =>
      some { b := encode_ambe_fallback b, cur_mp := cur_mp, prev_mp := prev_mp }
    | PitchSearch.found b0_i =>
      some (encode_ambe_quantize fl T mbe_decodeAmbe2450Parms mbe_moveMbeParms imbe_param b
        cur_mp prev_mp gain_adjust b0_i)

/-! ## `src/opendmr.cpp`: the encoder stream -/

/-- The collaborators of the encoder that are not part of the sources: the values
`mbe_initMbeParms` gives the two parameter sets, the canonical parameter decoder
`mbe_decodeAmbe2450Parms` and `mbe_moveMbeParms` (each returning the two parameter sets it
received by pointer), a newly constructed `imbe_vocoder`, its analysis step `imbe_encode`
and its accessor `param`. -/
structure EncoderEnv (F R V : Type) where
  mbe_initMbeParms : mbe_parms F R × mbe_parms F R
  mbe_decodeAmbe2450Parms :
    Buf Nat → mbe_parms F R → mbe_parms F R → mbe_parms F R × mbe_parms F R
  mbe_moveMbeParms : mbe_parms F R → mbe_parms F R → mbe_parms F R × mbe_parms F R
  vocoder_new : V
  imbe_encode : V → Buf Int → V
  param : V → IMBE_PARAM

/-- The data members of the class `MBEEncoder` (mbeenc.h:55-59). -/
structure MBEEncoder (F R V : Type) where
  vocoder : V
  cur_mp : mbe_parms F R
  prev_mp : mbe_parms F R
  d_gain_adjust : F

/-- The constructor `MBEEncoder::MBEEncoder()` (mbeenc.cpp:532-537). -/
def MBEEncoder_new {F R V : Type} (fl : FloatFns F) (env : EncoderEnv F R V) :
    MBEEncoder F R V :=
  { vocoder := env.vocoder_new
    cur_mp := env.mbe_initMbeParms.1
    prev_mp := env.mbe_initMbeParms.2
    d_gain_adjust := fl.lit 1 }

/-- The method `MBEEncoder::set_gain_adjust` (mbeenc.h:31). -/
def MBEEncoder.set_gain_adjust {F R V : Type} (m : MBEEncoder F R V) (gain_adjust : F) :
    MBEEncoder F R V :=
  { m with d_gain_adjust := gain_adjust }

/-- The method `MBEEncoder::set_dmr_mode` (mbeenc.cpp:543-546): no action. -/
def MBEEncoder.set_dmr_mode {F R V : Type} (m : MBEEncoder F R V) : MBEEncoder F R V := m

/-- The members of `struct opendmr_encoder` (opendmr.cpp:202-205); `enc = none` is the
null pointer. -/
structure opendmr_encoder (F R V : Type) where
  enc : Option (MBEEncoder F R V)
  gain_db : Int

/-- The function `opendmr_encoder_create` (opendmr.cpp:207-222).  The two flags say
whether `calloc` and `new (std::nothrow)` succeed; the result `none` is the null pointer. -/
def opendmr_encoder_create {F R V : Type} (fl : FloatFns F) (env : EncoderEnv F R V)
    (calloc_ok new_ok : Bool) : Option (opendmr_encoder F R V) :=
  if calloc_ok then
    if new_ok then
      some { enc := some (((MBEEncoder_new fl env).set_dmr_mode).set_gain_adjust (fl.lit 1))
             gain_db := 0 }
    else none
  else none

/-- The function `opendmr_encoder_reset` (opendmr.cpp:232-245): the object behind the
handle after the call.  The flag says whether `new (std::nothrow)` succeeds. -/
def opendmr_encoder_reset {F R V : Type} [Div F] (fl : FloatFns F) (env : EncoderEnv F R V)
    (new_ok : Bool) (enc : Option (opendmr_encoder F R V)) : Option (opendmr_encoder F R V) :=
  match enc with
  | some h =>
    match h.enc with
    | some _ =>
      if new_ok then
        some { h with enc := some (((MBEEncoder_new fl env).set_dmr_mode).set_gain_adjust
          (fl.powf (fl.lit 10) (fl.ofInt h.gain_db / fl.lit 20))) }
      else some { h with enc := none }
    | none => enc
  | none => enc

/-- The function `opendmr_encoder_set_gain` (opendmr.cpp:247-256): the object behind the
handle after the call. -/
def opendmr_encoder_set_gain {F R V : Type} [Div F] (fl : FloatFns F)
    (enc : Option (opendmr_encoder F R V)) (gain_db : Int) :
    Option (opendmr_encoder F R V) :=
  match enc with
  | some h =>
    match h.enc with
    | some m =>
      let gain_db := if gain_db < -20 then -20 else gain_db
      let gain_db := if gain_db > 20 then 20 else gain_db
      some { enc := some (m.set_gain_adjust
               (fl.powf (fl.lit 10) (fl.ofInt gain_db / fl.lit 20)))
             gain_db := gain_db }
    | none => enc
  | none => enc

/-- Rational arithmetic in place of `float`: exact conversions and literals, truncation
for `(int) x`, the exact power for `powf` with a natural exponent; `log2f`, `cosf`, `sqrtf`
and `M_PI` are rough rational stand-ins. -/
def ratFloat : FloatFns ℚ :=
  { ofInt := fun n => n
    lit := fun q => q
    toInt := fun x => if 0 ≤ x then x.floor else x.ceil
    fabsf := fun x => if x < 0 then -x else x
    log2f := fun x => (Nat.log2 x.floor.toNat : ℚ)
    cosf := fun x => 1 - x * x / 2
    sqrtf := fun x => (Nat.sqrt x.floor.toNat : ℚ)
    powf := fun x y => x ^ y.floor.toNat
    pi := 355 / 113 }

/-- A table set for evaluation: the harmonic count of pitch index `b0` is `9 + b0 / 3`,
every other table is zero. -/
def sampleTables : AmbeTables ℚ :=
  { AmbeLtable := fun b0 => ((9 + b0 / 3 : Nat) : ℚ)
    AmbeW0table := fun _ => 0
    AmbeVuv := fun _ _ => 0
    AmbeDg := fun _ => 0
    AmbePRBA24 := fun _ _ => 0
    AmbePRBA58 := fun _ _ => 0
    AmbeHOCb5 := fun _ _ => 0
    AmbeHOCb6 := fun _ _ => 0
    AmbeHOCb7 := fun _ _ => 0
    AmbeHOCb8 := fun _ _ => 0
    AmbeLmprbl := fun _ _ => 0 }

/-- A predictor state for evaluation: `L = 9`, `gamma = 0`, `log2Ml[0] = 5`,
`log2Ml[1] = 7`, zero elsewhere. -/
def sampleParms : mbe_parms ℚ Unit :=
  { L := 9, gamma := 0, log2Ml := Buf.ofList [5, 7] 0, rest := () }

/-- A decoder stand-in that stores the pitch bits `ambe_d[0..3]` in `cur_mp->L` and cell 0
of the previous envelope in `cur_mp->gamma`. -/
def sampleDecode (ambe_d : Buf Nat) (cur_mp prev_mp : mbe_parms ℚ Unit) :
    mbe_parms ℚ Unit × mbe_parms ℚ Unit :=
  ({ cur_mp with
      L := 8 * ambe_d.get 0 + 4 * ambe_d.get 1 + 2 * ambe_d.get 2 + ambe_d.get 3 + 100
      gamma := prev_mp.log2Ml.get 0 }, prev_mp)

/-- The stand-in for `mbe_moveMbeParms`: the current parameters become the previous ones. -/
def sampleMove (cur_mp _prev_mp : mbe_parms ℚ Unit) : mbe_parms ℚ Unit × mbe_parms ℚ Unit :=
  (cur_mp, cur_mp)

/-- A voice model frame of the analyser: pitch period `ref_pitch`, harmonic count
`num_harms`, all magnitudes `1`, all harmonics unvoiced. -/
def sampleFrame (ref_pitch num_harms : Int) : IMBE_PARAM :=
  { ref_pitch := ref_pitch, num_harms := num_harms, sa := ⟨fun _ => 1⟩,
    v_uv_dsn := ⟨fun _ => 0⟩ }

/-- Collaborators for evaluation: the analyser state is the voice model frame it reports,
and `imbe_encode` keeps it. -/
def sampleEnv : EncoderEnv ℚ Unit IMBE_PARAM :=
  { mbe_initMbeParms := (sampleParms, sampleParms)
    mbe_decodeAmbe2450Parms := sampleDecode
    mbe_moveMbeParms := sampleMove
    vocoder_new := sampleFrame 0 0
    imbe_encode := fun v _ => v
    param := fun v => v }

/-- The layout of `encode_49bit` read off its 49 stores: output position `k` holds bit
`(encode_49bit_layout k).2` of field `(encode_49bit_layout k).1`. -/
def encode_49bit_layout (k : Nat) : Nat × Nat :=
  [(0, 6), (0, 5), (0, 4), (0, 3), (1, 4), (1, 3), (1, 2), (1, 1), (2, 4), (2, 3),
   (2, 2), (2, 1), (3, 8), (3, 7), (3, 6), (3, 5), (3, 4), (3, 3), (3, 2), (3, 1),
   (4, 6), (4, 5), (4, 4), (4, 3), (5, 4), (5, 3), (5, 2), (5, 1), (6, 3), (6, 2),
   (6, 1), (7, 3), (7, 2), (7, 1), (8, 2), (1, 0), (2, 0), (0, 2), (0, 1), (0, 0),
   (3, 0), (4, 2), (4, 1), (4, 0), (5, 0), (6, 0), (7, 0), (8, 1), (8, 0)].getD k (0, 0)

/-- The output position of bit `j` of field `f` in the layout of `encode_49bit`. -/
def encode_49bit_position (f j : Nat) : Nat :=
  ([[39, 38, 37, 3, 2, 1, 0], [35, 7, 6, 5, 4], [36, 11, 10, 9, 8],
    [40, 19, 18, 17, 16, 15, 14, 13, 12], [43, 42, 41, 23, 22, 21, 20],
    [44, 27, 26, 25, 24], [45, 30, 29, 28], [46, 33, 32, 31], [48, 47, 34]].getD f []).getD j 0

/-! ## Frame conversion and the table-driven DMR packer -/

/-- The function `opendmr_convert_frame` (opendmr.cpp:357-378): the pair
`(bytes, bits)` after the call.  With `to_bits` the 72 cells of `bits` are stored,
otherwise `bytes` is cleared and rebuilt. -/
def opendmr_convert_frame (bytes bits : Buf Nat) (to_bits : Bool) : Buf Nat × Buf Nat :=
  if to_bits then
    (bytes, forLoop 0 72 (fun i bits =>
      let byte_idx := i / 8
      let bit_pos := 7 - (i % 8)
      bits.set i ((bytes.get byte_idx >>> bit_pos) &&& 1)) bits)
  else
    (forLoop 0 72 (fun i bytes =>
      let byte_idx := i / 8
      let bit_pos := 7 - (i % 8)
      if bits.get i ≠ 0 then bytes.set byte_idx (bytes.get byte_idx ||| (1 <<< bit_pos))
      else bytes) Buf.zero, bits)

/-- The table `PRNG_TABLE` (mbeenc.cpp:163-195), 256 entries. -/
def PRNG_TABLE_list : List Nat :=
  [0x000000, 0x000001, 0x000002, 0x000003, 0x000004, 0x000007, 0x000006, 0x000005,
   0x000008, 0x000009, 0x00000E, 0x00000F, 0x00000A, 0x00000B, 0x00000C, 0x00000D,
   0x000010, 0x000011, 0x000012, 0x000013, 0x00001C, 0x00001D, 0x00001A, 0x00001B,
   0x000018, 0x000019, 0x000016, 0x000017, 0x000014, 0x000015, 0x00003A, 0x00003B,
   0x000024, 0x000025, 0x000026, 0x000027, 0x000020, 0x000021, 0x000022, 0x000023,
   0x000038, 0x000039, 0x00002E, 0x00002F, 0x000034, 0x000035, 0x00002C, 0x00002D,
   0x000028, 0x000029, 0x00002A, 0x00002B, 0x00003C, 0x00003D, 0x000032, 0x000033,
   0x000030, 0x000031, 0x000036, 0x000037, 0x00006C, 0x00006D, 0x00006A, 0x00006B,
   0x000048, 0x000049, 0x00004E, 0x00004F, 0x00004A, 0x00004B, 0x00004C, 0x00004D,
   0x000074, 0x000075, 0x000076, 0x000077, 0x000070, 0x000071, 0x000072, 0x000073,
   0x000068, 0x000069, 0x00005E, 0x00005F, 0x000054, 0x000055, 0x00005C, 0x00005D,
   0x000058, 0x000059, 0x00005A, 0x00005B, 0x00007C, 0x00007D, 0x000062, 0x000063,
   0x000040, 0x000041, 0x000046, 0x000047, 0x000044, 0x000045, 0x00007A, 0x00007B,
   0x000078, 0x000079, 0x00007E, 0x00007F, 0x00006E, 0x00006F, 0x000064, 0x000065,
   0x000066, 0x000067, 0x000060, 0x000061, 0x000042, 0x000043, 0x000050, 0x000051,
   0x000052, 0x000053, 0x00009C, 0x00009D, 0x00009A, 0x00009B, 0x000098, 0x000099,
   0x000090, 0x000091, 0x000096, 0x000097, 0x000094, 0x000095, 0x0000DA, 0x0000DB,
   0x0000D8, 0x0000D9, 0x0000E8, 0x0000E9, 0x0000EE, 0x0000EF, 0x0000EC, 0x0000ED,
   0x0000E4, 0x0000E5, 0x0000E6, 0x0000E7, 0x0000E0, 0x0000E1, 0x0000E2, 0x0000E3,
   0x0000DC, 0x0000DD, 0x0000C2, 0x0000C3, 0x0000C0, 0x0000C1, 0x0000C6, 0x0000C7,
   0x0000F8, 0x0000F9, 0x0000FE, 0x0000FF, 0x0000FA, 0x0000FB, 0x0000FC, 0x0000FD,
   0x0000F4, 0x0000F5, 0x0000F6, 0x0000F7, 0x0000F0, 0x0000F1, 0x0000F2, 0x0000F3,
   0x0000C4, 0x0000C5, 0x0000CA, 0x0000CB, 0x0000D4, 0x0000D5, 0x0000CC, 0x0000CD,
   0x0000C8, 0x0000C9, 0x0000CE, 0x0000CF, 0x0000D0, 0x0000D1, 0x0000DE, 0x0000DF,
   0x000080, 0x000081, 0x000086, 0x000087, 0x000084, 0x000085, 0x0000BA, 0x0000BB,
   0x0000B8, 0x0000B9, 0x0000BE, 0x0000BF, 0x0000AE, 0x0000AF, 0x0000A4, 0x0000A5,
   0x0000A6, 0x0000A7, 0x0000A0, 0x0000A1, 0x000082, 0x000083, 0x000092, 0x000093,
   0x0000D2, 0x0000D3, 0x0000D6, 0x0000D7, 0x000088, 0x000089, 0x00008E, 0x00008F,
   0x00008A, 0x00008B, 0x00008C, 0x00008D, 0x0000B4, 0x0000B5, 0x0000B6, 0x0000B7,
   0x0000B0, 0x0000B1, 0x0000B2, 0x0000B3, 0x0000AC, 0x0000AD, 0x0000A2, 0x0000A3,
   0x0000BC, 0x0000BD, 0x0000AA, 0x0000AB, 0x0000A8, 0x0000A9, 0x0000AE, 0x0000AF]

/-- The number of entries of `PRNG_TABLE`. -/
def PRNG_TABLE_size : Nat := PRNG_TABLE_list.length

/-- The read `PRNG_TABLE[i]` for an index inside the table. -/
def PRNG_TABLE (i : Nat) : Nat := PRNG_TABLE_list.getD i 0

/-- The macro `READ_BIT(p, i)` (mbeenc.cpp:198). -/
def READ_BIT (p : Buf Nat) (i : Nat) : Nat :=
  (p.get (i >>> 3) >>> (7 - (i &&& 7))) &&& 1

/-- The macro `WRITE_BIT(p, i, b)` (mbeenc.cpp:199).  `~(1 << k)` is the 32-bit
complement `0xFFFFFFFF ^ (1 << k)`. -/
def WRITE_BIT (p : Buf Nat) (i : Nat) (b : Nat) : Buf Nat :=
  p.set (i >>> 3)
    (if b ≠ 0 then p.get (i >>> 3) ||| (1 <<< (7 - (i &&& 7)))
     else p.get (i >>> 3) &&& (0xFFFFFFFF ^^^ (1 <<< (7 - (i &&& 7)))))

/-- The value of `aOrig` after the first loop of `MBEEncoder::encode_dmr`
(mbeenc.cpp:569-575), together with `bOrig` and the final `MASK`. -/
def encode_dmr_ab (inp : Buf Nat) : Nat × Nat × Nat :=
  forLoop 0 12 (fun i (st : Nat × Nat × Nat) =>
    let aOrig := if READ_BIT inp i ≠ 0 then st.1 ||| st.2.2 else st.1
    let bOrig := if READ_BIT inp (i + 12) ≠ 0 then st.2.1 ||| st.2.2 else st.2.1
    (aOrig, bOrig, st.2.2 >>> 1)) (0, 0, 0x000800)

/-- The method `MBEEncoder::encode_dmr` (mbeenc.cpp:562-609): the 7 input bytes in, the
9 output bytes out.  The read `PRNG_TABLE[aOrig]` is defined only inside the table;
outside it the call has no result. -/
def MBEEncoder.encode_dmr (encode24128 encode23127 : Nat → Nat) (inp : Buf Nat) :
    Option (Buf Nat) :=
  let ab := encode_dmr_ab inp
  let aOrig := ab.1
  let bOrig := ab.2.1
  let cOrig := (forLoop 0 25 (fun i (st : Nat × Nat) =>
    (if READ_BIT inp (i + 24) ≠ 0 then st.1 ||| st.2 else st.1, st.2 >>> 1))
    (0, 0x1000000)).1
  let a := encode24128 aOrig
  if aOrig < PRNG_TABLE_size then
    let p := PRNG_TABLE aOrig >>> 1
    let b := encode23127 bOrig >>> 1
    let b := b ^^^ p
    let out := Buf.zero
    let out := (forLoop 0 24 (fun i (st : Buf Nat × Nat) =>
      (WRITE_BIT st.1 (DMR_A_TABLE i) (a &&& st.2), st.2 >>> 1)) (out, 0x800000)).1
    let out := (forLoop 0 23 (fun i (st : Buf Nat × Nat) =>
      (WRITE_BIT st.1 (DMR_B_TABLE i) (b &&& st.2), st.2 >>> 1)) (out, 0x400000)).1
    let out := (forLoop 0 25 (fun i (st : Buf Nat × Nat) =>
      (WRITE_BIT st.1 (DMR_C_TABLE i) (cOrig &&& st.2), st.2 >>> 1)) (out, 0x1000000)).1
    some out
  else none

/-! ## Vocabulary of the search statements -/

/-- The index `k` is the lowest index below `n` at which `E` takes its least value. -/
def IsFirstArgmin {F : Type} [LE F] [LT F] (E : Nat → F) (n k : Nat) : Prop :=
  k < n ∧ (∀ j, j < n → E k ≤ E j) ∧ (∀ j, j < k → E k < E j)

instance IsFirstArgmin.decidable {F : Type} [LE F] [LT F]
    [DecidableRel (fun a b : F => a ≤ b)] [DecidableRel (fun a b : F => a < b)]
    (E : Nat → F) (n k : Nat) : Decidable (IsFirstArgmin E n k) := by
  unfold IsFirstArgmin
  exact inferInstance

/-- The mismatch energy of the voicing pattern `n`, in the words of the specification:
the sum of the squared magnitudes over the harmonics `l` in `1..L` whose voiced flag
differs from `AmbeVuv[n][min(7, floor(l * 16 * w0))]`, with `w0 = AmbeW0table[b0]`. -/
def vuv_mismatch_energy {F : Type} [LinearOrderedField F] (fl : FloatFns F)
    (T : AmbeTables F) (imbe_param : IMBE_PARAM) (b0 L : Int) (n : Nat) : F :=
  Finset.sum (Finset.Icc 1 L.toNat) (fun l =>
    if imbe_param.v_uv_dsn.get (l - 1)
        ≠ T.AmbeVuv n (min 7 (fl.toInt (fl.ofInt l * fl.lit 16 * T.AmbeW0table b0.toNat))).toNat
    then fl.ofInt (imbe_param.sa.get (l - 1)) ^ 2 else 0)

/-- The squared error of entry `n` of a sub-band table, in the words of the
specification: taken over the `m` transform coefficients `C[r][2]`, `C[r][3]`, ... of the
sub-band with row `r`. -/
def hoc_squared_error {F : Type} [LinearOrderedField F] (AmbeHOCb : Nat → Nat → F)
    (C : Buf F) (r m n : Nat) : F :=
  Finset.sum (Finset.range m) (fun j => (AmbeHOCb n j - C.get (C_index r (j + 2))) ^ 2)

/-- The array `lsa` and the sum `lsa_sum` that `encode_ambe` holds after the pitch index
`b0_i` is settled (mbeenc.cpp:328-343). -/
def quantize_lsa {F : Type} [Add F] [Mul F] [LT F] [DecidableRel (fun a b : F => a < b)]
    (fl : FloatFns F) (T : AmbeTables F) (imbe_param : IMBE_PARAM) (b0_i : Int) :
    Buf F × F :=
  encode_ambe_lsa fl T imbe_param (b0_lookup b0_i)

/-- The array `C` that `encode_ambe` holds at the searches for `b[5]` .. `b[8]`
(mbeenc.cpp:360-391). -/
def quantize_C {F R : Type} [Add F] [Sub F] [Mul F] [Div F] [LT F]
    [DecidableRel (fun a b : F => a < b)] (fl : FloatFns F) (T : AmbeTables F)
    (imbe_param : IMBE_PARAM) (prev_mp : mbe_parms F R) (b0_i : Int) : Buf F :=
  encode_ambe_C fl (T.AmbeLmprbl imbe_param.num_harms.toNat)
    (encode_ambe_T fl imbe_param
      { prev_mp with log2Ml := prev_mp.log2Ml.set 0 (prev_mp.log2Ml.get 1) }
      (quantize_lsa fl T imbe_param b0_i).1)

/-- The array `G` that `encode_ambe` holds at the searches for `b[3]` and `b[4]`
(mbeenc.cpp:393-411). -/
def quantize_G {F R : Type} [Add F] [Sub F] [Mul F] [Div F] [LT F]
    [DecidableRel (fun a b : F => a < b)] (fl : FloatFns F) (T : AmbeTables F)
    (imbe_param : IMBE_PARAM) (prev_mp : mbe_parms F R) (b0_i : Int) : Buf F :=
  encode_ambe_G fl (encode_ambe_R fl (quantize_C fl T imbe_param prev_mp b0_i))

/-- The gain error of entry `i`, in the words of the specification:
`|diff_gain - AmbeDg[i]|`. -/
def gain_distance {F : Type} [LinearOrderedField F] (T : AmbeTables F) (diff_gain : F)
    (i : Nat) : F :=
  |diff_gain - T.AmbeDg i|

/-- The squared distance of `(G[1], G[2], G[3])` to `AmbePRBA24[i]`. -/
def prba24_squared_distance {F : Type} [LinearOrderedField F] (T : AmbeTables F)
    (G : Buf F) (i : Nat) : F :=
  (G.get 1 - T.AmbePRBA24 i 0) ^ 2 + (G.get 2 - T.AmbePRBA24 i 1) ^ 2
    + (G.get 3 - T.AmbePRBA24 i 2) ^ 2

/-- The squared distance of `(G[4], G[5], G[6], G[7])` to `AmbePRBA58[i]`. -/
def prba58_squared_distance {F : Type} [LinearOrderedField F] (T : AmbeTables F)
    (G : Buf F) (i : Nat) : F :=
  (G.get 4 - T.AmbePRBA58 i 0) ^ 2 + (G.get 5 - T.AmbePRBA58 i 1) ^ 2
    + (G.get 6 - T.AmbePRBA58 i 2) ^ 2 + (G.get 7 - T.AmbePRBA58 i 3) ^ 2

/-- The value `diff_gain` that `encode_ambe` holds at the gain search
(mbeenc.cpp:345-347). -/
def quantize_diff_gain {F R : Type} [Add F] [Sub F] [Mul F] [Div F] [LT F]
    [DecidableRel (fun a b : F => a < b)] (fl : FloatFns F) (T : AmbeTables F)
    (imbe_param : IMBE_PARAM) (prev_mp : mbe_parms F R) (gain_adjust : F) (b0_i : Int) : F :=
  (quantize_lsa fl T imbe_param b0_i).2 / fl.ofInt imbe_param.num_harms
    - fl.lit 0.5 * prev_mp.gamma - gain_adjust

/-- What the specification says of the field `v` stored for the sub-band with row `r`,
size `J r`, table `AmbeHOCb` and table size `size`: `0` if the size is at most 2,
otherwise the lowest table index of least squared error over `min(J r - 2, 4)`
coefficients. -/
def HocFieldSpec {F : Type} [LinearOrderedField F] (AmbeHOCb : Nat → Nat → F)
    (size r : Nat) (J : Nat → Int) (C : Buf F) (v : Int) : Prop :=
  (J r ≤ 2 → v = 0) ∧
  (2 < J r → ∃ k : Nat, v = (k : Int) ∧
    IsFirstArgmin (hoc_squared_error AmbeHOCb C r (min (J r - 2) 4).toNat) size k)

/-- The index `k` is the lowest index below `n` such that no index below `n` has a smaller
value of `E`. -/
def IsFirstMinimal {F : Type} [LT F] (E : Nat → F) (n k : Nat) : Prop :=
  k < n ∧ (∀ j, j < n → ¬ E j < E k) ∧ (∀ j, j < k → E k < E j)

/-- The comparison `<` orders the values `E 0`, ..., `E (n - 1)`: on them it is a strict
weak order.  IEEE comparison orders a set of `float` values in which no value, or every
value, is a NaN. -/
def OrdersValues {F : Type} [LT F] (E : Nat → F) (n : Nat) : Prop :=
  (∀ i j, i < n → j < n → E i < E j → ¬ E j < E i) ∧
  (∀ i j k, i < n → j < n → k < n → E i < E j → E i < E k ∨ E k < E j)

/-- The squared error of entry `n` of a sub-band table against the coefficients `C[r][2]`,
`C[r][3]`, ... over `m` coefficients, as accumulated in `float` arithmetic: the squares
`(AmbeHOCb[n][j-1] - C[r][j+1])^2` for `j = 1..m` are added, in this order, to the
literal `0`. -/
def hoc_accumulated_error {F : Type} [Add F] [Sub F] [Mul F] (fl : FloatFns F)
    (AmbeHOCb : Nat → Nat → F) (C : Buf F) (r m n : Nat) : F :=
  forLoop 1 (m + 1) (fun j err =>
    err + (AmbeHOCb n (j - 1) - C.get (C_index r (j + 1)))
      * (AmbeHOCb n (j - 1) - C.get (C_index r (j + 1)))) (fl.lit 0)

/-- What holds of the field `v` stored for the sub-band with row `r` in any `float`
arithmetic: `0` if the size `J r` is at most 2; otherwise, when the comparison orders the
accumulated errors of the table entries, the lowest table index of least accumulated
error over `min(J r - 2, 4)` coefficients. -/
def HocFloatSpec {F : Type} [Add F] [Sub F] [Mul F] [LT F] (fl : FloatFns F)
    (AmbeHOCb : Nat → Nat → F) (size r : Nat) (J : Nat → Int) (C : Buf F) (v : Int) : Prop :=
  (J r ≤ 2 → v = 0) ∧
  (2 < J r → OrdersValues (hoc_accumulated_error fl AmbeHOCb C r (min (J r - 2) 4).toNat) size →
    ∃ k : Nat, v = (k : Int) ∧
      IsFirstMinimal (hoc_accumulated_error fl AmbeHOCb C r (min (J r - 2) 4).toNat) size k)

/-- Whether every element of a list is followed by itself or by its successor. -/
def unitSteps : List Int → Bool
  | a :: b :: t => decide (a ≤ b ∧ b ≤ a + 1) && unitSteps (b :: t)
  | _ => true

/-! ## Further stand-ins for evaluation -/

/-- A table set for evaluation whose harmonic count `9 + 2 * (b0 / 3)` is non-decreasing
in the pitch value `b0` and passes over every even count; every other table is zero. -/
def gapTables : AmbeTables ℚ :=
  { AmbeLtable := fun b0 => ((9 + 2 * (b0 / 3) : Nat) : ℚ)
    AmbeW0table := fun _ => 0
    AmbeVuv := fun _ _ => 0
    AmbeDg := fun _ => 0
    AmbePRBA24 := fun _ _ => 0
    AmbePRBA58 := fun _ _ => 0
    AmbeHOCb5 := fun _ _ => 0
    AmbeHOCb6 := fun _ _ => 0
    AmbeHOCb7 := fun _ _ => 0
    AmbeHOCb8 := fun _ _ => 0
    AmbeLmprbl := fun _ _ => 0 }

/-- A table set for evaluation with non-constant search tables: voicing pattern 5 is
all-voiced, the gain and PRBA tables grow with the index, and the four sub-bands have
the sizes 2, 3, 5 and 8. -/
def bandTables : AmbeTables ℚ :=
  { AmbeLtable := fun b0 => ((9 + b0 / 3 : Nat) : ℚ)
    AmbeW0table := fun _ => 1 / 100
    AmbeVuv := fun n _ => if n = 5 then 1 else 0
    AmbeDg := fun i => (i : ℚ) - 3
    AmbePRBA24 := fun i j => (i : ℚ) - (j : ℚ)
    AmbePRBA58 := fun i j => (j : ℚ) - (i : ℚ)
    AmbeHOCb5 := fun n j => (n : ℚ) + (j : ℚ)
    AmbeHOCb6 := fun n _ => (n : ℚ) - 4
    AmbeHOCb7 := fun n j => (n : ℚ) * (j : ℚ)
    AmbeHOCb8 := fun n _ => 2 - (n : ℚ)
    AmbeLmprbl := fun _ r => [2, 3, 5, 8].getD r 0 }

/-! ## A finite-precision `float` for evaluation

The type `Binary32` stands for `float` with the rounding of IEEE 754 binary32 arithmetic:
every sum, difference, product and quotient is rounded to the nearest value with a 24-bit
significand, a tie to the even significand.  The exponent range is not bounded and there
are no infinities or NaNs: the model agrees with binary32 on results in the normal range. -/

/-- Rounds a rational to the nearest integer, a tie to the even one. -/
def roundHalfEven (q : ℚ) : Int :=
  if q - q.floor < 1 / 2 then q.floor
  else if 1 / 2 < q - q.floor then q.floor + 1
  else if q.floor % 2 = 0 then q.floor else q.floor + 1

/-- The number of binary digits of `n`, counted in at most `fuel` halvings. -/
def bitLength : Nat → Nat → Nat
  | 0, _ => 0
  | fuel + 1, n => if n = 0 then 0 else bitLength fuel (n / 2) + 1

/-- The position of the leading binary digit of `n`. -/
def ilog2 (n : Nat) : Int := (bitLength n n : Int) - 1

/-- The exponent `e` with `2 ^ e ≤ |q| < 2 ^ (e + 1)`, for `q ≠ 0`. -/
def binade (q : ℚ) : Int :=
  if (2 : ℚ) ^ (ilog2 q.num.natAbs - ilog2 q.den) ≤ |q| then
    ilog2 q.num.natAbs - ilog2 q.den
  else ilog2 q.num.natAbs - ilog2 q.den - 1

/-- Rounding to the nearest value with a 24-bit significand, a tie to the even
significand. -/
def round24 (q : ℚ) : ℚ :=
  if q = 0 then 0
  else (roundHalfEven (q / (2 : ℚ) ^ (binade q - 23)) : ℚ) * (2 : ℚ) ^ (binade q - 23)

/-- A value of the finite-precision `float`: the rational it stands for. -/
structure Binary32 where
  val : ℚ

instance Binary32.instAdd : Add Binary32 := ⟨fun a b => ⟨round24 (a.val + b.val)⟩⟩

instance Binary32.instSub : Sub Binary32 := ⟨fun a b => ⟨round24 (a.val - b.val)⟩⟩

instance Binary32.instMul : Mul Binary32 := ⟨fun a b => ⟨round24 (a.val * b.val)⟩⟩

instance Binary32.instDiv : Div Binary32 := ⟨fun a b => ⟨round24 (a.val / b.val)⟩⟩

instance Binary32.instLT : LT Binary32 := ⟨fun a b => a.val < b.val⟩

instance Binary32.instDecidableLT : DecidableRel (fun a b : Binary32 => a < b) :=
  fun a b => inferInstanceAs (Decidable (a.val < b.val))

/-- The conversions and literals of the finite-precision `float`; the `<cmath>` functions
are those of `ratFloat`, rounded. -/
def binary32 : FloatFns Binary32 :=
  { ofInt := fun n => ⟨round24 n⟩
    lit := fun q => ⟨round24 q⟩
    toInt := fun x => ratFloat.toInt x.val
    fabsf := fun x => ⟨ratFloat.fabsf x.val⟩
    log2f := fun x => ⟨round24 (ratFloat.log2f x.val)⟩
    cosf := fun x => ⟨round24 (ratFloat.cosf x.val)⟩
    sqrtf := fun x => ⟨round24 (ratFloat.sqrtf x.val)⟩
    powf := fun x y => ⟨round24 (ratFloat.powf x.val y.val)⟩
    pi := ⟨round24 ratFloat.pi⟩ }

/-- A 32-entry sub-band table for evaluation: entry 0 is `(0, 1/2)`, entry 1 is
`(0, 1/4)`, entry `n` from 2 on is `(-n, 0)`. -/
def tieTable (n j : Nat) : Binary32 :=
  if n = 0 then (if j = 1 then ⟨1 / 2⟩ else ⟨0⟩)
  else if n = 1 then (if j = 1 then ⟨1 / 4⟩ else ⟨0⟩)
  else (if j = 0 then ⟨-(n : ℚ)⟩ else ⟨0⟩)

/-- Transform coefficients for evaluation: `C[0][2] = 4096`, all others `0`. -/
def tieC : Buf Binary32 := ⟨fun k => if k = C_index 0 2 then ⟨4096⟩ else ⟨0⟩⟩

/-- The tables of `bandTables` as `float` literals. -/
def bandTables32 : AmbeTables Binary32 :=
  { AmbeLtable := fun b0 => binary32.lit (bandTables.AmbeLtable b0)
    AmbeW0table := fun b0 => binary32.lit (bandTables.AmbeW0table b0)
    AmbeVuv := bandTables.AmbeVuv
    AmbeDg := fun i => binary32.lit (bandTables.AmbeDg i)
    AmbePRBA24 := fun i j => binary32.lit (bandTables.AmbePRBA24 i j)
    AmbePRBA58 := fun i j => binary32.lit (bandTables.AmbePRBA58 i j)
    AmbeHOCb5 := fun n j => binary32.lit (bandTables.AmbeHOCb5 n j)
    AmbeHOCb6 := fun n j => binary32.lit (bandTables.AmbeHOCb6 n j)
    AmbeHOCb7 := fun n j => binary32.lit (bandTables.AmbeHOCb7 n j)
    AmbeHOCb8 := fun n j => binary32.lit (bandTables.AmbeHOCb8 n j)
    AmbeLmprbl := bandTables.AmbeLmprbl }

/-- The predictor state `sampleParms` in `float` values. -/
def sampleParms32 : mbe_parms Binary32 Unit :=
  { L := sampleParms.L, gamma := binary32.lit sampleParms.gamma,
    log2Ml := ⟨fun k => binary32.lit (sampleParms.log2Ml.get k)⟩, rest := () }

/-! ## Loops, bits and buffers -/

theorem Buf.ext {α : Type} {a b : Buf α} (h : ∀ i, a.get i = b.get i) : a = b := by
  cases a; cases b; congr; funext i; exact h i

@[simp] theorem Buf.get_set {α : Type} (a : Buf α) (i : Nat) (v : α) (k : Nat) :
    (a.set i v).get k = if k = i then v else a.get k := rfl

@[simp] theorem Buf.get_zero (k : Nat) : Buf.zero.get k = 0 := rfl

theorem forLoop_eq {σ : Type} (lo hi : Nat) (body : Nat → σ → σ) (s : σ) :
    forLoop lo hi body s = forCount lo body (hi - lo) s := rfl

theorem shr_and_one (x k : Nat) : (x >>> k) &&& 1 = (x.testBit k).toNat := by
  rw [Nat.and_one_is_mod, Nat.shiftRight_eq_div_pow, Nat.toNat_testBit]

theorem shr_and_one_ne_zero (x k : Nat) : ((x >>> k) &&& 1 ≠ 0) ↔ x.testBit k = true := by
  rw [shr_and_one]; cases x.testBit k <;> simp

theorem frameBit_eq (fr : Buf Nat) (p : Nat) :
    frameBit fr p = ((fr.get (p / 8)).testBit (7 - p % 8)).toNat := shr_and_one _ _

theorem frameBit_le_one (fr : Buf Nat) (p : Nat) : frameBit fr p ≤ 1 := by
  rw [frameBit_eq]; exact Bool.toNat_le _

/-- Setting one bit of a frame byte sets that frame bit and no other. -/
theorem frameBit_setBit (fr : Buf Nat) (p q : Nat) :
    frameBit (fr.set (p / 8) (fr.get (p / 8) ||| (1 <<< (7 - p % 8)))) q
      = if q = p then 1 else frameBit fr q := by
  simp only [frameBit_eq, Buf.get_set]
  by_cases h : q / 8 = p / 8
  · simp only [h, if_true, Nat.testBit_or, Nat.one_shiftLeft, Nat.testBit_two_pow]
    by_cases hq : q = p
    · subst hq; simp
    · have : ¬ (7 - p % 8 = 7 - q % 8) := by omega
      simp [hq, this]
  · have hq : q ≠ p := fun e => h (by rw [e])
    simp [h, hq]

/-- Inverting one bit of a frame byte inverts that frame bit and no other. -/
theorem frameBit_xorBit (fr : Buf Nat) (p q : Nat) :
    frameBit (fr.set (p / 8) (fr.get (p / 8) ^^^ (1 <<< (7 - p % 8)))) q
      = if q = p then 1 - frameBit fr q else frameBit fr q := by
  simp only [frameBit_eq, Buf.get_set]
  by_cases h : q / 8 = p / 8
  · simp only [h, if_true, Nat.testBit_xor, Nat.one_shiftLeft, Nat.testBit_two_pow]
    by_cases hq : q = p
    · subst hq; cases (fr.get (q / 8)).testBit (7 - q % 8) <;> simp
    · have : ¬ (7 - p % 8 = 7 - q % 8) := by omega
      simp [hq, this]
  · have hq : q ≠ p := fun e => h (by rw [e])
    simp [h, hq]

theorem forCount_succ {σ : Type} (lo : Nat) (body : Nat → σ → σ) (n : Nat) (s : σ) :
    forCount lo body (n + 1) s = body (lo + n) (forCount lo body n s) := rfl

theorem forCount_zero {σ : Type} (lo : Nat) (body : Nat → σ → σ) (s : σ) :
    forCount lo body 0 s = s := rfl

/-- Frame bits after a loop that sets bit `base + i` whenever `c i` holds. -/
theorem frameBit_writeLoop (c : Nat → Prop) [DecidablePred c] (base : Nat) (fr0 : Buf Nat)
    (n q : Nat) :
    frameBit (forCount 0 (fun i fr =>
        if c i then fr.set ((base + i) / 8)
          (fr.get ((base + i) / 8) ||| (1 <<< (7 - (base + i) % 8))) else fr) n fr0) q
      = if base ≤ q ∧ q < base + n ∧ c (q - base) then 1 else frameBit fr0 q := by
  induction n with
  | zero => rw [forCount_zero, if_neg (by omega)]
  | succ n ih =>
    rw [forCount_succ, Nat.zero_add]
    by_cases hc : c n
    · rw [if_pos hc, frameBit_setBit, ih]
      by_cases hq : q = base + n
      · subst hq; simp [hc]
      · rw [if_neg hq]
        by_cases h1 : base ≤ q ∧ q < base + n ∧ c (q - base)
        · have h2 : base ≤ q ∧ q < base + (n + 1) ∧ c (q - base) :=
            ⟨h1.1, by omega, h1.2.2⟩
          rw [if_pos h1, if_pos h2]
        · have h2 : ¬ (base ≤ q ∧ q < base + (n + 1) ∧ c (q - base)) := by
            rintro ⟨a1, a2, a3⟩
            exact h1 ⟨a1, by omega, a3⟩
          rw [if_neg h1, if_neg h2]
    · rw [if_neg hc, ih]
      by_cases h1 : base ≤ q ∧ q < base + n ∧ c (q - base)
      · have h2 : base ≤ q ∧ q < base + (n + 1) ∧ c (q - base) :=
          ⟨h1.1, by omega, h1.2.2⟩
        rw [if_pos h1, if_pos h2]
      · have h2 : ¬ (base ≤ q ∧ q < base + (n + 1) ∧ c (q - base)) := by
          rintro ⟨a1, a2, a3⟩
          by_cases hq : q = base + n
          · subst hq
            rw [Nat.add_sub_cancel_left] at a3
            exact hc a3
          · exact h1 ⟨a1, by omega, a3⟩
        rw [if_neg h1, if_neg h2]

/-- Bits of the word gathered by a loop that ORs in `2^m >>> i` whenever `c i` holds. -/
theorem testBit_readLoop (c : Nat → Prop) [DecidablePred c] (m n j : Nat) :
    (forCount 0 (fun i a => if c i then a ||| (2 ^ m >>> i) else a) n 0).testBit j
      = decide (j ≤ m ∧ m - j < n ∧ c (m - j)) := by
  induction n with
  | zero => simp [forCount_zero]
  | succ n ih =>
    rw [forCount_succ, Nat.zero_add]
    by_cases hc : c n
    · rw [if_pos hc, Nat.testBit_or, ih, Nat.testBit_shiftRight, Nat.testBit_two_pow]
      by_cases hj : m = n + j
      · have e : m - j = n := by omega
        simp [hj, hc]
      · rw [Bool.eq_iff_iff]
        simp only [Bool.or_eq_true, decide_eq_true_eq]
        constructor
        · rintro (⟨a1, a2, a3⟩ | a)
          · exact ⟨a1, by omega, a3⟩
          · exact absurd a hj
        · rintro ⟨a1, a2, a3⟩
          exact Or.inl ⟨a1, by omega, a3⟩
    · rw [if_neg hc, ih, Bool.eq_iff_iff]
      simp only [decide_eq_true_eq]
      constructor
      · rintro ⟨a1, a2, a3⟩
        exact ⟨a1, by omega, a3⟩
      · rintro ⟨a1, a2, a3⟩
        refine ⟨a1, ?_, a3⟩
        by_contra hlt
        have e : m - j = n := by omega
        rw [e] at a3
        exact hc a3

/-- Cells after a loop that stores `v i` at `base + i`. -/
theorem get_setLoop (v : Nat → Nat) (base : Nat) (d0 : Buf Nat) (n q : Nat) :
    (forCount 0 (fun i d => d.set (base + i) (v i)) n d0).get q
      = if base ≤ q ∧ q < base + n then v (q - base) else d0.get q := by
  induction n with
  | zero => rw [forCount_zero, if_neg (by omega)]
  | succ n ih =>
    rw [forCount_succ, Nat.zero_add, Buf.get_set, ih]
    by_cases hq : q = base + n
    · subst hq; simp
    · rw [if_neg hq]
      by_cases h1 : base ≤ q ∧ q < base + n
      · rw [if_pos h1, if_pos ⟨h1.1, by omega⟩]
      · rw [if_neg h1, if_neg (fun h => h1 ⟨h.1, by omega⟩)]

theorem shl_one_or (c x : Nat) (hx : x ≤ 1) : (c <<< 1) ||| x = 2 * c + x := by
  have h := (Nat.mul_add_lt_is_or (by omega) c : 2 ^ 1 * c + x = 2 ^ 1 * c ||| x)
  rw [Nat.shiftLeft_eq, Nat.mul_comm c]
  exact h.symm

/-- A shift-and-or accumulation of bits is the MSB-first word of those bits. -/
theorem shiftOrLoop_eq (bit : Nat → Nat) (hbit : ∀ i, bit i ≤ 1) (lo n : Nat) :
    forCount lo (fun i c => (c <<< 1) ||| bit i) n 0 = msbWord (fun i => bit (lo + i)) n := by
  induction n with
  | zero => rfl
  | succ n ih => rw [forCount_succ, ih, shl_one_or _ _ (hbit _)]; rfl

theorem msbWord_lt (bit : Nat → Nat) (hbit : ∀ i, bit i ≤ 1) (n : Nat) :
    msbWord bit n < 2 ^ n := by
  induction n with
  | zero => simp [msbWord]
  | succ n ih =>
    have := hbit n
    rw [msbWord, Nat.pow_succ]
    omega

theorem msbWord_testBit (bit : Nat → Nat) (hbit : ∀ i, bit i ≤ 1) (n j : Nat) :
    (msbWord bit n).testBit j = decide (j < n ∧ bit (n - 1 - j) = 1) := by
  induction n generalizing j with
  | zero => simp [msbWord]
  | succ n ih =>
    have hb := hbit n
    cases j with
    | zero =>
      rw [msbWord, Nat.testBit_zero]
      simp only [Nat.add_sub_cancel, Nat.sub_zero, Nat.zero_lt_succ, true_and]
      congr 1
      apply propext
      constructor <;> intro h <;> omega
    | succ j =>
      rw [msbWord, Nat.testBit_succ]
      have e : (2 * msbWord bit n + bit n) / 2 = msbWord bit n := by omega
      rw [e, ih]
      have e2 : n + 1 - 1 - (j + 1) = n - 1 - j := by omega
      rw [e2]
      congr 1
      apply propext
      constructor
      · rintro ⟨a1, a2⟩; exact ⟨by omega, a2⟩
      · rintro ⟨a1, a2⟩; exact ⟨by omega, a2⟩

theorem msbWord_congr (f g : Nat → Nat) (n : Nat) (h : ∀ i < n, f i = g i) :
    msbWord f n = msbWord g n := by
  induction n with
  | zero => rfl
  | succ n ih =>
    rw [msbWord, msbWord, ih (fun i hi => h i (by omega)), h n (by omega)]

theorem forCount_inv {σ : Type} (P : σ → Prop) (lo : Nat) (body : Nat → σ → σ)
    (h : ∀ i s, P s → P (body i s)) (n : Nat) (s : σ) (hs : P s) :
    P (forCount lo body n s) := by
  induction n with
  | zero => exact hs
  | succ n ih => exact h _ _ ih

theorem forDown_inv {σ : Type} (P : σ → Prop) (body : Nat → σ → σ)
    (h : ∀ i s, P s → P (body i s)) (n : Nat) (s : σ) (hs : P s) :
    P (forDown body n s) := by
  induction n generalizing s with
  | zero => exact hs
  | succ n ih => exact ih _ (h _ _ hs)

theorem forCount_pair (f g : Nat → Nat → Nat) (lo n x y : Nat) :
    forCount lo (fun i (c : Nat × Nat) => (f i c.1, g i c.2)) n (x, y)
      = (forCount lo f n x, forCount lo g n y) := by
  induction n with
  | zero => rfl
  | succ n ih => rw [forCount_succ, ih]; rfl

theorem int_bit_le_one (v : Int) (j : Nat) : ((v >>> j) % 2).toNat ≤ 1 := by
  have h1 : 0 ≤ (v >>> j) % 2 := Int.emod_nonneg _ (by decide)
  have h2 : (v >>> j) % 2 < 2 := Int.emod_lt_of_pos _ (by decide)
  omega

/-- Every cell of `bits49` holds `0` or `1`. -/
theorem bits49_le_one (b : Buf Int) (i : Nat) : (encode_ambe_frame_bits49 b).get i ≤ 1 := by
  have h : ∀ k, ((forLoop 0 9 (fun i (st : Buf Nat × Nat) =>
      forDown (fun j (st : Buf Nat × Nat) =>
        (st.1.set st.2 (((b.get i >>> j) % 2).toNat), st.2 + 1)) (b_lengths i) st)
      (Buf.zero, 0)).1).get k ≤ 1 := by
    apply forCount_inv (fun st : Buf Nat × Nat => ∀ k, st.1.get k ≤ 1)
    · intro i s hs
      apply forDown_inv (fun st : Buf Nat × Nat => ∀ k, st.1.get k ≤ 1)
      · intro j s hs k
        simp only [Buf.get_set]
        split
        · exact int_bit_le_one _ _
        · exact hs k
      · exact hs
    · intro k; exact Nat.zero_le _
  exact h i

theorem payload_c0_lt (b : Buf Int) : payload_c0 b < 4096 :=
  msbWord_lt _ (fun _ => bits49_le_one b _) 12

theorem payload_c1_lt (b : Buf Int) : payload_c1 b < 4096 :=
  msbWord_lt _ (fun _ => bits49_le_one b _) 12

theorem payload_c_lt (b : Buf Int) : payload_c b < 2 ^ 25 :=
  msbWord_lt _ (fun _ => bits49_le_one b _) 25

/-- The frame bits written by `encode_ambe_frame`. -/
theorem frameBit_encode (e24 e23 : Nat → Nat) (b : Buf Int) (q : Nat) :
    frameBit (encode_ambe_frame e24 e23 b) q =
      if q < 24 then ((e24 (payload_c0 b)).testBit (23 - q)).toNat
      else if q < 47 then
        ((e23 (payload_c1 b) ^^^ compute_prng_mask_23bit (payload_c0 b)).testBit (46 - q)).toNat
      else if q < 72 then ((payload_c b).testBit (71 - q)).toNat else 0 := by
  have hc01 : forLoop 0 12 (fun i (c : Nat × Nat) =>
      ((c.1 <<< 1) ||| (encode_ambe_frame_bits49 b).get i,
       (c.2 <<< 1) ||| (encode_ambe_frame_bits49 b).get (12 + i))) (0, 0)
      = (payload_c0 b, payload_c1 b) := by
    rw [forLoop_eq]
    rw [forCount_pair (fun i c => (c <<< 1) ||| (encode_ambe_frame_bits49 b).get i)
      (fun i c => (c <<< 1) ||| (encode_ambe_frame_bits49 b).get (12 + i))]
    rw [shiftOrLoop_eq (fun i => (encode_ambe_frame_bits49 b).get i) (fun _ => bits49_le_one b _),
      shiftOrLoop_eq (fun i => (encode_ambe_frame_bits49 b).get (12 + i))
        (fun _ => bits49_le_one b _)]
    simp only [Nat.zero_add, payload_c0, payload_c1]
  have hc : forLoop 24 49 (fun i c_block =>
      (c_block <<< 1) ||| (encode_ambe_frame_bits49 b).get i) 0 = payload_c b := by
    rw [forLoop_eq,
      shiftOrLoop_eq (fun i => (encode_ambe_frame_bits49 b).get i) (fun _ => bits49_le_one b _)]
    rfl
  unfold encode_ambe_frame
  simp only [hc01, hc, forLoop_eq]
  have hA := fun (a : Nat) (fr0 : Buf Nat) =>
    frameBit_writeLoop (fun i => (a >>> (23 - i)) &&& 1 ≠ 0) 0 fr0 24
  have hB := fun (a : Nat) (fr0 : Buf Nat) =>
    frameBit_writeLoop (fun i => (a >>> (22 - i)) &&& 1 ≠ 0) 24 fr0 23
  have hC := fun (a : Nat) (fr0 : Buf Nat) =>
    frameBit_writeLoop (fun i => (a >>> (24 - i)) &&& 1 ≠ 0) 47 fr0 25
  simp only [Nat.zero_add] at hA
  simp only [Nat.sub_zero]
  rw [hC, hB, hA]
  simp only [shr_and_one_ne_zero]
  have hz : frameBit Buf.zero q = 0 := by simp [frameBit]
  rw [hz]
  by_cases h1 : q < 24
  · have e : 23 - (q - 0) = 23 - q := by omega
    rw [if_neg (fun h => by omega), if_neg (fun h => by omega), if_pos h1, e]
    cases (e24 (payload_c0 b)).testBit (23 - q) <;> simp [h1]
  · by_cases h2 : q < 47
    · have e : 22 - (q - 24) = 46 - q := by omega
      rw [if_neg (fun h => by omega), if_neg h1, if_pos h2, e]
      cases (e23 (payload_c1 b) ^^^ compute_prng_mask_23bit (payload_c0 b)).testBit (46 - q)
      · rw [if_neg (fun h => by simp at h), if_neg (fun h => by omega)]; rfl
      · rw [if_pos ⟨by omega, by omega, rfl⟩]; rfl
    · by_cases h3 : q < 72
      · have e : 24 - (q - 47) = 71 - q := by omega
        rw [if_neg h1, if_neg h2, if_pos h3, e]
        cases (payload_c b).testBit (71 - q)
        · rw [if_neg (fun h => by simp at h), if_neg (fun h => by omega),
            if_neg (fun h => by omega)]; rfl
        · rw [if_pos ⟨by omega, by omega, rfl⟩]; rfl
      · rw [if_neg (fun h => by omega), if_neg (fun h => by omega), if_neg (fun h => by omega),
          if_neg h1, if_neg h2, if_neg h3]

theorem frameBit_ne_zero (fr : Buf Nat) (p : Nat) : frameBit fr p ≠ 0 ↔ frameBit fr p = 1 := by
  have := frameBit_le_one fr p
  omega

/-- A gather loop over frame bits computes `frameWord`. -/
theorem readLoop_eq_frameWord (fr : Buf Nat) (base m : Nat) :
    forCount 0 (fun i a => if frameBit fr (base + i) ≠ 0 then a ||| (2 ^ m >>> i) else a)
      (m + 1) 0 = frameWord fr base (m + 1) := by
  apply Nat.eq_of_testBit_eq
  intro j
  rw [testBit_readLoop (fun i => frameBit fr (base + i) ≠ 0), frameWord,
    msbWord_testBit _ (fun _ => frameBit_le_one fr _)]
  congr 1
  apply propext
  simp only [Nat.add_sub_cancel, frameBit_ne_zero]
  constructor
  · rintro ⟨a1, a2, a3⟩; exact ⟨by omega, a3⟩
  · rintro ⟨a1, a2⟩; exact ⟨by omega, by omega, a2⟩

theorem msbWord_of_testBit (X n : Nat) (bit : Nat → Nat)
    (h : ∀ i < n, bit i = (X.testBit (n - 1 - i)).toNat) : msbWord bit n = X % 2 ^ n := by
  rw [msbWord_congr bit (fun i => (X.testBit (n - 1 - i)).toNat) n h]
  apply Nat.eq_of_testBit_eq
  intro j
  rw [msbWord_testBit _ (fun _ => Bool.toNat_le _), Nat.testBit_mod_two_pow]
  by_cases hj : j < n
  · have e : n - 1 - (n - 1 - j) = j := by omega
    rw [e]
    cases X.testBit j <;> simp [hj]
  · simp [hj]

theorem frameWord_testBit (fr : Buf Nat) (base n j : Nat) :
    (frameWord fr base n).testBit j = decide (j < n ∧ frameBit fr (base + (n - 1 - j)) = 1) :=
  msbWord_testBit _ (fun _ => frameBit_le_one fr _) n j

theorem frameWord_lt (fr : Buf Nat) (base n : Nat) : frameWord fr base n < 2 ^ n :=
  msbWord_lt _ (fun _ => frameBit_le_one fr _) n

/-- The cells written by `decode_ambe_frame`, in terms of the frame bits. -/
theorem decode_get (d24 d23 : Nat → Nat) (fr : Buf Nat) (q : Nat) :
    (decode_ambe_frame d24 d23 fr).get q =
      if q < 12 then ((d24 (frameWord fr 0 24)).testBit (11 - q)).toNat
      else if q < 24 then
        ((d23 (frameWord fr 24 23 ^^^
          compute_prng_mask_23bit (d24 (frameWord fr 0 24)))).testBit (23 - q)).toNat
      else if q < 49 then frameBit fr (q + 23) else 0 := by
  have hA := readLoop_eq_frameWord fr 0 23
  have hB := readLoop_eq_frameWord fr 24 22
  have hC := readLoop_eq_frameWord fr 47 24
  simp only [frameBit, Nat.zero_add, Nat.reducePow, Nat.reduceAdd] at hA hB hC
  have hS := fun (v : Nat → Nat) (base : Nat) (d0 : Buf Nat) (n : Nat) =>
    get_setLoop v base d0 n q
  have hS0 := hS
  specialize hS0 (fun i => ((d24 (frameWord fr 0 24)) >>> (11 - i)) &&& 1) 0
  simp only [Nat.zero_add] at hS0
  unfold decode_ambe_frame
  simp only [forLoop_eq, Nat.sub_zero, hA, hB, hC]
  rw [hS, hS, hS0]
  simp only [shr_and_one, Buf.get_zero]
  by_cases h1 : q < 12
  · rw [if_neg (fun h => by omega), if_neg (fun h => by omega), if_pos ⟨by omega, h1⟩,
      if_pos h1, Nat.sub_zero]
  · by_cases h2 : q < 24
    · have e : 11 - (q - 12) = 23 - q := by omega
      rw [if_neg (fun h => by omega), if_pos ⟨by omega, by omega⟩, if_neg h1, if_pos h2, e]
    · by_cases h3 : q < 49
      · rw [if_pos ⟨by omega, by omega⟩, if_neg h1, if_neg h2, if_pos h3, frameWord_testBit]
        have e : 47 + (25 - 1 - (24 - (q - 24))) = q + 23 := by omega
        have hlt : 24 - (q - 24) < 25 := by omega
        have hb := frameBit_le_one fr (q + 23)
        rw [e]
        by_cases hf : frameBit fr (q + 23) = 1
        · simp [hf, hlt]
        · have hf0 : frameBit fr (q + 23) = 0 := by omega
          simp [hf0]
      · rw [if_neg (fun h => by omega), if_neg (fun h => by omega), if_neg (fun h => by omega),
          if_neg h1, if_neg h2, if_neg h3]

/-- Cells after a loop that replaces cell `i` by `f` of its content. -/
theorem get_mapLoop (f : Nat → Nat) (lo : Nat) (d0 : Buf Nat) (n q : Nat) :
    (forCount lo (fun i d => d.set i (f (d.get i))) n d0).get q
      = if lo ≤ q ∧ q < lo + n then f (d0.get q) else d0.get q := by
  induction n with
  | zero => rw [forCount_zero, if_neg (by omega)]
  | succ n ih =>
    rw [forCount_succ, Buf.get_set]
    by_cases hq : q = lo + n
    · subst hq
      rw [if_pos rfl, ih, if_neg (by omega), if_pos ⟨by omega, by omega⟩]
    · rw [if_neg hq, ih]
      by_cases h1 : lo ≤ q ∧ q < lo + n
      · rw [if_pos h1, if_pos ⟨h1.1, by omega⟩]
      · rw [if_neg h1, if_neg (fun h => h1 ⟨h.1, by omega⟩)]

/-- The first loop of `compute_prng_mask_23bit` fills `pr[1..n]` with the recurrence. -/
theorem get_prLoop (seed n : Nat) :
    ∀ i, i ≤ n → (forCount 1 (fun i (pr : Buf Nat) =>
        pr.set i ((173 * pr.get (i - 1) + 13849) % 65536 % 65536)) n
        (Buf.zero.set 0 ((16 * seed) % 4294967296 % 65536))).get i = prSeq seed i := by
  induction n with
  | zero =>
    intro i hi
    have e : i = 0 := by omega
    subst e
    rw [forCount_zero, Buf.get_set, if_pos rfl, prSeq]
    omega
  | succ n ih =>
    intro i hi
    rw [forCount_succ, Buf.get_set]
    by_cases h : i = 1 + n
    · rw [if_pos h, h, Nat.add_sub_cancel_left, ih n (Nat.le_refl n), Nat.add_comm 1 n, prSeq,
        Nat.mod_mod]
    · rw [if_neg h]
      exact ih i (by omega)

/-- Bits of the mask built by the last loop of `compute_prng_mask_23bit`. -/
theorem testBit_maskLoop (c : Nat → Prop) [DecidablePred c] (m n j : Nat) (hn : n ≤ m) :
    (forCount 1 (fun i mask => if c i then mask ||| (1 <<< (m - i)) else mask) n 0).testBit j
      = decide (j < m ∧ m - j ≤ n ∧ c (m - j)) := by
  induction n with
  | zero =>
    rw [forCount_zero, Nat.zero_testBit]
    symm
    rw [decide_eq_false_iff_not]
    omega
  | succ n ih =>
    rw [forCount_succ]
    have ih := ih (by omega)
    by_cases hc : c (1 + n)
    · rw [if_pos hc, Nat.testBit_or, ih, Nat.one_shiftLeft, Nat.testBit_two_pow, Bool.eq_iff_iff]
      simp only [Bool.or_eq_true, decide_eq_true_eq]
      constructor
      · rintro (⟨a1, a2, a3⟩ | a)
        · exact ⟨a1, by omega, a3⟩
        · have e : m - j = 1 + n := by omega
          exact ⟨by omega, by omega, by rw [e]; exact hc⟩
      · rintro ⟨a1, a2, a3⟩
        by_cases e : m - j = 1 + n
        · exact Or.inr (by omega)
        · exact Or.inl ⟨a1, by omega, a3⟩
    · rw [if_neg hc, ih, Bool.eq_iff_iff]
      simp only [decide_eq_true_eq]
      constructor
      · rintro ⟨a1, a2, a3⟩
        exact ⟨a1, by omega, a3⟩
      · rintro ⟨a1, a2, a3⟩
        refine ⟨a1, ?_, a3⟩
        by_contra hlt
        have e : m - j = 1 + n := by omega
        rw [e] at a3
        exact hc a3

/-- Bit `j` of the scrambler mask. -/
theorem prng_mask_testBit (seed j : Nat) :
    (compute_prng_mask_23bit seed).testBit j = decide (j < 23 ∧ 32768 ≤ prSeq seed (23 - j)) := by
  unfold compute_prng_mask_23bit
  simp only [forLoop_eq, Nat.reduceSub]
  rw [testBit_maskLoop _ 23 23 j (Nat.le_refl 23)]
  congr 1
  apply propext
  constructor
  · rintro ⟨a1, _, a3⟩
    refine ⟨a1, ?_⟩
    rw [get_mapLoop (fun x => x / 32768), if_pos ⟨by omega, by omega⟩,
      get_prLoop seed 23 _ (by omega)] at a3
    omega
  · rintro ⟨a1, a2⟩
    refine ⟨a1, by omega, ?_⟩
    rw [get_mapLoop (fun x => x / 32768), if_pos ⟨by omega, by omega⟩,
      get_prLoop seed 23 _ (by omega)]
    omega

theorem prng_mask_lt (seed : Nat) : compute_prng_mask_23bit seed < 2 ^ 23 := by
  apply Nat.lt_pow_two_of_testBit
  intro j hj
  rw [prng_mask_testBit, decide_eq_false_iff_not]
  omega

theorem toNat_decide_eq_one (x : Nat) (hx : x ≤ 1) : (decide (x = 1)).toNat = x := by
  by_cases h : x = 1
  · simp [h]
  · have h0 : x = 0 := by omega
    simp [h0]

theorem toNat_testBit_eq (x k : Nat) : (x.testBit k).toNat = (x >>> k) % 2 := by
  rw [Nat.toNat_testBit, Nat.shiftRight_eq_div_pow]

/-- Reading back bit `i` of an MSB-first word. -/
theorem msbWord_bit (bit : Nat → Nat) (hbit : ∀ i, bit i ≤ 1) (n i : Nat) (hi : i < n) :
    ((msbWord bit n).testBit (n - 1 - i)).toNat = bit i := by
  rw [msbWord_testBit bit hbit]
  have e : n - 1 - (n - 1 - i) = i := by omega
  have hlt : n - 1 - i < n := by omega
  rw [e]
  simp only [hlt, true_and]
  exact toNat_decide_eq_one _ (hbit i)

theorem frameWord_encode_A (e24 e23 : Nat → Nat) (b : Buf Int) :
    frameWord (encode_ambe_frame e24 e23 b) 0 24 = e24 (payload_c0 b) % 2 ^ 24 := by
  apply msbWord_of_testBit
  intro i hi
  rw [frameBit_encode, Nat.zero_add, if_pos hi]

theorem frameWord_encode_B (e24 e23 : Nat → Nat) (b : Buf Int) :
    frameWord (encode_ambe_frame e24 e23 b) 24 23
      = (e23 (payload_c1 b) ^^^ compute_prng_mask_23bit (payload_c0 b)) % 2 ^ 23 := by
  apply msbWord_of_testBit
  intro i hi
  have e : 46 - (24 + i) = 23 - 1 - i := by omega
  rw [frameBit_encode, if_neg (by omega), if_pos (by omega), e]

theorem frameBit_encode_C (e24 e23 : Nat → Nat) (b : Buf Int) (i : Nat) (hi : i < 25) :
    frameBit (encode_ambe_frame e24 e23 b) (47 + i) = (encode_ambe_frame_bits49 b).get (24 + i) := by
  have e : 71 - (47 + i) = 25 - 1 - i := by omega
  rw [frameBit_encode, if_neg (by omega), if_neg (by omega), if_pos (by omega), e, payload_c,
    msbWord_bit (fun i => (encode_ambe_frame_bits49 b).get (24 + i))
      (fun _ => bits49_le_one b _) 25 i hi]

/-- Decoding an encoded frame returns the cells of `bits49`, for Golay routines where the
encoders produce 24- and 23-bit words that the decoders invert. -/
theorem decode_encode_get (e24 e23 d24 d23 : Nat → Nat)
    (h24 : ∀ c < 4096, e24 c < 2 ^ 24) (h23 : ∀ c < 4096, e23 c < 2 ^ 23)
    (hd24 : ∀ c < 4096, d24 (e24 c) = c) (hd23 : ∀ c < 4096, d23 (e23 c) = c)
    (b : Buf Int) (q : Nat) (hq : q < 49) :
    (decode_ambe_frame d24 d23 (encode_ambe_frame e24 e23 b)).get q
      = (encode_ambe_frame_bits49 b).get q := by
  have hA : frameWord (encode_ambe_frame e24 e23 b) 0 24 = e24 (payload_c0 b) := by
    rw [frameWord_encode_A, Nat.mod_eq_of_lt (h24 _ (payload_c0_lt b))]
  have hB : frameWord (encode_ambe_frame e24 e23 b) 24 23
      = e23 (payload_c1 b) ^^^ compute_prng_mask_23bit (payload_c0 b) := by
    rw [frameWord_encode_B, Nat.mod_eq_of_lt
      (Nat.xor_lt_two_pow (h23 _ (payload_c1_lt b)) (prng_mask_lt _))]
  rw [decode_get, hA, hB, hd24 _ (payload_c0_lt b), Nat.xor_assoc, Nat.xor_self, Nat.xor_zero,
    hd23 _ (payload_c1_lt b)]
  by_cases h1 : q < 12
  · rw [if_pos h1]
    exact msbWord_bit (fun i => (encode_ambe_frame_bits49 b).get i)
      (fun _ => bits49_le_one b _) 12 q h1
  · by_cases h2 : q < 24
    · rw [if_neg h1, if_pos h2]
      have e : 23 - q = 12 - 1 - (q - 12) := by omega
      have e2 : 12 + (q - 12) = q := by omega
      rw [e, payload_c1, msbWord_bit (fun i => (encode_ambe_frame_bits49 b).get (12 + i))
        (fun _ => bits49_le_one b _) 12 (q - 12) (by omega), e2]
    · have e : q + 23 = 47 + (q - 24) := by omega
      have e2 : 24 + (q - 24) = q := by omega
      rw [if_neg h1, if_neg h2, if_pos hq, e, frameBit_encode_C e24 e23 b (q - 24) (by omega), e2]

theorem frameBit_flip (fr : Buf Nat) (p q : Nat) :
    frameBit (flipFrameBit fr p) q = if q = p then 1 - frameBit fr q else frameBit fr q :=
  frameBit_xorBit fr p q

/-- Inverting a frame bit inverts the matching bit of a word read over it. -/
theorem frameWord_flip (fr : Buf Nat) (p base n : Nat) :
    frameWord (flipFrameBit fr p) base n
      = frameWord fr base n ^^^ (if base ≤ p ∧ p < base + n then 2 ^ (base + n - 1 - p) else 0) := by
  apply Nat.eq_of_testBit_eq
  intro j
  rw [frameWord_testBit, Nat.testBit_xor, frameWord_testBit, frameBit_flip]
  have hb := frameBit_le_one fr (base + (n - 1 - j))
  by_cases hin : base ≤ p ∧ p < base + n
  · rw [if_pos hin, Nat.testBit_two_pow]
    by_cases hj : j < n
    · by_cases hp : base + (n - 1 - j) = p
      · have e : base + n - 1 - p = j := by omega
        rw [if_pos hp]
        by_cases hf : frameBit fr (base + (n - 1 - j)) = 1
        · simp [hf, hj, e]
        · have hf0 : frameBit fr (base + (n - 1 - j)) = 0 := by omega
          simp [hf0, hj, e]
      · have e : ¬ (base + n - 1 - p = j) := by omega
        rw [if_neg hp]
        simp [e]
    · have e : ¬ (base + n - 1 - p = j) := by omega
      simp [hj, e]
  · rw [if_neg hin, Nat.zero_testBit, Bool.xor_false]
    by_cases hj : j < n
    · have hp : ¬ (base + (n - 1 - j) = p) := by omega
      rw [if_neg hp]
    · simp [hj]

theorem xor_xor_swap (w k m : Nat) : (w ^^^ m ^^^ k) ^^^ m = w ^^^ k := by
  apply Nat.eq_of_testBit_eq
  intro i
  simp only [Nat.testBit_xor]
  cases w.testBit i <;> cases k.testBit i <;> cases m.testBit i <;> rfl

/-- A frame with one inverted bit in its A or B block decodes like the frame itself, for
Golay routines that repair one inverted bit of a codeword. -/
theorem decode_flip_eq (e24 e23 d24 d23 : Nat → Nat)
    (h24 : ∀ c < 4096, e24 c < 2 ^ 24) (h23 : ∀ c < 4096, e23 c < 2 ^ 23)
    (hd24 : ∀ c < 4096, d24 (e24 c) = c ∧ ∀ q < 24, d24 (e24 c ^^^ 2 ^ q) = c)
    (hd23 : ∀ c < 4096, d23 (e23 c) = c ∧ ∀ q < 23, d23 (e23 c ^^^ 2 ^ q) = c)
    (b : Buf Int) (p : Nat) (hp : p < 47) :
    decode_ambe_frame d24 d23 (flipFrameBit (encode_ambe_frame e24 e23 b) p)
      = decode_ambe_frame d24 d23 (encode_ambe_frame e24 e23 b) := by
  have hA : frameWord (encode_ambe_frame e24 e23 b) 0 24 = e24 (payload_c0 b) := by
    rw [frameWord_encode_A, Nat.mod_eq_of_lt (h24 _ (payload_c0_lt b))]
  have hB : frameWord (encode_ambe_frame e24 e23 b) 24 23
      = e23 (payload_c1 b) ^^^ compute_prng_mask_23bit (payload_c0 b) := by
    rw [frameWord_encode_B, Nat.mod_eq_of_lt
      (Nat.xor_lt_two_pow (h23 _ (payload_c1_lt b)) (prng_mask_lt _))]
  have h0 := hd24 _ (payload_c0_lt b)
  have h1 := hd23 _ (payload_c1_lt b)
  have kA : d24 (frameWord (flipFrameBit (encode_ambe_frame e24 e23 b) p) 0 24)
      = payload_c0 b := by
    rw [frameWord_flip, hA]
    by_cases hpa : p < 24
    · rw [if_pos ⟨by omega, by omega⟩]
      exact h0.2 _ (by omega)
    · rw [if_neg (fun h => by omega), Nat.xor_zero]
      exact h0.1
  have kB : d23 (frameWord (flipFrameBit (encode_ambe_frame e24 e23 b) p) 24 23
      ^^^ compute_prng_mask_23bit (payload_c0 b)) = payload_c1 b := by
    rw [frameWord_flip, hB]
    by_cases hpa : p < 24
    · rw [if_neg (fun h => by omega), Nat.xor_zero, Nat.xor_assoc, Nat.xor_self, Nat.xor_zero]
      exact h1.1
    · rw [if_pos ⟨by omega, by omega⟩, xor_xor_swap]
      exact h1.2 _ (by omega)
  have kB0 : d23 (frameWord (encode_ambe_frame e24 e23 b) 24 23
      ^^^ compute_prng_mask_23bit (payload_c0 b)) = payload_c1 b := by
    rw [hB, Nat.xor_assoc, Nat.xor_self, Nat.xor_zero]
    exact h1.1
  apply Buf.ext
  intro q
  rw [decode_get, decode_get, kA, kB, hA, h0.1, kB0, frameBit_flip]
  by_cases hq : q < 24
  · by_cases hq1 : q < 12
    · rw [if_pos hq1, if_pos hq1]
    · rw [if_neg hq1, if_neg hq1, if_pos hq, if_pos hq]
  · rw [if_neg (by omega : ¬ (q + 23 = p))]

/-- Frame bits after inverting a duplicate-free list of positions. -/
theorem frameBit_flipBits (ps : List Nat) (hnd : ps.Nodup) (fr : Buf Nat) (q : Nat) :
    frameBit (flipFrameBits fr ps) q = if q ∈ ps then 1 - frameBit fr q else frameBit fr q := by
  induction ps generalizing fr with
  | nil => simp [flipFrameBits]
  | cons p ps ih =>
    have hp : p ∉ ps := (List.nodup_cons.mp hnd).1
    have ih := ih (List.nodup_cons.mp hnd).2 (flipFrameBit fr p)
    unfold flipFrameBits at ih ⊢
    rw [List.foldl_cons, ih, frameBit_flip]
    by_cases hq : q = p
    · subst hq
      simp [hp]
    · simp [hq]

theorem frameWord_congr (fr fr' : Buf Nat) (base n : Nat)
    (h : ∀ i < n, frameBit fr' (base + i) = frameBit fr (base + i)) :
    frameWord fr' base n = frameWord fr base n :=
  msbWord_congr _ _ n h

/-! ## The concrete Golay codec -/

theorem xor_step_linear (x y g : Nat) (k : Nat) :
    (if (x ^^^ y).testBit k then (x ^^^ y) ^^^ g else x ^^^ y)
      = (if x.testBit k then x ^^^ g else x) ^^^ (if y.testBit k then y ^^^ g else y) := by
  rw [Nat.testBit_xor]
  apply Nat.eq_of_testBit_eq
  intro i
  cases hx : x.testBit k <;> cases hy : y.testBit k <;>
    simp only [Bool.xor_false, Bool.xor_true, Bool.not_false, Bool.not_true, if_true,
      Bool.false_eq_true, if_false, Nat.testBit_xor] <;>
    cases x.testBit i <;> cases y.testBit i <;> cases g.testBit i <;> rfl

theorem golayRem_xor (x y : Nat) : golayRem (x ^^^ y) = golayRem x ^^^ golayRem y := by
  unfold golayRem
  generalize 12 = n
  induction n with
  | zero => rfl
  | succ n ih => rw [forCount_succ, forCount_succ, forCount_succ, ih, xor_step_linear]

set_option maxRecDepth 100000 in
theorem golay_syndromes : ∀ q < 23, golayRem (1 <<< q) ≠ 0 ∧
    (List.range 23).find? (fun r => golayRem (1 <<< r) = golayRem (1 <<< q)) = some q := by
  decide!

theorem golayRem_loop_lt (n : Nat) (hn : n ≤ 12) (w : Nat) (hw : w < 2 ^ 23) :
    forCount 0 (fun k r => if r.testBit (22 - k) then r ^^^ (0xC75 <<< (11 - k)) else r) n w
      < 2 ^ (23 - n) := by
  induction n with
  | zero => exact hw
  | succ n ih =>
    have ih := ih (by omega)
    rw [forCount_succ, Nat.zero_add]
    generalize forCount 0
      (fun k r => if r.testBit (22 - k) then r ^^^ (0xC75 <<< (11 - k)) else r) n w = r at ih
    apply Nat.lt_pow_two_of_testBit
    intro i hi
    have hr : ∀ j, 23 - n ≤ j → r.testBit j = false := fun j hj =>
      Nat.testBit_lt_two_pow (Nat.lt_of_lt_of_le ih (Nat.pow_le_pow_right (by decide) hj))
    by_cases hb : r.testBit (22 - n) = true
    · rw [if_pos hb, Nat.testBit_xor, Nat.testBit_shiftLeft]
      by_cases e : i = 22 - n
      · subst e
        have e2 : 22 - n - (11 - n) = 11 := by omega
        have e3 : (0xC75 : Nat).testBit 11 = true := by decide
        have e4 : 11 - n ≤ 22 - n := by omega
        rw [hb, e2, e3]
        simp [e4]
      · have g : (0xC75 : Nat).testBit (i - (11 - n)) = false :=
          Nat.testBit_lt_two_pow (Nat.lt_of_lt_of_le (by decide : (0xC75 : Nat) < 2 ^ 12)
            (Nat.pow_le_pow_right (by decide) (by omega)))
        rw [hr i (by omega), g]
        simp
    · rw [if_neg hb]
      by_cases e : i = 22 - n
      · subst e
        simpa using hb
      · exact hr i (by omega)

theorem golayRem_lt (w : Nat) (hw : w < 2 ^ 23) : golayRem w < 2 ^ 11 :=
  golayRem_loop_lt 12 (Nat.le_refl 12) w hw

theorem golayRem_small (r : Nat) (hr : r < 2 ^ 11) : golayRem r = r := by
  have h : ∀ n, n ≤ 12 → forCount 0
      (fun k r => if r.testBit (22 - k) then r ^^^ (0xC75 <<< (11 - k)) else r) n r = r := by
    intro n
    induction n with
    | zero => intro _; rfl
    | succ n ih =>
      intro hn
      rw [forCount_succ, ih (by omega), Nat.zero_add]
      have : r.testBit (22 - n) = false :=
        Nat.testBit_lt_two_pow (Nat.lt_of_lt_of_le hr (Nat.pow_le_pow_right (by decide) (by omega)))
      rw [this]
      rfl
  exact h 12 (Nat.le_refl 12)

theorem shl11_lt (c : Nat) (hc : c < 4096) : c <<< 11 < 2 ^ 23 := by
  rw [Nat.shiftLeft_eq]
  have : (2 : Nat) ^ 23 = 4096 * 2 ^ 11 := by norm_num
  omega

theorem golay23_eq_xor (c : Nat) (hc : c < 4096) :
    golay23 c = (c <<< 11) ^^^ golayRem (c <<< 11) := by
  have hr := golayRem_lt (c <<< 11) (shl11_lt c hc)
  unfold golay23
  apply Nat.eq_of_testBit_eq
  intro i
  rw [Nat.testBit_or, Nat.testBit_xor, Nat.testBit_shiftLeft]
  by_cases hi : 11 ≤ i
  · have : (golayRem (c <<< 11)).testBit i = false :=
      Nat.testBit_lt_two_pow (Nat.lt_of_lt_of_le hr (Nat.pow_le_pow_right (by decide) hi))
    rw [this]
    simp
  · simp [hi]

theorem golay23_syndrome (c : Nat) (hc : c < 4096) : golayRem (golay23 c) = 0 := by
  rw [golay23_eq_xor c hc, golayRem_xor,
    golayRem_small _ (golayRem_lt (c <<< 11) (shl11_lt c hc)), Nat.xor_self]

theorem golay23_data (c : Nat) (hc : c < 4096) : golay23 c >>> 11 = c := by
  have hr := golayRem_lt (c <<< 11) (shl11_lt c hc)
  unfold golay23
  apply Nat.eq_of_testBit_eq
  intro i
  rw [Nat.testBit_shiftRight, Nat.testBit_or, Nat.testBit_shiftLeft]
  have : (golayRem (c <<< 11)).testBit (11 + i) = false :=
    Nat.testBit_lt_two_pow (Nat.lt_of_lt_of_le hr (Nat.pow_le_pow_right (by decide) (by omega)))
  rw [this]
  simp

theorem golay23_lt (c : Nat) (hc : c < 4096) : golay23 c < 2 ^ 23 := by
  unfold golay23
  exact Nat.or_lt_two_pow (shl11_lt c hc)
    (Nat.lt_of_lt_of_le (golayRem_lt (c <<< 11) (shl11_lt c hc))
      (Nat.pow_le_pow_right (by decide) (by decide)))

theorem golay23_decode_clean (c : Nat) (hc : c < 4096) : golay23_decode (golay23 c) = c := by
  unfold golay23_decode
  simp only [golay23_syndrome c hc, if_true]
  exact golay23_data c hc

theorem golay23_decode_flip (c : Nat) (hc : c < 4096) (q : Nat) (hq : q < 23) :
    golay23_decode (golay23 c ^^^ 2 ^ q) = c := by
  have hs := golay_syndromes q hq
  rw [← Nat.one_shiftLeft]
  unfold golay23_decode
  simp only [golayRem_xor, golay23_syndrome c hc, Nat.zero_xor, if_neg hs.1, hs.2]
  rw [Nat.xor_assoc, Nat.xor_self, Nat.xor_zero]
  exact golay23_data c hc

theorem parity23_le_one (w : Nat) : parity23 w ≤ 1 := by
  unfold parity23
  generalize 23 = n
  induction n with
  | zero => exact Nat.zero_le _
  | succ n ih =>
    rw [forCount_succ, Nat.and_one_is_mod]
    have h : (w >>> (0 + n)) % 2 < 2 ^ 1 := Nat.mod_lt _ (by decide)
    have := Nat.xor_lt_two_pow (Nat.lt_of_le_of_lt ih (by decide : 1 < 2 ^ 1)) h
    omega

theorem golay24_lt (c : Nat) (hc : c < 4096) : golay24 c < 2 ^ 24 := by
  unfold golay24
  apply Nat.or_lt_two_pow
  · rw [Nat.shiftLeft_eq]
    have := golay23_lt c hc
    have e : (2 : Nat) ^ 24 = 2 ^ 23 * 2 ^ 1 := by norm_num
    omega
  · exact Nat.lt_of_le_of_lt (parity23_le_one _) (by decide)

theorem golay24_shr (c : Nat) : golay24 c >>> 1 = golay23 c := by
  unfold golay24
  apply Nat.eq_of_testBit_eq
  intro i
  rw [Nat.testBit_shiftRight, Nat.testBit_or, Nat.testBit_shiftLeft]
  have : (parity23 (golay23 c)).testBit (1 + i) = false :=
    Nat.testBit_lt_two_pow (Nat.lt_of_le_of_lt (parity23_le_one _)
      (Nat.lt_of_lt_of_le (by decide : 1 < 2 ^ 1) (Nat.pow_le_pow_right (by decide) (by omega))))
  rw [this]
  simp

theorem golay24_decode_clean (c : Nat) (hc : c < 4096) : golay24_decode (golay24 c) = c := by
  unfold golay24_decode
  rw [golay24_shr]
  exact golay23_decode_clean c hc

theorem golay24_decode_flip (c : Nat) (hc : c < 4096) (q : Nat) (hq : q < 24) :
    golay24_decode (golay24 c ^^^ 2 ^ q) = c := by
  unfold golay24_decode
  cases q with
  | zero =>
    have e : (golay24 c ^^^ 2 ^ 0) >>> 1 = golay23 c := by
      rw [← golay24_shr c]
      apply Nat.eq_of_testBit_eq
      intro i
      simp only [Nat.testBit_shiftRight, Nat.testBit_xor, Nat.testBit_two_pow]
      have : ¬ (0 = 1 + i) := by omega
      simp [this]
    rw [e]
    exact golay23_decode_clean c hc
  | succ q =>
    have e : (golay24 c ^^^ 2 ^ (q + 1)) >>> 1 = golay23 c ^^^ 2 ^ q := by
      rw [← golay24_shr c]
      apply Nat.eq_of_testBit_eq
      intro i
      simp only [Nat.testBit_shiftRight, Nat.testBit_xor, Nat.testBit_two_pow]
      congr 2
      apply propext
      omega
    rw [e]
    exact golay23_decode_flip c hc q (by omega)

theorem encode23127_ref_shr (c : Nat) : encode23127_ref c >>> 1 = golay23 c := by
  unfold encode23127_ref
  rw [Nat.shiftLeft_shiftRight]

theorem decode23127_ref_clean (c : Nat) (hc : c < 4096) :
    decode23127_ref (encode23127_ref c) = c := by
  unfold decode23127_ref
  rw [encode23127_ref_shr]
  exact golay23_decode_clean c hc

/-- The decoder `decode23127_ref` repairs any one inverted bit of a 24-bit word of
`encode23127_ref`. -/
theorem decode23127_ref_flip (c : Nat) (hc : c < 4096) (q : Nat) (hq : q < 24) :
    decode23127_ref (encode23127_ref c ^^^ 2 ^ q) = c := by
  unfold decode23127_ref
  cases q with
  | zero =>
    have e : (encode23127_ref c ^^^ 2 ^ 0) >>> 1 = golay23 c := by
      rw [← encode23127_ref_shr c]
      apply Nat.eq_of_testBit_eq
      intro i
      simp only [Nat.testBit_shiftRight, Nat.testBit_xor, Nat.testBit_two_pow]
      have : ¬ (0 = 1 + i) := by omega
      simp [this]
    rw [e]
    exact golay23_decode_clean c hc
  | succ q =>
    have e : (encode23127_ref c ^^^ 2 ^ (q + 1)) >>> 1 = golay23 c ^^^ 2 ^ q := by
      rw [← encode23127_ref_shr c]
      apply Nat.eq_of_testBit_eq
      intro i
      simp only [Nat.testBit_shiftRight, Nat.testBit_xor, Nat.testBit_two_pow]
      congr 2
      apply propext
      omega
    rw [e]
    exact golay23_decode_flip c hc q (by omega)


/-! ## The quantizer: index ranges and the fallback frame -/

theorem forCount_inv_idx {σ : Type} (P : Nat → σ → Prop) (lo : Nat) (body : Nat → σ → σ)
    (h : ∀ k s, P k s → P (k + 1) (body (lo + k) s)) (n : Nat) (s : σ) (hs : P 0 s) :
    P n (forCount lo body n s) := by
  induction n with
  | zero => exact hs
  | succ n ih => exact h n _ ih

theorem b0_lookup_table_all :
    b0_lookup_table.all (fun x => decide (0 ≤ x ∧ x ≤ 124)) = true := by decide!

theorem b0_lookup_table_range : ∀ x ∈ b0_lookup_table, 0 ≤ x ∧ x ≤ 124 := by
  intro x hx
  have h := List.all_eq_true.mp b0_lookup_table_all x hx
  exact of_decide_eq_true h

theorem b0_lookup_range (i : Int) : 0 ≤ b0_lookup i ∧ b0_lookup i ≤ 124 := by
  unfold b0_lookup
  by_cases h : i.toNat < b0_lookup_table.length
  · rw [List.getD_eq_getElem _ _ h]
    exact b0_lookup_table_range _ (List.getElem_mem h)
  · rw [List.getD_eq_default _ _ (by omega)]
    decide

theorem fallback_get (b : Buf Int) :
    (encode_ambe_fallback b).get 0 = 40 ∧
      ∀ i, 1 ≤ i → i ≤ 8 → (encode_ambe_fallback b).get i = 0 := by
  have h : ∀ i, i ≤ 8 → (encode_ambe_fallback b).get i = if i = 0 then 40 else 0 := by
    intro i hi
    interval_cases i <;> rfl
  refine ⟨h 0 (by omega), fun i h1 h8 => ?_⟩
  rw [h i h8, if_neg (by omega)]

/-- The voicing index lies in `0..16`. -/
theorem vuv_range {F : Type} [Add F] [Mul F] [LT F] [DecidableRel (fun a b : F => a < b)]
    (fl : FloatFns F) (T : AmbeTables F) (imbe_param : IMBE_PARAM) (b0 L : Int)
    (m_float2 : Buf F) :
    0 ≤ encode_ambe_vuv fl T imbe_param b0 L m_float2 ∧
      encode_ambe_vuv fl T imbe_param b0 L m_float2 ≤ 16 := by
  unfold encode_ambe_vuv
  rw [forLoop_eq]
  have h := forCount_inv_idx (fun k (st : F × Int) => 0 ≤ st.2 ∧ st.2 + 1 ≤ max k 1) 0
    (fun n (st : F × Int) =>
      let En := forLoop 1 (L.toNat + 1) (fun l En =>
        let jl := fl.toInt (fl.ofInt l * fl.lit 16 * T.AmbeW0table b0.toNat)
        let jl := if jl > 7 then 7 else jl
        if imbe_param.v_uv_dsn.get (l - 1) ≠ T.AmbeVuv n jl.toNat then
          En + m_float2.get (l - 1) else En) (fl.lit 0)
      if n = 0 then (En, st.2)
      else if En < st.1 then (En, (n : Int)) else st)
    (by
      intro k s hs
      simp only [Nat.zero_add]
      split
      · exact ⟨hs.1, by omega⟩
      · split
        · exact ⟨by omega, by omega⟩
        · exact ⟨hs.1, by omega⟩)
    (17 - 0) (fl.lit 0, 0) ⟨by simp, by simp⟩
  exact ⟨h.1, by have := h.2; omega⟩

/-- A search loop of the form `if (i == 0 || err < error) { error = err; error_index = i; }`
over `n >= 1` candidates leaves an index in `0..n-1`. -/
theorem search_range {F : Type} (body : Nat → F × Int → F × Int) (n : Nat) (hn : 0 < n)
    (hbody : ∀ i st, body i st = st ∧ i ≠ 0 ∨ (body i st).2 = (i : Int)) (st : F × Int) :
    0 ≤ (forLoop 0 n body st).2 ∧ (forLoop 0 n body st).2 < n := by
  rw [forLoop_eq]
  have h := forCount_inv_idx (fun k (s : F × Int) => k = 0 ∨ (0 ≤ s.2 ∧ s.2 < k)) 0 body
    (by
      intro k s hs
      right
      rw [Nat.zero_add]
      rcases hbody k s with ⟨h1, h2⟩ | h1
      · rw [h1]
        rcases hs with h0 | h0
        · exact absurd h0 h2
        · exact ⟨h0.1, by omega⟩
      · rw [h1]
        omega)
    (n - 0) st (Or.inl rfl)
  rcases h with h | h
  · omega
  · exact ⟨h.1, by omega⟩

theorem gain_range {F : Type} [Sub F] [Mul F] [Div F] [LT F]
    [DecidableRel (fun a b : F => a < b)] (fl : FloatFns F) (T : AmbeTables F)
    (imbe_param : IMBE_PARAM) (prev_gamma gain_adjust lsa_sum : F) :
    0 ≤ (encode_ambe_gain fl T imbe_param prev_gamma gain_adjust lsa_sum).2 ∧
      (encode_ambe_gain fl T imbe_param prev_gamma gain_adjust lsa_sum).2 < 32 := by
  unfold encode_ambe_gain
  apply search_range _ 32 (by decide)
  intro i st
  dsimp only
  split
  · exact Or.inr rfl
  · rename_i h
    exact Or.inl ⟨rfl, fun h0 => h (Or.inl h0)⟩

theorem prba24_range {F : Type} [Add F] [Sub F] [Mul F] [LT F]
    [DecidableRel (fun a b : F => a < b)] (fl : FloatFns F) (T : AmbeTables F) (G : Buf F)
    (st : F × Int) :
    0 ≤ (encode_ambe_prba24 fl T G st).2 ∧ (encode_ambe_prba24 fl T G st).2 < 512 := by
  unfold encode_ambe_prba24
  apply search_range _ 512 (by decide)
  intro i st
  dsimp only
  split
  · exact Or.inr rfl
  · rename_i h
    exact Or.inl ⟨rfl, fun h0 => h (Or.inl h0)⟩

theorem prba58_range {F : Type} [Add F] [Sub F] [Mul F] [LT F]
    [DecidableRel (fun a b : F => a < b)] (fl : FloatFns F) (T : AmbeTables F) (G : Buf F)
    (st : F × Int) :
    0 ≤ (encode_ambe_prba58 fl T G st).2 ∧ (encode_ambe_prba58 fl T G st).2 < 128 := by
  unfold encode_ambe_prba58
  apply search_range _ 128 (by decide)
  intro i st
  dsimp only
  split
  · exact Or.inr rfl
  · rename_i h
    exact Or.inl ⟨rfl, fun h0 => h (Or.inl h0)⟩

theorem hoc_range {F : Type} [Add F] [Sub F] [Mul F] [LT F]
    [DecidableRel (fun a b : F => a < b)] (fl : FloatFns F) (AmbeHOCb : Nat → Nat → F)
    (size ii : Nat) (hsize : 0 < size) (J : Nat → Int) (C : Buf F) (st : F × Int) :
    0 ≤ (encode_ambe_hoc fl AmbeHOCb size ii J C st).1 ∧
      (encode_ambe_hoc fl AmbeHOCb size ii J C st).1 < size := by
  unfold encode_ambe_hoc
  split
  · exact ⟨le_refl _, by omega⟩
  · dsimp only
    apply search_range _ size hsize
    intro i st
    dsimp only
    split
    · exact Or.inr rfl
    · rename_i h
      exact Or.inl ⟨rfl, fun h0 => h (Or.inl h0)⟩

/-- The nine cells of `b[]` after the quantizing path of `encode_ambe`. -/
theorem quantize_range {F R : Type} [Add F] [Sub F] [Mul F] [Div F] [LT F]
    [DecidableRel (fun a b : F => a < b)] (fl : FloatFns F) (T : AmbeTables F)
    (dec : Buf Nat → mbe_parms F R → mbe_parms F R → mbe_parms F R × mbe_parms F R)
    (mv : mbe_parms F R → mbe_parms F R → mbe_parms F R × mbe_parms F R)
    (p : IMBE_PARAM) (b : Buf Int) (cur prev : mbe_parms F R) (g : F) (b0_i : Int) :
    (encode_ambe_quantize fl T dec mv p b cur prev g b0_i).b.get 0 = b0_lookup b0_i ∧
    (0 ≤ (encode_ambe_quantize fl T dec mv p b cur prev g b0_i).b.get 1 ∧
      (encode_ambe_quantize fl T dec mv p b cur prev g b0_i).b.get 1 ≤ 16) ∧
    (0 ≤ (encode_ambe_quantize fl T dec mv p b cur prev g b0_i).b.get 2 ∧
      (encode_ambe_quantize fl T dec mv p b cur prev g b0_i).b.get 2 < 32) ∧
    (0 ≤ (encode_ambe_quantize fl T dec mv p b cur prev g b0_i).b.get 3 ∧
      (encode_ambe_quantize fl T dec mv p b cur prev g b0_i).b.get 3 < 512) ∧
    (0 ≤ (encode_ambe_quantize fl T dec mv p b cur prev g b0_i).b.get 4 ∧
      (encode_ambe_quantize fl T dec mv p b cur prev g b0_i).b.get 4 < 128) ∧
    (0 ≤ (encode_ambe_quantize fl T dec mv p b cur prev g b0_i).b.get 5 ∧
      (encode_ambe_quantize fl T dec mv p b cur prev g b0_i).b.get 5 < 32) ∧
    (0 ≤ (encode_ambe_quantize fl T dec mv p b cur prev g b0_i).b.get 6 ∧
      (encode_ambe_quantize fl T dec mv p b cur prev g b0_i).b.get 6 < 16) ∧
    (0 ≤ (encode_ambe_quantize fl T dec mv p b cur prev g b0_i).b.get 7 ∧
      (encode_ambe_quantize fl T dec mv p b cur prev g b0_i).b.get 7 < 16) ∧
    (0 ≤ (encode_ambe_quantize fl T dec mv p b cur prev g b0_i).b.get 8 ∧
      (encode_ambe_quantize fl T dec mv p b cur prev g b0_i).b.get 8 < 8) := by
  simp only [encode_ambe_quantize, Buf.get_set, Nat.reduceAdd, Nat.reduceEqDiff, if_true,
    if_false, OfNat.ofNat_ne_zero, OfNat.zero_ne_ofNat]
  refine ⟨trivial, vuv_range _ _ _ _ _ _, gain_range _ _ _ _ _ _, prba24_range _ _ _ _,
    prba58_range _ _ _ _, ?_, ?_, ?_, ?_⟩
  · exact hoc_range _ _ 32 1 (by decide) _ _ _
  · exact hoc_range _ _ 16 2 (by decide) _ _ _
  · exact hoc_range _ _ 16 3 (by decide) _ _ _
  · exact hoc_range _ _ 8 4 (by decide) _ _ _

theorem put49_get_ne (b : Buf Int) (o : Buf Nat) (k f s q : Nat) (h : q ≠ k) :
    (put49 b o k f s).get q = o.get q := by
  rw [put49, Buf.get_set, if_neg h]

theorem encode_49bit_get_high (b : Buf Int) (q : Nat) (hq : 49 ≤ q) :
    (encode_49bit b).get q = 0 := by
  simp (disch := omega) only [encode_49bit, put49_get_ne, Buf.get_zero]

/-- When the pitch index leaves the table, at the start or while it is stepped,
`encode_ambe` returns the fallback frame and the parameter sets it was given. -/
theorem encode_ambe_abort {F R : Type} [Add F] [Sub F] [Mul F] [Div F] [LT F]
    [DecidableRel (fun a b : F => a < b)] (fl : FloatFns F) (T : AmbeTables F)
    (dec : Buf Nat → mbe_parms F R → mbe_parms F R → mbe_parms F R × mbe_parms F R)
    (mv : mbe_parms F R → mbe_parms F R → mbe_parms F R × mbe_parms F R)
    (fuel : Nat) (p : IMBE_PARAM) (b : Buf Int) (cur prev : mbe_parms F R) (g : F)
    (h : ((p.ref_pitch >>> 5) - 159 < 0 ∨ (p.ref_pitch >>> 5) - 159 ≥ b0_lmax) ∨
      encode_ambe_pitch fl T p.num_harms fuel ((p.ref_pitch >>> 5) - 159)
        = PitchSearch.aborted) :
    encode_ambe fl T dec mv fuel p b cur prev g
      = some { b := encode_ambe_fallback b, cur_mp := cur, prev_mp := prev } := by
  unfold encode_ambe
  dsimp only
  by_cases h0 : (p.ref_pitch >>> 5) - 159 < 0 ∨ (p.ref_pitch >>> 5) - 159 ≥ b0_lmax
  · rw [if_pos h0]
  · rw [if_neg h0]
    rcases h with h | h
    · exact absurd h h0
    · rw [h]

/-- When the pitch search ends on a table index, `encode_ambe` returns the quantized
frame. -/
theorem encode_ambe_found {F R : Type} [Add F] [Sub F] [Mul F] [Div F] [LT F]
    [DecidableRel (fun a b : F => a < b)] (fl : FloatFns F) (T : AmbeTables F)
    (dec : Buf Nat → mbe_parms F R → mbe_parms F R → mbe_parms F R × mbe_parms F R)
    (mv : mbe_parms F R → mbe_parms F R → mbe_parms F R × mbe_parms F R)
    (fuel : Nat) (p : IMBE_PARAM) (b : Buf Int) (cur prev : mbe_parms F R) (g : F)
    (b0_i : Int)
    (h0 : ¬ ((p.ref_pitch >>> 5) - 159 < 0 ∨ (p.ref_pitch >>> 5) - 159 ≥ b0_lmax))
    (h : encode_ambe_pitch fl T p.num_harms fuel ((p.ref_pitch >>> 5) - 159)
      = PitchSearch.found b0_i) :
    encode_ambe fl T dec mv fuel p b cur prev g
      = some (encode_ambe_quantize fl T dec mv p b cur prev g b0_i) := by
  unfold encode_ambe
  dsimp only
  rw [if_neg h0, h]

/-- Every result of `encode_ambe` is the fallback frame with the state untouched or a
quantized frame. -/
theorem encode_ambe_cases {F R : Type} [Add F] [Sub F] [Mul F] [Div F] [LT F]
    [DecidableRel (fun a b : F => a < b)] (fl : FloatFns F) (T : AmbeTables F)
    (dec : Buf Nat → mbe_parms F R → mbe_parms F R → mbe_parms F R × mbe_parms F R)
    (mv : mbe_parms F R → mbe_parms F R → mbe_parms F R × mbe_parms F R)
    (fuel : Nat) (p : IMBE_PARAM) (b : Buf Int) (cur prev : mbe_parms F R) (g : F)
    (r : AmbeResult F R) (h : encode_ambe fl T dec mv fuel p b cur prev g = some r) :
    r = { b := encode_ambe_fallback b, cur_mp := cur, prev_mp := prev } ∨
      ∃ b0_i, r = encode_ambe_quantize fl T dec mv p b cur prev g b0_i := by
  unfold encode_ambe at h
  dsimp only at h
  split at h
  · exact Or.inl (Option.some.inj h).symm
  · split at h
    · exact absurd h (by simp)
    · exact Or.inl (Option.some.inj h).symm
    · exact Or.inr ⟨_, (Option.some.inj h).symm⟩

/-! ## Frame conversion and the table-driven packer -/

theorem READ_BIT_eq (p : Buf Nat) (i : Nat) : READ_BIT p i = frameBit p i := by
  have h3 : i >>> 3 = i / 8 := Nat.shiftRight_eq_div_pow i 3
  have h7 : i &&& 7 = i % 8 := Nat.and_pow_two_sub_one_eq_mod i 3
  unfold READ_BIT frameBit
  rw [h3, h7]

/-- Clearing one bit of a frame byte clears that frame bit and no other. -/
theorem frameBit_clearBit (fr : Buf Nat) (p q : Nat) :
    frameBit (fr.set (p / 8) (fr.get (p / 8) &&& (0xFFFFFFFF ^^^ (1 <<< (7 - p % 8))))) q
      = if q = p then 0 else frameBit fr q := by
  have hF : (0xFFFFFFFF : Nat) = 2 ^ 32 - 1 := by norm_num
  simp only [frameBit_eq, Buf.get_set]
  by_cases h : q / 8 = p / 8
  · simp only [h, if_true, Nat.testBit_and, Nat.testBit_xor, Nat.one_shiftLeft,
      Nat.testBit_two_pow, hF, Nat.testBit_two_pow_sub_one]
    by_cases hq : q = p
    · subst hq
      have : 7 - q % 8 < 32 := by omega
      simp [this]
    · have h1 : ¬ (7 - p % 8 = 7 - q % 8) := by omega
      have h2 : 7 - q % 8 < 32 := by omega
      simp [hq, h1, h2]
  · have hq : q ≠ p := fun e => h (by rw [e])
    simp [h, hq]

/-- The macro `WRITE_BIT` stores the truth value of `b` in frame bit `i` and leaves the
other frame bits alone. -/
theorem frameBit_WRITE_BIT (p : Buf Nat) (i b q : Nat) :
    frameBit (WRITE_BIT p i b) q
      = if q = i then (if b ≠ 0 then 1 else 0) else frameBit p q := by
  have h3 : i >>> 3 = i / 8 := Nat.shiftRight_eq_div_pow i 3
  have h7 : i &&& 7 = i % 8 := Nat.and_pow_two_sub_one_eq_mod i 3
  unfold WRITE_BIT
  rw [h3, h7]
  by_cases hb : b ≠ 0
  · rw [if_pos hb, frameBit_setBit, if_pos hb]
  · rw [if_neg hb, frameBit_clearBit, if_neg hb]

/-- A loop that carries a mask shifted right once per iteration. -/
theorem forCount_mask {σ : Type} (f : Nat → σ → Nat → σ) (n : Nat) (s : σ) (M : Nat) :
    forCount 0 (fun i (st : σ × Nat) => (f i st.1 st.2, st.2 >>> 1)) n (s, M)
      = (forCount 0 (fun i s => f i s (M >>> i)) n s, M >>> n) := by
  induction n with
  | zero => rfl
  | succ n ih =>
    rw [forCount_succ, ih, forCount_succ, Nat.zero_add, Nat.shiftRight_add M n 1]

theorem and_mask_ne_zero (w m i : Nat) (hi : i ≤ m) :
    (w &&& (2 ^ m >>> i) ≠ 0) ↔ w.testBit (m - i) = true := by
  have e : 2 ^ m >>> i = 2 ^ (m - i) := by
    rw [Nat.shiftRight_eq_div_pow, Nat.pow_div hi (by norm_num)]
  rw [e, Nat.and_two_pow]
  cases w.testBit (m - i) <;> simp

/-- Frame bits after a loop of `WRITE_BIT`s through a position table: a position outside
the table keeps its bit. -/
theorem frameBit_tableLoop_other (tbl : Nat → Nat) (v : Nat → Nat) (out0 : Buf Nat)
    (n q : Nat) (hq : ∀ i < n, tbl i ≠ q) :
    frameBit (forCount 0 (fun i out => WRITE_BIT out (tbl i) (v i)) n out0) q
      = frameBit out0 q := by
  induction n with
  | zero => rfl
  | succ n ih =>
    rw [forCount_succ, Nat.zero_add, frameBit_WRITE_BIT,
      if_neg (fun e => hq n (Nat.lt_succ_self n) e.symm)]
    exact ih (fun i hi => hq i (Nat.lt_succ_of_lt hi))

/-- Frame bits after a loop of `WRITE_BIT`s through a position table without repeats: a
position of the table holds the truth value written for it. -/
theorem frameBit_tableLoop (tbl : Nat → Nat) (v : Nat → Nat) (out0 : Buf Nat) (n : Nat)
    (hinj : ∀ i < n, ∀ j < n, tbl i = tbl j → i = j) (i : Nat) (hi : i < n) :
    frameBit (forCount 0 (fun i out => WRITE_BIT out (tbl i) (v i)) n out0) (tbl i)
      = if v i ≠ 0 then 1 else 0 := by
  induction n with
  | zero => omega
  | succ n ih =>
    rw [forCount_succ, Nat.zero_add, frameBit_WRITE_BIT]
    by_cases e : i = n
    · subst e; rw [if_pos rfl]
    · have hne : tbl i ≠ tbl n := fun h => e (hinj i hi n (Nat.lt_succ_self n) h)
      rw [if_neg hne]
      exact ih (fun a ha c hc => hinj a (Nat.lt_succ_of_lt ha) c (Nat.lt_succ_of_lt hc))
        (by omega)

theorem DMR_tables_distinct :
    (∀ i < 24, ∀ j < 24, DMR_A_TABLE i = DMR_A_TABLE j → i = j) ∧
    (∀ i < 25, ∀ j < 25, DMR_C_TABLE i = DMR_C_TABLE j → i = j) ∧
    (∀ i < 24, ∀ j < 23, DMR_B_TABLE j ≠ DMR_A_TABLE i) ∧
    (∀ i < 24, ∀ j < 25, DMR_C_TABLE j ≠ DMR_A_TABLE i) := by
  refine ⟨by decide!, by decide!, by decide!, by decide!⟩

/-- The words gathered by the first loop of `MBEEncoder::encode_dmr`. -/
theorem encode_dmr_ab_eq (inp : Buf Nat) :
    encode_dmr_ab inp = (frameWord inp 0 12, frameWord inp 12 12, 0) := by
  have key : ∀ n, forCount 0 (fun i (st : Nat × Nat × Nat) =>
      ((if READ_BIT inp i ≠ 0 then st.1 ||| st.2.2 else st.1),
       (if READ_BIT inp (i + 12) ≠ 0 then st.2.1 ||| st.2.2 else st.2.1),
       st.2.2 >>> 1)) n (0, 0, 0x000800)
      = (forCount 0 (fun i a => if frameBit inp (0 + i) ≠ 0 then a ||| (2 ^ 11 >>> i) else a) n 0,
         forCount 0 (fun i a => if frameBit inp (12 + i) ≠ 0 then a ||| (2 ^ 11 >>> i) else a) n 0,
         2 ^ 11 >>> n) := by
    intro n
    induction n with
    | zero => rfl
    | succ n ih =>
      rw [forCount_succ, ih, forCount_succ, forCount_succ, Nat.shiftRight_add _ n 1]
      simp only [READ_BIT_eq, Nat.zero_add, Nat.add_comm n 12]
  unfold encode_dmr_ab
  rw [forLoop_eq, key, readLoop_eq_frameWord, readLoop_eq_frameWord]
  rfl

/-- The word gathered by the second loop of `MBEEncoder::encode_dmr`. -/
theorem encode_dmr_c_eq (inp : Buf Nat) :
    (forCount 0 (fun i (st : Nat × Nat) =>
      (if READ_BIT inp (i + 24) ≠ 0 then st.1 ||| st.2 else st.1, st.2 >>> 1)) 25
      (0, 0x1000000)).1 = frameWord inp 24 25 := by
  rw [forCount_mask (fun i a M => if READ_BIT inp (i + 24) ≠ 0 then a ||| M else a)]
  simp only [READ_BIT_eq, Nat.add_comm _ 24]
  exact readLoop_eq_frameWord inp 24 24

theorem prSeq_mod (s : Nat) (i : Nat) : prSeq s i = prSeq (s % 4096) i := by
  induction i with
  | zero => simp only [prSeq]; omega
  | succ i ih => simp only [prSeq, ih]

theorem prng_mask_mod (s : Nat) :
    compute_prng_mask_23bit s = compute_prng_mask_23bit (s % 4096) := by
  apply Nat.eq_of_testBit_eq
  intro j
  rw [prng_mask_testBit, prng_mask_testBit, prSeq_mod]

/-- Cells of the byte buffer rebuilt by `opendmr_convert_frame` stay below 256. -/
theorem convert_bytes_lt (bits : Buf Nat) (n k : Nat) :
    (forCount 0 (fun i (bytes : Buf Nat) =>
      if bits.get i ≠ 0 then bytes.set (i / 8) (bytes.get (i / 8) ||| (1 <<< (7 - i % 8)))
      else bytes) n Buf.zero).get k < 2 ^ 8 := by
  induction n generalizing k with
  | zero => simp [forCount_zero]
  | succ n ih =>
    rw [forCount_succ, Nat.zero_add]
    by_cases hb : bits.get n ≠ 0
    · rw [if_pos hb, Buf.get_set]
      by_cases hk : k = n / 8
      · rw [if_pos hk]
        apply Nat.or_lt_two_pow (ih _)
        rw [Nat.one_shiftLeft]
        exact Nat.pow_lt_pow_right (by norm_num) (by omega)
      · rw [if_neg hk]; exact ih k
    · rw [if_neg hb]; exact ih k

/-- A byte is determined by its eight frame bits. -/
theorem byte_eq_of_frameBit (x y : Buf Nat) (k : Nat) (hx : x.get k < 2 ^ 8)
    (hy : y.get k < 2 ^ 8) (h : ∀ q, q / 8 = k → frameBit x q = frameBit y q) :
    x.get k = y.get k := by
  apply Nat.eq_of_testBit_eq
  intro j
  by_cases hj : j < 8
  · have h1 := h (8 * k + (7 - j)) (by omega)
    rw [frameBit_eq, frameBit_eq] at h1
    have e1 : (8 * k + (7 - j)) / 8 = k := by omega
    have e2 : 7 - (8 * k + (7 - j)) % 8 = j := by omega
    rw [e1, e2] at h1
    revert h1
    cases (x.get k).testBit j <;> cases (y.get k).testBit j <;> simp
  · have hj8 : 2 ^ 8 ≤ 2 ^ j := Nat.pow_le_pow_right (by norm_num) (by omega)
    rw [Nat.testBit_lt_two_pow (by omega), Nat.testBit_lt_two_pow (by omega)]

/-! ## The pitch adjustment loop -/

theorem unitSteps_getD (l : List Int) (h : unitSteps l = true) (i : Nat)
    (hi : i + 1 < l.length) :
    l.getD i 0 ≤ l.getD (i + 1) 0 ∧ l.getD (i + 1) 0 ≤ l.getD i 0 + 1 := by
  induction l generalizing i with
  | nil => simp at hi
  | cons a t ih =>
    cases t with
    | nil => simp at hi
    | cons b t =>
      simp only [unitSteps, Bool.and_eq_true, decide_eq_true_eq] at h
      cases i with
      | zero => simpa using h.1
      | succ i =>
        have := ih h.2 i (by simpa using hi)
        simpa using this

theorem b0_lookup_unitSteps : unitSteps b0_lookup_table = true := by decide!

theorem b0_lookup_step (i : Int) (h0 : 0 ≤ i) (h1 : i + 1 < b0_lmax) :
    b0_lookup i ≤ b0_lookup (i + 1) ∧ b0_lookup (i + 1) ≤ b0_lookup i + 1 := by
  unfold b0_lookup
  unfold b0_lmax at h1
  have e : (i + 1).toNat = i.toNat + 1 := by omega
  rw [e]
  exact unitSteps_getD _ b0_lookup_unitSteps _ (by omega)

theorem b0_lookup_mono (i j : Int) (h0 : 0 ≤ i) (hij : i ≤ j) (hj : j < b0_lmax) :
    b0_lookup i ≤ b0_lookup j := by
  revert hj
  refine Int.le_induction (m := i) (P := fun j => j < b0_lmax → b0_lookup i ≤ b0_lookup j)
    (fun _ => le_refl _) ?_ j hij
  intro n hn ih hlt
  have := b0_lookup_step n (by omega) hlt
  have := ih (by omega)
  omega

theorem pitch_zero {F : Type} (fl : FloatFns F) (T : AmbeTables F) (num_harms b0_i : Int) :
    encode_ambe_pitch fl T num_harms 0 b0_i
      = if fl.toInt (T.AmbeLtable (b0_lookup b0_i).toNat) = num_harms
        then PitchSearch.found b0_i else PitchSearch.running := rfl

theorem pitch_succ {F : Type} (fl : FloatFns F) (T : AmbeTables F) (num_harms b0_i : Int)
    (fuel : Nat) :
    encode_ambe_pitch fl T num_harms (fuel + 1) b0_i
      = if fl.toInt (T.AmbeLtable (b0_lookup b0_i).toNat) = num_harms
        then PitchSearch.found b0_i
        else if (if fl.toInt (T.AmbeLtable (b0_lookup b0_i).toNat) < num_harms
              then b0_i + 1 else b0_i - 1) < 0 ∨
            (if fl.toInt (T.AmbeLtable (b0_lookup b0_i).toNat) < num_harms
              then b0_i + 1 else b0_i - 1) ≥ b0_lmax
          then PitchSearch.aborted
          else encode_ambe_pitch fl T num_harms fuel
            (if fl.toInt (T.AmbeLtable (b0_lookup b0_i).toNat) < num_harms
              then b0_i + 1 else b0_i - 1) := rfl

/-- An index on which the pitch loop ends lies in the table and has the harmonic count
of the model. -/
theorem pitch_found_spec {F : Type} (fl : FloatFns F) (T : AmbeTables F) (num_harms : Int)
    (fuel : Nat) : ∀ b0_i i : Int, 0 ≤ b0_i → b0_i < b0_lmax →
      encode_ambe_pitch fl T num_harms fuel b0_i = PitchSearch.found i →
      0 ≤ i ∧ i < b0_lmax ∧ fl.toInt (T.AmbeLtable (b0_lookup i).toNat) = num_harms := by
  induction fuel with
  | zero =>
    intro b0_i i h0 h1 h
    rw [pitch_zero] at h
    split at h
    · injection h with e
      subst e
      exact ⟨h0, h1, by assumption⟩
    · exact absurd h (by simp)
  | succ fuel ih =>
    intro b0_i i h0 h1 h
    rw [pitch_succ] at h
    by_cases he : fl.toInt (T.AmbeLtable (b0_lookup b0_i).toNat) = num_harms
    · rw [if_pos he] at h
      injection h with e
      subst e
      exact ⟨h0, h1, he⟩
    · rw [if_neg he] at h
      generalize (if fl.toInt (T.AmbeLtable (b0_lookup b0_i).toNat) < num_harms
        then b0_i + 1 else b0_i - 1) = next at h
      by_cases hout : next < 0 ∨ next ≥ b0_lmax
      · rw [if_pos hout] at h
        exact absurd h (by simp)
      · rw [if_neg hout] at h
        have hin := not_or.mp hout
        exact ih next i (not_lt.mp hin.1) (not_le.mp hin.2) h

/-- Stepping upwards: when the count never rises by more than 1 per index, the loop ends
within as many steps as there are indices above the current one. -/
theorem pitch_up {F : Type} (fl : FloatFns F) (T : AmbeTables F) (num_harms : Int)
    (hstep : ∀ i : Int, 0 ≤ i → i + 1 < b0_lmax →
      fl.toInt (T.AmbeLtable (b0_lookup (i + 1)).toNat)
        ≤ fl.toInt (T.AmbeLtable (b0_lookup i).toNat) + 1)
    (fuel : Nat) : ∀ b0_i : Int, 0 ≤ b0_i → b0_i < b0_lmax →
      fl.toInt (T.AmbeLtable (b0_lookup b0_i).toNat) ≤ num_harms →
      b0_lmax - b0_i ≤ fuel →
      encode_ambe_pitch fl T num_harms fuel b0_i ≠ PitchSearch.running := by
  induction fuel with
  | zero => intro b0_i h0 h1 _ hf; omega
  | succ fuel ih =>
    intro b0_i h0 h1 hle hf
    rw [pitch_succ]
    by_cases he : fl.toInt (T.AmbeLtable (b0_lookup b0_i).toNat) = num_harms
    · rw [if_pos he]; simp
    · rw [if_neg he]
      have hlt : fl.toInt (T.AmbeLtable (b0_lookup b0_i).toNat) < num_harms := by omega
      simp only [if_pos hlt]
      by_cases hout : b0_i + 1 < 0 ∨ b0_i + 1 ≥ b0_lmax
      · rw [if_pos hout]; simp
      · rw [if_neg hout]
        have := hstep b0_i h0 (by omega)
        exact ih _ (by omega) (by omega) (by omega) (by omega)

/-- Stepping downwards: the loop ends within as many steps as there are indices up to
the current one. -/
theorem pitch_down {F : Type} (fl : FloatFns F) (T : AmbeTables F) (num_harms : Int)
    (hstep : ∀ i : Int, 0 ≤ i → i + 1 < b0_lmax →
      fl.toInt (T.AmbeLtable (b0_lookup (i + 1)).toNat)
        ≤ fl.toInt (T.AmbeLtable (b0_lookup i).toNat) + 1)
    (fuel : Nat) : ∀ b0_i : Int, 0 ≤ b0_i → b0_i < b0_lmax →
      num_harms ≤ fl.toInt (T.AmbeLtable (b0_lookup b0_i).toNat) →
      b0_i + 1 ≤ fuel →
      encode_ambe_pitch fl T num_harms fuel b0_i ≠ PitchSearch.running := by
  induction fuel with
  | zero => intro b0_i h0 h1 _ hf; omega
  | succ fuel ih =>
    intro b0_i h0 h1 hle hf
    rw [pitch_succ]
    by_cases he : fl.toInt (T.AmbeLtable (b0_lookup b0_i).toNat) = num_harms
    · rw [if_pos he]; simp
    · rw [if_neg he]
      have hlt : ¬ fl.toInt (T.AmbeLtable (b0_lookup b0_i).toNat) < num_harms := by omega
      simp only [if_neg hlt]
      by_cases hout : b0_i - 1 < 0 ∨ b0_i - 1 ≥ b0_lmax
      · rw [if_pos hout]; simp
      · rw [if_neg hout]
        have := hstep (b0_i - 1) (by omega) (by omega)
        rw [Int.sub_add_cancel] at this
        exact ih _ (by omega) (by omega) (by omega) (by omega)

theorem ratFloat_toInt_natCast (n : Nat) : ratFloat.toInt (n : ℚ) = n := by
  have h0 : (0 : ℚ) ≤ (n : ℚ) := Nat.cast_nonneg n
  have hf : (n : ℚ).floor = (n : Int) := (Int.floor_natCast n : ⌊(n : ℚ)⌋ = n)
  simp only [ratFloat, if_pos h0, hf]

/-- The harmonic counts of `sampleTables` rise by at most 1 along `b0_lookup`. -/
theorem sampleTables_step (i : Int) (h0 : 0 ≤ i) (h1 : i + 1 < b0_lmax) :
    ratFloat.toInt (sampleTables.AmbeLtable (b0_lookup (i + 1)).toNat)
      ≤ ratFloat.toInt (sampleTables.AmbeLtable (b0_lookup i).toNat) + 1 := by
  have hs := b0_lookup_step i h0 h1
  have hr := b0_lookup_range i
  simp only [sampleTables, ratFloat_toInt_natCast]
  omega

/-- The harmonic counts of `gapTables` are non-decreasing in the pitch value. -/
theorem gapTables_mono (b0 c0 : Nat) (h : b0 ≤ c0) :
    ratFloat.toInt (gapTables.AmbeLtable b0) ≤ ratFloat.toInt (gapTables.AmbeLtable c0) := by
  simp only [gapTables, ratFloat_toInt_natCast]
  omega

/-- With `gapTables` and 10 harmonics the pitch loop moves between the table indices 7
and 8 for ever. -/
theorem gapTables_oscillates (fuel : Nat) :
    encode_ambe_pitch ratFloat gapTables 10 fuel 7 = PitchSearch.running ∧
    encode_ambe_pitch ratFloat gapTables 10 fuel 8 = PitchSearch.running := by
  have h7 : ratFloat.toInt (gapTables.AmbeLtable (b0_lookup 7).toNat) = 9 := by decide!
  have h8 : ratFloat.toInt (gapTables.AmbeLtable (b0_lookup 8).toNat) = 11 := by decide!
  have hl : b0_lmax = 898 := by decide!
  induction fuel with
  | zero =>
    rw [pitch_zero, pitch_zero, h7, h8]
    exact ⟨rfl, rfl⟩
  | succ fuel ih =>
    rw [pitch_succ, pitch_succ, h7, h8, hl]
    norm_num
    exact ⟨ih.2, ih.1⟩

theorem quantize_b0 {F R : Type} [Add F] [Sub F] [Mul F] [Div F] [LT F]
    [DecidableRel (fun a b : F => a < b)] (fl : FloatFns F) (T : AmbeTables F)
    (dec : Buf Nat → mbe_parms F R → mbe_parms F R → mbe_parms F R × mbe_parms F R)
    (mv : mbe_parms F R → mbe_parms F R → mbe_parms F R × mbe_parms F R)
    (p : IMBE_PARAM) (b : Buf Int) (cur prev : mbe_parms F R) (g : F) (b0_i : Int) :
    (encode_ambe_quantize fl T dec mv p b cur prev g b0_i).b.get 0 = b0_lookup b0_i := by
  simp [encode_ambe_quantize, Buf.get_set]

/-! ## The exhaustive searches over exact arithmetic -/

theorem IsFirstArgmin_congr {F : Type} [LE F] [LT F] (E E1 : Nat → F) (n k : Nat)
    (h : ∀ i, E i = E1 i) (hk : IsFirstArgmin E n k) : IsFirstArgmin E1 n k := by
  have e : E = E1 := funext h
  rw [← e]; exact hk

/-- A lowest index of least value is unique. -/
theorem IsFirstArgmin_unique {F : Type} [LinearOrder F] (E : Nat → F) (n k k1 : Nat)
    (hk : IsFirstArgmin E n k) (hk1 : IsFirstArgmin E n k1) : k = k1 := by
  rcases Nat.lt_trichotomy k k1 with h | h | h
  · exact absurd (hk1.2.2 k h) (not_lt.mpr (hk.2.1 k1 hk1.1))
  · exact h
  · exact absurd (hk.2.2 k1 h) (not_lt.mpr (hk1.2.1 k hk.1))

/-- The search `if (i == 0 || err < error) { error = err; error_index = i; }` over
`n >= 1` candidates ends on the lowest index of least error, whatever `error` and
`error_index` held before. -/
theorem search_first_argmin {F : Type} [LinearOrder F] (E : Nat → F) (n : Nat) (hn : 0 < n)
    (st : F × Int) :
    ∃ k : Nat, forCount 0 (fun i (st : F × Int) =>
        if i = 0 ∨ E i < st.1 then (E i, (i : Int)) else st) n st = (E k, (k : Int)) ∧
      IsFirstArgmin E n k := by
  induction n with
  | zero => omega
  | succ m ih =>
    rw [forCount_succ, Nat.zero_add]
    by_cases hm : m = 0
    · subst hm
      refine ⟨0, ?_, by omega, ?_, ?_⟩
      · rw [if_pos (Or.inl rfl)]
      · intro j hj
        have e : j = 0 := by omega
        rw [e]
      · intro j hj; omega
    · obtain ⟨k, hk, hmin⟩ := ih (by omega)
      rw [hk]
      by_cases hlt : E m < E k
      · refine ⟨m, ?_, by omega, ?_, ?_⟩
        · rw [if_pos (Or.inr hlt)]
        · intro j hj
          by_cases e : j = m
          · rw [e]
          · exact le_of_lt (lt_of_lt_of_le hlt (hmin.2.1 j (by omega)))
        · intro j hj
          exact lt_of_lt_of_le hlt (hmin.2.1 j hj)
      · refine ⟨k, ?_, by have := hmin.1; omega, ?_, hmin.2.2⟩
        · rw [if_neg (by
            rintro (h | h)
            · exact hm h
            · exact hlt h)]
        · intro j hj
          by_cases e : j = m
          · rw [e]; exact not_lt.mp hlt
          · exact hmin.2.1 j (by omega)

/-- The search `if (n == 0) en_min = En; else if (En < en_min) { b[1] = n; en_min = En; }`
entered with `b[1] = 0` ends on the lowest index of least energy. -/
theorem vuv_search_first_argmin {F : Type} [LinearOrder F] (E : Nat → F) (n : Nat)
    (hn : 0 < n) (z : F) :
    ∃ k : Nat, forCount 0 (fun n (st : F × Int) =>
        if n = 0 then (E n, st.2)
        else if E n < st.1 then (E n, (n : Int)) else st) n (z, 0) = (E k, (k : Int)) ∧
      IsFirstArgmin E n k := by
  induction n with
  | zero => omega
  | succ m ih =>
    rw [forCount_succ, Nat.zero_add]
    by_cases hm : m = 0
    · subst hm
      refine ⟨0, ?_, by omega, ?_, ?_⟩
      · rw [if_pos rfl]; rfl
      · intro j hj
        have e : j = 0 := by omega
        rw [e]
      · intro j hj; omega
    · obtain ⟨k, hk, hmin⟩ := ih (by omega)
      rw [hk, if_neg hm]
      by_cases hlt : E m < E k
      · refine ⟨m, ?_, by omega, ?_, ?_⟩
        · rw [if_pos hlt]
        · intro j hj
          by_cases e : j = m
          · rw [e]
          · exact le_of_lt (lt_of_lt_of_le hlt (hmin.2.1 j (by omega)))
        · intro j hj
          exact lt_of_lt_of_le hlt (hmin.2.1 j hj)
      · refine ⟨k, ?_, by have := hmin.1; omega, ?_, hmin.2.2⟩
        · rw [if_neg hlt]
        · intro j hj
          by_cases e : j = m
          · rw [e]; exact not_lt.mp hlt
          · exact hmin.2.1 j (by omega)

/-- An accumulation loop over exact arithmetic is a finite sum. -/
theorem sumLoop_eq {F : Type} [AddCommMonoid F] (g : Nat → F) (m : Nat) (z : F) :
    forCount 1 (fun j err => err + g j) m z
      = z + Finset.sum (Finset.range m) (fun j => g (1 + j)) := by
  induction m with
  | zero => simp [forCount_zero]
  | succ m ih => rw [forCount_succ, ih, Finset.sum_range_succ, add_assoc]

/-- A conditional accumulation loop over exact arithmetic is a finite sum. -/
theorem condSumLoop_eq {F : Type} [AddCommMonoid F] (c : Nat → Prop) [DecidablePred c]
    (g : Nat → F) (m : Nat) (z : F) :
    forCount 1 (fun l En => if c l then En + g l else En) m z
      = z + Finset.sum (Finset.range m) (fun j => if c (1 + j) then g (1 + j) else 0) := by
  induction m with
  | zero => simp [forCount_zero]
  | succ m ih =>
    rw [forCount_succ, ih, Finset.sum_range_succ]
    by_cases h : c (1 + m)
    · rw [if_pos h, if_pos h, add_assoc]
    · rw [if_neg h, if_neg h, add_zero]

theorem sum_Icc_one (F : Type) [AddCommMonoid F] (f : Nat → F) (m : Nat) :
    Finset.sum (Finset.Icc 1 m) f = Finset.sum (Finset.range m) (fun j => f (1 + j)) := by
  rw [← Nat.Ico_succ_right, Finset.sum_Ico_eq_sum_range]
  simp

/-- Cells of `m_float2`: the squares of the magnitudes. -/
theorem m_float2_get {F : Type} [Mul F] (fl : FloatFns F) (imbe_param : IMBE_PARAM)
    (L : Int) (q : Nat) (hq : q < L.toNat) :
    (encode_ambe_m_float2 fl imbe_param L).get q
      = fl.ofInt (imbe_param.sa.get q) * fl.ofInt (imbe_param.sa.get q) := by
  unfold encode_ambe_m_float2
  rw [forLoop_eq, Nat.add_sub_cancel]
  have key : ∀ n (m0 : Buf F), (forCount 1 (fun l (m_float2 : Buf F) =>
      (m_float2.set (l - 1) (fl.ofInt (imbe_param.sa.get (l - 1)))).set (l - 1)
        ((m_float2.set (l - 1) (fl.ofInt (imbe_param.sa.get (l - 1)))).get (l - 1) *
          (m_float2.set (l - 1) (fl.ofInt (imbe_param.sa.get (l - 1)))).get (l - 1))) n
      m0).get q
      = if q < n then fl.ofInt (imbe_param.sa.get q) * fl.ofInt (imbe_param.sa.get q)
        else m0.get q := by
    intro n m0
    induction n with
    | zero => rw [forCount_zero, if_neg (by omega)]
    | succ n ih =>
      rw [forCount_succ]
      generalize forCount 1 _ n m0 = mm at ih ⊢
      simp only [Buf.get_set, Nat.add_sub_cancel_left, if_true]
      by_cases h : q = n
      · subst h; rw [if_pos rfl, if_pos (by omega)]
      · rw [if_neg h, if_neg h, ih]
        by_cases h2 : q < n
        · rw [if_pos h2, if_pos (by omega)]
        · rw [if_neg h2, if_neg (by omega)]
  have h := key L.toNat ⟨fun _ => fl.lit 0⟩
  rw [if_pos hq] at h
  exact h

theorem clamp7_eq_min (x : Int) : (if x > 7 then 7 else x) = min 7 x := by
  split <;> omega

/-- The energy accumulated by the inner loop of the voicing search is the mismatch energy
of the specification. -/
theorem vuv_energy_eq {F : Type} [LinearOrderedField F] (fl : FloatFns F)
    (hlit : fl.lit 0 = 0) (T : AmbeTables F) (imbe_param : IMBE_PARAM) (b0 L : Int)
    (n : Nat) :
    forLoop 1 (L.toNat + 1) (fun l En =>
      let jl := fl.toInt (fl.ofInt l * fl.lit 16 * T.AmbeW0table b0.toNat)
      let jl := if jl > 7 then 7 else jl
      if imbe_param.v_uv_dsn.get (l - 1) ≠ T.AmbeVuv n jl.toNat then
        En + (encode_ambe_m_float2 fl imbe_param L).get (l - 1) else En) (fl.lit 0)
      = vuv_mismatch_energy fl T imbe_param b0 L n := by
  rw [forLoop_eq, Nat.add_sub_cancel, hlit]
  refine (condSumLoop_eq (fun l => imbe_param.v_uv_dsn.get (l - 1) ≠ T.AmbeVuv n
      (if fl.toInt (fl.ofInt l * fl.lit 16 * T.AmbeW0table b0.toNat) > 7 then 7
        else fl.toInt (fl.ofInt l * fl.lit 16 * T.AmbeW0table b0.toNat)).toNat)
    (fun l => (encode_ambe_m_float2 fl imbe_param L).get (l - 1)) L.toNat 0).trans ?_
  rw [zero_add]
  unfold vuv_mismatch_energy
  rw [sum_Icc_one]
  apply Finset.sum_congr rfl
  intro j hj
  rw [Finset.mem_range] at hj
  simp only [Nat.add_sub_cancel_left, clamp7_eq_min]
  rw [m_float2_get fl imbe_param L j hj, pow_two]

/-- The voicing search over exact arithmetic. -/
theorem vuv_first_argmin {F : Type} [LinearOrderedField F] (fl : FloatFns F)
    (hlit : fl.lit 0 = 0) (T : AmbeTables F) (imbe_param : IMBE_PARAM) (b0 L : Int) :
    ∃ k : Nat, encode_ambe_vuv fl T imbe_param b0 L (encode_ambe_m_float2 fl imbe_param L)
        = (k : Int) ∧
      IsFirstArgmin (vuv_mismatch_energy fl T imbe_param b0 L) 17 k := by
  obtain ⟨k, hk, hmin⟩ := vuv_search_first_argmin (fun n =>
    forLoop 1 (L.toNat + 1) (fun l En =>
      let jl := fl.toInt (fl.ofInt l * fl.lit 16 * T.AmbeW0table b0.toNat)
      let jl := if jl > 7 then 7 else jl
      if imbe_param.v_uv_dsn.get (l - 1) ≠ T.AmbeVuv n jl.toNat then
        En + (encode_ambe_m_float2 fl imbe_param L).get (l - 1) else En) (fl.lit 0))
    17 (by decide) (fl.lit 0)
  exact ⟨k, congrArg Prod.snd hk,
    IsFirstArgmin_congr _ _ 17 k (vuv_energy_eq fl hlit T imbe_param b0 L) hmin⟩

/-- The gain search over exact arithmetic. -/
theorem gain_first_argmin {F : Type} [LinearOrderedField F] (fl : FloatFns F)
    (hfabs : ∀ x, fl.fabsf x = |x|) (T : AmbeTables F) (imbe_param : IMBE_PARAM)
    (prev_gamma gain_adjust lsa_sum : F) :
    ∃ k : Nat, (encode_ambe_gain fl T imbe_param prev_gamma gain_adjust lsa_sum).2 = (k : Int) ∧
      IsFirstArgmin (gain_distance T (lsa_sum / fl.ofInt imbe_param.num_harms
        - fl.lit 0.5 * prev_gamma - gain_adjust)) 32 k := by
  obtain ⟨k, hk, hmin⟩ := search_first_argmin (fun i =>
    fl.fabsf (lsa_sum / fl.ofInt imbe_param.num_harms - fl.lit 0.5 * prev_gamma - gain_adjust
      - T.AmbeDg i)) 32 (by decide) (fl.lit 0, 0)
  exact ⟨k, congrArg Prod.snd hk, IsFirstArgmin_congr _ _ 32 k (fun i => hfabs _) hmin⟩

/-- The search over `AmbePRBA24` over exact arithmetic. -/
theorem prba24_first_argmin {F : Type} [LinearOrderedField F] (fl : FloatFns F)
    (hlit : fl.lit 0 = 0) (T : AmbeTables F) (G : Buf F) (st : F × Int) :
    ∃ k : Nat, encode_ambe_prba24 fl T G st = (prba24_squared_distance T G k, (k : Int)) ∧
      IsFirstArgmin (prba24_squared_distance T G) 512 k := by
  have hE : ∀ i, fl.lit 0 + (G.get 1 - T.AmbePRBA24 i 0) * (G.get 1 - T.AmbePRBA24 i 0)
      + (G.get 2 - T.AmbePRBA24 i 1) * (G.get 2 - T.AmbePRBA24 i 1)
      + (G.get 3 - T.AmbePRBA24 i 2) * (G.get 3 - T.AmbePRBA24 i 2)
      = prba24_squared_distance T G i := by
    intro i; rw [hlit]; unfold prba24_squared_distance; ring
  obtain ⟨k, hk, hmin⟩ := search_first_argmin (fun i =>
    fl.lit 0 + (G.get 1 - T.AmbePRBA24 i 0) * (G.get 1 - T.AmbePRBA24 i 0)
      + (G.get 2 - T.AmbePRBA24 i 1) * (G.get 2 - T.AmbePRBA24 i 1)
      + (G.get 3 - T.AmbePRBA24 i 2) * (G.get 3 - T.AmbePRBA24 i 2)) 512 (by decide) st
  refine ⟨k, ?_, IsFirstArgmin_congr _ _ 512 k hE hmin⟩
  rw [← hE k]
  exact hk

/-- The search over `AmbePRBA58` over exact arithmetic. -/
theorem prba58_first_argmin {F : Type} [LinearOrderedField F] (fl : FloatFns F)
    (hlit : fl.lit 0 = 0) (T : AmbeTables F) (G : Buf F) (st : F × Int) :
    ∃ k : Nat, encode_ambe_prba58 fl T G st = (prba58_squared_distance T G k, (k : Int)) ∧
      IsFirstArgmin (prba58_squared_distance T G) 128 k := by
  have hE : ∀ i, fl.lit 0 + (G.get 4 - T.AmbePRBA58 i 0) * (G.get 4 - T.AmbePRBA58 i 0)
      + (G.get 5 - T.AmbePRBA58 i 1) * (G.get 5 - T.AmbePRBA58 i 1)
      + (G.get 6 - T.AmbePRBA58 i 2) * (G.get 6 - T.AmbePRBA58 i 2)
      + (G.get 7 - T.AmbePRBA58 i 3) * (G.get 7 - T.AmbePRBA58 i 3)
      = prba58_squared_distance T G i := by
    intro i; rw [hlit]; unfold prba58_squared_distance; ring
  obtain ⟨k, hk, hmin⟩ := search_first_argmin (fun i =>
    fl.lit 0 + (G.get 4 - T.AmbePRBA58 i 0) * (G.get 4 - T.AmbePRBA58 i 0)
      + (G.get 5 - T.AmbePRBA58 i 1) * (G.get 5 - T.AmbePRBA58 i 1)
      + (G.get 6 - T.AmbePRBA58 i 2) * (G.get 6 - T.AmbePRBA58 i 2)
      + (G.get 7 - T.AmbePRBA58 i 3) * (G.get 7 - T.AmbePRBA58 i 3)) 128 (by decide) st
  refine ⟨k, ?_, IsFirstArgmin_congr _ _ 128 k hE hmin⟩
  rw [← hE k]
  exact hk

/-- The error accumulated by the inner loop of a sub-band search is the squared error of
the specification over `min(J - 2, 4)` coefficients. -/
theorem hoc_error_eq {F : Type} [LinearOrderedField F] (fl : FloatFns F)
    (hlit : fl.lit 0 = 0) (AmbeHOCb : Nat → Nat → F) (ii : Nat) (J : Nat → Int) (C : Buf F)
    (n : Nat) :
    forLoop 1 ((min (J (ii - 1) - 2) 4).toNat + 1) (fun j err =>
      let diff := AmbeHOCb n (j - 1) - C.get (C_index (ii - 1) (j + 2 - 1))
      err + diff * diff) (fl.lit 0)
      = hoc_squared_error AmbeHOCb C (ii - 1) (min (J (ii - 1) - 2) 4).toNat n := by
  rw [forLoop_eq, Nat.add_sub_cancel, hlit]
  refine (sumLoop_eq (fun j => (AmbeHOCb n (j - 1) - C.get (C_index (ii - 1) (j + 2 - 1))) *
    (AmbeHOCb n (j - 1) - C.get (C_index (ii - 1) (j + 2 - 1))))
    (min (J (ii - 1) - 2) 4).toNat 0).trans ?_
  rw [zero_add]
  unfold hoc_squared_error
  apply Finset.sum_congr rfl
  intro j _
  have e1 : 1 + j - 1 = j := by omega
  have e2 : 1 + j + 2 - 1 = j + 2 := by omega
  rw [e1, e2, pow_two]

/-- One sub-band search over exact arithmetic. -/
theorem hoc_first_argmin {F : Type} [LinearOrderedField F] (fl : FloatFns F)
    (hlit : fl.lit 0 = 0) (AmbeHOCb : Nat → Nat → F) (size ii : Nat) (hsize : 0 < size)
    (J : Nat → Int) (C : Buf F) (st : F × Int) :
    (J (ii - 1) ≤ 2 → encode_ambe_hoc fl AmbeHOCb size ii J C st = (0, st)) ∧
    (2 < J (ii - 1) → ∃ k : Nat,
      encode_ambe_hoc fl AmbeHOCb size ii J C st
        = ((k : Int),
            (hoc_squared_error AmbeHOCb C (ii - 1) (min (J (ii - 1) - 2) 4).toNat k,
             (k : Int))) ∧
      IsFirstArgmin (hoc_squared_error AmbeHOCb C (ii - 1) (min (J (ii - 1) - 2) 4).toNat)
        size k) := by
  constructor
  · intro h
    unfold encode_ambe_hoc
    rw [if_pos h]
  · intro h
    obtain ⟨k, hk, hmin⟩ := search_first_argmin (fun n =>
      forLoop 1 ((min (J (ii - 1) - 2) 4).toNat + 1) (fun j err =>
        let diff := AmbeHOCb n (j - 1) - C.get (C_index (ii - 1) (j + 2 - 1))
        err + diff * diff) (fl.lit 0)) size hsize st
    have hE := hoc_error_eq fl hlit AmbeHOCb ii J C
    refine ⟨k, ?_, IsFirstArgmin_congr _ _ size k hE hmin⟩
    unfold encode_ambe_hoc
    rw [if_neg (by omega), ← hE k]
    dsimp only
    rw [forLoop_eq, Nat.sub_zero]
    exact Prod.ext (congrArg Prod.snd hk) hk

/-- The state a search is entered with does not influence where it ends. -/
theorem search_init_irrelevant {F : Type} [LT F] [DecidableRel (fun a b : F => a < b)]
    (E : Nat → F) (n : Nat) (hn : 0 < n) (st st1 : F × Int) :
    forCount 0 (fun i (st : F × Int) =>
        if i = 0 ∨ E i < st.1 then (E i, (i : Int)) else st) n st
      = forCount 0 (fun i (st : F × Int) =>
        if i = 0 ∨ E i < st.1 then (E i, (i : Int)) else st) n st1 := by
  induction n with
  | zero => omega
  | succ m ih =>
    rw [forCount_succ, forCount_succ, Nat.zero_add]
    by_cases hm : m = 0
    · subst hm
      rw [if_pos (Or.inl rfl), if_pos (Or.inl rfl)]
    · rw [ih (by omega)]

theorem prba24_init_irrelevant {F : Type} [Add F] [Sub F] [Mul F] [LT F]
    [DecidableRel (fun a b : F => a < b)] (fl : FloatFns F) (T : AmbeTables F) (G : Buf F)
    (st st1 : F × Int) : encode_ambe_prba24 fl T G st = encode_ambe_prba24 fl T G st1 :=
  search_init_irrelevant (fun i =>
    fl.lit 0 + (G.get 1 - T.AmbePRBA24 i 0) * (G.get 1 - T.AmbePRBA24 i 0)
      + (G.get 2 - T.AmbePRBA24 i 1) * (G.get 2 - T.AmbePRBA24 i 1)
      + (G.get 3 - T.AmbePRBA24 i 2) * (G.get 3 - T.AmbePRBA24 i 2)) 512 (by decide) st st1

theorem prba58_init_irrelevant {F : Type} [Add F] [Sub F] [Mul F] [LT F]
    [DecidableRel (fun a b : F => a < b)] (fl : FloatFns F) (T : AmbeTables F) (G : Buf F)
    (st st1 : F × Int) : encode_ambe_prba58 fl T G st = encode_ambe_prba58 fl T G st1 :=
  search_init_irrelevant (fun i =>
    fl.lit 0 + (G.get 4 - T.AmbePRBA58 i 0) * (G.get 4 - T.AmbePRBA58 i 0)
      + (G.get 5 - T.AmbePRBA58 i 1) * (G.get 5 - T.AmbePRBA58 i 1)
      + (G.get 6 - T.AmbePRBA58 i 2) * (G.get 6 - T.AmbePRBA58 i 2)
      + (G.get 7 - T.AmbePRBA58 i 3) * (G.get 7 - T.AmbePRBA58 i 3)) 128 (by decide) st st1

theorem hoc_init_irrelevant {F : Type} [Add F] [Sub F] [Mul F] [LT F]
    [DecidableRel (fun a b : F => a < b)] (fl : FloatFns F) (AmbeHOCb : Nat → Nat → F)
    (size ii : Nat) (hsize : 0 < size) (J : Nat → Int) (C : Buf F) (st st1 : F × Int) :
    (encode_ambe_hoc fl AmbeHOCb size ii J C st).1
      = (encode_ambe_hoc fl AmbeHOCb size ii J C st1).1 := by
  unfold encode_ambe_hoc
  by_cases h : J (ii - 1) ≤ 2
  · rw [if_pos h, if_pos h]
  · rw [if_neg h, if_neg h]
    exact congrArg Prod.snd (search_init_irrelevant (fun n =>
      forLoop 1 ((min (J (ii - 1) - 2) 4).toNat + 1) (fun j err =>
        let diff := AmbeHOCb n (j - 1) - C.get (C_index (ii - 1) (j + 2 - 1))
        err + diff * diff) (fl.lit 0)) size hsize st st1)

/-- The search `if (i == 0 || err < error) { error = err; error_index = i; }` over
`n >= 1` candidates whose errors the comparison orders ends on the lowest index of least
error. -/
theorem search_first_minimal {F : Type} [LT F] [DecidableRel (fun a b : F => a < b)]
    (E : Nat → F) (n : Nat) (hn : 0 < n) (hord : OrdersValues E n) (st : F × Int) :
    ∃ k : Nat, forCount 0 (fun i (st : F × Int) =>
        if i = 0 ∨ E i < st.1 then (E i, (i : Int)) else st) n st = (E k, (k : Int)) ∧
      IsFirstMinimal E n k := by
  induction n with
  | zero => omega
  | succ m ih =>
    rw [forCount_succ, Nat.zero_add]
    by_cases hm : m = 0
    · subst hm
      refine ⟨0, ?_, by omega, ?_, ?_⟩
      · rw [if_pos (Or.inl rfl)]
      · intro j hj
        have e : j = 0 := by omega
        rw [e]
        exact fun h => hord.1 0 0 (by omega) (by omega) h h
      · intro j hj; omega
    · have hord1 : OrdersValues E m :=
        ⟨fun i j hi hj => hord.1 i j (by omega) (by omega),
          fun i j k hi hj hk => hord.2 i j k (by omega) (by omega) (by omega)⟩
      obtain ⟨k, hk, hmin⟩ := ih (by omega) hord1
      have hkm : k < m := hmin.1
      rw [hk]
      by_cases hlt : E m < E k
      · refine ⟨m, ?_, by omega, ?_, ?_⟩
        · rw [if_pos (Or.inr hlt)]
        · intro j hj hjm
          by_cases e : j = m
          · rw [e] at hjm
            exact hord.1 m m (by omega) (by omega) hjm hjm
          · rcases hord.2 j m k (by omega) (by omega) (by omega) hjm with h | h
            · exact hmin.2.1 j (by omega) h
            · exact hord.1 m k (by omega) (by omega) hlt h
        · intro j hj
          rcases hord.2 m k j (by omega) (by omega) (by omega) hlt with h | h
          · exact h
          · exact absurd h (hmin.2.1 j hj)
      · refine ⟨k, ?_, by omega, ?_, hmin.2.2⟩
        · rw [if_neg (by
            rintro (h | h)
            · exact hm h
            · exact hlt h)]
        · intro j hj
          by_cases e : j = m
          · rw [e]; exact hlt
          · exact hmin.2.1 j (by omega)

/-- The comparison of the finite-precision `float` orders any values. -/
theorem binary32_orders (E : Nat → Binary32) (n : Nat) : OrdersValues E n := by
  constructor
  · intro i j _ _ h h2
    exact lt_asymm (show (E i).val < (E j).val from h) h2
  · intro i j k _ _ _ h
    by_cases hk : (E i).val < (E k).val
    · exact Or.inl hk
    · exact Or.inr (lt_of_le_of_lt (not_lt.mp hk) (show (E i).val < (E j).val from h))

/-- One sub-band search in any `float` arithmetic. -/
theorem hoc_first_minimal {F : Type} [Add F] [Sub F] [Mul F] [LT F]
    [DecidableRel (fun a b : F => a < b)] (fl : FloatFns F) (AmbeHOCb : Nat → Nat → F)
    (size ii : Nat) (hsize : 0 < size) (J : Nat → Int) (C : Buf F) (st : F × Int) :
    HocFloatSpec fl AmbeHOCb size (ii - 1) J C (encode_ambe_hoc fl AmbeHOCb size ii J C st).1 := by
  constructor
  · intro h
    unfold encode_ambe_hoc
    rw [if_pos h]
  · intro h hord
    obtain ⟨k, hk, hmin⟩ := search_first_minimal
      (hoc_accumulated_error fl AmbeHOCb C (ii - 1) (min (J (ii - 1) - 2) 4).toNat) size hsize
      hord st
    refine ⟨k, ?_, hmin⟩
    unfold encode_ambe_hoc
    rw [if_neg (by omega)]
    exact congrArg Prod.snd hk

/-- The cells `b[1]` .. `b[8]` after the quantizing path of `encode_ambe`, in terms of
the searches; the searches for `b[3]` .. `b[8]` may be entered with any state. -/
theorem quantize_b_get {F R : Type} [Add F] [Sub F] [Mul F] [Div F] [LT F]
    [DecidableRel (fun a b : F => a < b)] (fl : FloatFns F) (T : AmbeTables F)
    (dec : Buf Nat → mbe_parms F R → mbe_parms F R → mbe_parms F R × mbe_parms F R)
    (mv : mbe_parms F R → mbe_parms F R → mbe_parms F R × mbe_parms F R)
    (p : IMBE_PARAM) (b : Buf Int) (cur prev : mbe_parms F R) (g : F) (b0_i : Int)
    (st : F × Int) :
    (encode_ambe_quantize fl T dec mv p b cur prev g b0_i).b.get 1
      = encode_ambe_vuv fl T p (b0_lookup b0_i)
          (fl.toInt (T.AmbeLtable (b0_lookup b0_i).toNat))
          (encode_ambe_m_float2 fl p (fl.toInt (T.AmbeLtable (b0_lookup b0_i).toNat))) ∧
    (encode_ambe_quantize fl T dec mv p b cur prev g b0_i).b.get 2
      = (encode_ambe_gain fl T p prev.gamma g (quantize_lsa fl T p b0_i).2).2 ∧
    (encode_ambe_quantize fl T dec mv p b cur prev g b0_i).b.get 3
      = (encode_ambe_prba24 fl T (quantize_G fl T p prev b0_i) st).2 ∧
    (encode_ambe_quantize fl T dec mv p b cur prev g b0_i).b.get 4
      = (encode_ambe_prba58 fl T (quantize_G fl T p prev b0_i) st).2 ∧
    (encode_ambe_quantize fl T dec mv p b cur prev g b0_i).b.get 5
      = (encode_ambe_hoc fl T.AmbeHOCb5 32 1 (T.AmbeLmprbl p.num_harms.toNat)
          (quantize_C fl T p prev b0_i) st).1 ∧
    (encode_ambe_quantize fl T dec mv p b cur prev g b0_i).b.get 6
      = (encode_ambe_hoc fl T.AmbeHOCb6 16 2 (T.AmbeLmprbl p.num_harms.toNat)
          (quantize_C fl T p prev b0_i) st).1 ∧
    (encode_ambe_quantize fl T dec mv p b cur prev g b0_i).b.get 7
      = (encode_ambe_hoc fl T.AmbeHOCb7 16 3 (T.AmbeLmprbl p.num_harms.toNat)
          (quantize_C fl T p prev b0_i) st).1 ∧
    (encode_ambe_quantize fl T dec mv p b cur prev g b0_i).b.get 8
      = (encode_ambe_hoc fl T.AmbeHOCb8 8 4 (T.AmbeLmprbl p.num_harms.toNat)
          (quantize_C fl T p prev b0_i) st).1 := by
  refine ⟨rfl, rfl, ?_, ?_, ?_, ?_, ?_, ?_⟩ <;>
    simp only [encode_ambe_quantize, Buf.get_set, Nat.reduceAdd, Nat.reduceEqDiff, if_true,
      if_false]
  · exact congrArg Prod.snd (prba24_init_irrelevant fl T _ _ st)
  · exact congrArg Prod.snd (prba58_init_irrelevant fl T _ _ st)
  · exact hoc_init_irrelevant fl _ 32 1 (by decide) _ _ _ st
  · exact hoc_init_irrelevant fl _ 16 2 (by decide) _ _ _ st
  · exact hoc_init_irrelevant fl _ 16 3 (by decide) _ _ _ st
  · exact hoc_init_irrelevant fl _ 8 4 (by decide) _ _ _ st

theorem ratFloat_fabsf (x : ℚ) : ratFloat.fabsf x = |x| := by
  simp only [ratFloat]
  by_cases h : x < 0
  · rw [if_pos h, abs_of_neg h]
  · rw [if_neg h, abs_of_nonneg (not_lt.mp h)]

/-! ## The pitch table -/

/-- Every value from `0` up to the entry at index `k` occurs at an index up to `k`. -/
theorem b0_lookup_reaches (k : Nat) (hk : (k : Int) < b0_lmax) (v : Int) (h0 : 0 ≤ v)
    (hv : v ≤ b0_lookup k) : ∃ i : Int, 0 ≤ i ∧ i ≤ k ∧ b0_lookup i = v := by
  induction k with
  | zero =>
    have e : b0_lookup 0 = 0 := by decide!
    rw [Nat.cast_zero, e] at hv
    exact ⟨0, le_refl _, by simp, by omega⟩
  | succ k ih =>
    rw [Nat.cast_succ] at hk hv
    have hs := b0_lookup_step k (by omega) hk
    by_cases hle : v ≤ b0_lookup k
    · obtain ⟨i, hi0, hik, hiv⟩ := ih (by omega) hle
      exact ⟨i, hi0, by rw [Nat.cast_succ]; omega, hiv⟩
    · exact ⟨(k : Int) + 1, by omega, by rw [Nat.cast_succ], by omega⟩

/-! ## The claims -/

/-- C1. Round trip: for every parameter tuple `b` (in particular every one whose fields fit
the widths 7,5,5,9,7,5,4,4,3), `decode_ambe_frame (encode_ambe_frame b)` returns exactly the
49 payload bits that `encode_ambe_frame` serialised from `b`, provided the Golay encoders
return 24-bit and 23-bit words and each Golay decoder maps its encoder's output for a
12-bit value back to that value. -/
theorem C1_round_trip (encode24128 encode23127 decode24128 decode23127 : Nat → Nat)
    (h24 : ∀ c < 4096, encode24128 c < 2 ^ 24) (h23 : ∀ c < 4096, encode23127 c < 2 ^ 23)
    (hd24 : ∀ c < 4096, decode24128 (encode24128 c) = c)
    (hd23 : ∀ c < 4096, decode23127 (encode23127 c) = c)
    (b : Buf Int) (i : Nat) (hi : i < 49) :
    (decode_ambe_frame decode24128 decode23127
        (encode_ambe_frame encode24128 encode23127 b)).get i
      = (encode_ambe_frame_bits49 b).get i :=
  decode_encode_get encode24128 encode23127 decode24128 decode23127 h24 h23 hd24 hd23 b i hi

/-- C1 at the concrete Golay codec, the parameter set `sampleParams` and payload bit 30. -/
theorem C1_round_trip_witness :
    (∀ c < 4096, golay24 c < 2 ^ 24) ∧ (∀ c < 4096, golay23 c < 2 ^ 23) ∧
    (∀ c < 4096, golay24_decode (golay24 c) = c) ∧
    (∀ c < 4096, golay23_decode (golay23 c) = c) ∧
    (decode_ambe_frame golay24_decode golay23_decode
        (encode_ambe_frame golay24 golay23 sampleParams)).get 30
      = (encode_ambe_frame_bits49 sampleParams).get 30 :=
  ⟨golay24_lt, golay23_lt, golay24_decode_clean, golay23_decode_clean,
    C1_round_trip golay24 golay23 golay24_decode golay23_decode golay24_lt golay23_lt
      golay24_decode_clean golay23_decode_clean sampleParams 30 (by decide)⟩

/-- The field offsets `0, 7, 12, ...` used in C2 are the running sums of the field widths. -/
theorem fieldOffset_eq :
    [0, 7, 12, 17, 26, 33, 38, 42, 46] =
      (List.range 9).map (fun f => ((List.range f).map b_lengths).sum) := by decide

/-- C2. The 49 bits that `encode_ambe_frame` serialises are the plain MSB-first
concatenation of the nine fields (bit `j` of field `f` lands at offset
`start f + (width f - 1 - j)`), not the interleaved layout of `encode_49bit`: for
`b[0] = 1` the set bit sits at payload position 6, where `encode_49bit` puts it at
position 39. -/
theorem C2_pack_is_plain_concatenation :
    (∀ (b : Buf Int) (f j : Nat), f < 9 → j < b_lengths f →
      (encode_ambe_frame_bits49 b).get
          ([0, 7, 12, 17, 26, 33, 38, 42, 46].getD f 0 + (b_lengths f - 1 - j))
        = ((b.get f >>> j) % 2).toNat) ∧
    (encode_ambe_frame_bits49 pitchOneParams).get 6 = 1 ∧
    (encode_49bit pitchOneParams).get 6 = 0 ∧
    (encode_ambe_frame_bits49 pitchOneParams).get 39 = 0 ∧
    (encode_49bit pitchOneParams).get 39 = 1 := by
  refine ⟨?_, by decide, by decide, by decide, by decide⟩
  intro b f j hf hj
  interval_cases f <;> simp only [b_lengths, List.getD_cons_zero, List.getD_cons_succ] at hj <;>
    interval_cases j <;> rfl

/-- C3 as stated fails.  The assumption of the claim holds for the pair `golay24`,
`golay24_decode` and for the pair `encode23127_ref`, `decode23127_ref`: each decoder
returns the 12-bit data for any codeword of its encoder, intact or with one of its 24
bits inverted.  But `encode23127_ref` returns 24-bit words and `encode_ambe_frame` writes
the low 23 bits only: the frame of `gainTopParams`, whose second data word is 2048,
already lacks the top bit of its codeword, and inverting frame bit 30 as well changes
what is decoded.  Payload bit 12 is set for the frame and clear for the frame with bit 30
inverted, where payload bit 19 is set instead. -/
theorem C3_golay_assumption_counterexample :
    (∀ c < 4096, golay24_decode (golay24 c) = c ∧
      ∀ q < 24, golay24_decode (golay24 c ^^^ 2 ^ q) = c) ∧
    (∀ c < 4096, decode23127_ref (encode23127_ref c) = c ∧
      ∀ q < 24, decode23127_ref (encode23127_ref c ^^^ 2 ^ q) = c) ∧
    2 ^ 23 ≤ encode23127_ref 2048 ∧
    (decode_ambe_frame golay24_decode decode23127_ref
      (encode_ambe_frame golay24 encode23127_ref gainTopParams)).get 12 = 1 ∧
    (decode_ambe_frame golay24_decode decode23127_ref
      (flipFrameBit (encode_ambe_frame golay24 encode23127_ref gainTopParams) 30)).get 12
        = 0 ∧
    (decode_ambe_frame golay24_decode decode23127_ref
      (flipFrameBit (encode_ambe_frame golay24 encode23127_ref gainTopParams) 30)).get 19
        = 1 := by
  refine ⟨fun c hc => ⟨golay24_decode_clean c hc, golay24_decode_flip c hc⟩,
    fun c hc => ⟨decode23127_ref_clean c hc, decode23127_ref_flip c hc⟩, ?_, ?_, ?_, ?_⟩ <;>
  decide!

/-- C3, amended. Single-bit error correction: for every parameter tuple `b` and every bit
position `p` in `0..46` of the packed frame (a bit of the A block or of the B block),
`decode_ambe_frame` applied to `encode_ambe_frame b` with bit `p` inverted returns the same
cells as for the frame itself, provided the Golay encoders return 24-bit and 23-bit words
and each Golay decoder returns the original 12-bit data for any of its encoder's codewords,
intact or with one bit inverted. -/
theorem C3_single_bit_error_corrected
    (encode24128 encode23127 decode24128 decode23127 : Nat → Nat)
    (h24 : ∀ c < 4096, encode24128 c < 2 ^ 24) (h23 : ∀ c < 4096, encode23127 c < 2 ^ 23)
    (hd24 : ∀ c < 4096, decode24128 (encode24128 c) = c ∧
      ∀ q < 24, decode24128 (encode24128 c ^^^ 2 ^ q) = c)
    (hd23 : ∀ c < 4096, decode23127 (encode23127 c) = c ∧
      ∀ q < 23, decode23127 (encode23127 c ^^^ 2 ^ q) = c)
    (b : Buf Int) (p : Nat) (hp : p < 47) (i : Nat) :
    (decode_ambe_frame decode24128 decode23127
        (flipFrameBit (encode_ambe_frame encode24128 encode23127 b) p)).get i
      = (decode_ambe_frame decode24128 decode23127
        (encode_ambe_frame encode24128 encode23127 b)).get i := by
  rw [decode_flip_eq encode24128 encode23127 decode24128 decode23127 h24 h23 hd24 hd23 b p hp]

/-- C3 at the concrete Golay codec, the parameter set `sampleParams`, frame bit 29 inverted
and payload bit 14. -/
theorem C3_single_bit_error_corrected_witness :
    (∀ c < 4096, golay24_decode (golay24 c) = c ∧
      ∀ q < 24, golay24_decode (golay24 c ^^^ 2 ^ q) = c) ∧
    (∀ c < 4096, golay23_decode (golay23 c) = c ∧
      ∀ q < 23, golay23_decode (golay23 c ^^^ 2 ^ q) = c) ∧
    (decode_ambe_frame golay24_decode golay23_decode
        (flipFrameBit (encode_ambe_frame golay24 golay23 sampleParams) 29)).get 14
      = (decode_ambe_frame golay24_decode golay23_decode
        (encode_ambe_frame golay24 golay23 sampleParams)).get 14 :=
  ⟨fun c hc => ⟨golay24_decode_clean c hc, golay24_decode_flip c hc⟩,
    fun c hc => ⟨golay23_decode_clean c hc, golay23_decode_flip c hc⟩,
    C3_single_bit_error_corrected golay24 golay23 golay24_decode golay23_decode
      golay24_lt golay23_lt
      (fun c hc => ⟨golay24_decode_clean c hc, golay24_decode_flip c hc⟩)
      (fun c hc => ⟨golay23_decode_clean c hc, golay23_decode_flip c hc⟩)
      sampleParams 29 (by decide) 14⟩

/-- C4. The count that `opendmr_decode` stores in `*errs` is the counter the synthesiser
call leaves behind after receiving it as `0`; it is computed from the decoded 49 cells and
the decoder state only.  A packed frame with one bit inverted in its A or B block therefore
reports the same count as the intact frame, whatever the synthesiser does, and not one
more: the corrections made by the two Golay decodes are not counted. -/
theorem C4_error_count_misses_corrections {St Pcm : Type}
    (encode24128 encode23127 decode24128 decode23127 : Nat → Nat)
    (h24 : ∀ c < 4096, encode24128 c < 2 ^ 24) (h23 : ∀ c < 4096, encode23127 c < 2 ^ 23)
    (hd24 : ∀ c < 4096, decode24128 (encode24128 c) = c ∧
      ∀ q < 24, decode24128 (encode24128 c ^^^ 2 ^ q) = c)
    (hd23 : ∀ c < 4096, decode23127 (encode23127 c) = c ∧
      ∀ q < 23, decode23127 (encode23127 c ^^^ 2 ^ q) = c)
    (mbe_processAmbe2450Data : Int → Int → Buf Nat → St → Nat → MbeOut St Pcm)
    (st : St) (pcm : Pcm) (errs : Int) (b : Buf Int) (p : Nat) (hp : p < 47) :
    (opendmr_decode decode24128 decode23127 mbe_processAmbe2450Data (some st)
        (some (flipFrameBit (encode_ambe_frame encode24128 encode23127 b) p))
        (some pcm) (some errs)).errs
      = (opendmr_decode decode24128 decode23127 mbe_processAmbe2450Data (some st)
        (some (encode_ambe_frame encode24128 encode23127 b)) (some pcm) (some errs)).errs ∧
    (opendmr_decode decode24128 decode23127 mbe_processAmbe2450Data (some st)
        (some (encode_ambe_frame encode24128 encode23127 b)) (some pcm) (some errs)).errs
      = some (mbe_processAmbe2450Data 0 0
          (decode_ambe_frame decode24128 decode23127
            (encode_ambe_frame encode24128 encode23127 b)) st 3).errs := by
  constructor
  · simp only [opendmr_decode]
    rw [decode_flip_eq encode24128 encode23127 decode24128 decode23127 h24 h23 hd24 hd23 b p hp]
  · rfl

/-- C4 at the concrete Golay codec and a synthesiser that leaves the counters alone: the
frame of `sampleParams` with frame bit 3 inverted reports the same count as the intact
frame. -/
theorem C4_error_count_misses_corrections_witness :
    (opendmr_decode golay24_decode golay23_decode sampleSynth (some ())
        (some (flipFrameBit (encode_ambe_frame golay24 golay23 sampleParams) 3))
        (some ()) (some 7)).errs
      = (opendmr_decode golay24_decode golay23_decode sampleSynth (some ())
        (some (encode_ambe_frame golay24 golay23 sampleParams)) (some ()) (some 7)).errs :=
  (C4_error_count_misses_corrections golay24 golay23 golay24_decode golay23_decode
    golay24_lt golay23_lt
    (fun c hc => ⟨golay24_decode_clean c hc, golay24_decode_flip c hc⟩)
    (fun c hc => ⟨golay23_decode_clean c hc, golay23_decode_flip c hc⟩)
    sampleSynth () () 7 sampleParams 3 (by decide)).1

/-- C5. For every seed, bit `23 - i` of `compute_prng_mask_23bit seed` (for `i = 1..23`) is
set exactly when the `i`-th iterate of the recurrence `pr[0] = 16 * seed mod 65536`,
`pr[i] = (173 * pr[i-1] + 13849) mod 65536` is at least `32768`; no bit at position 23 or
above is set, so the mask is a 23-bit value. -/
theorem C5_prng_mask_bits (seed : Nat) :
    (∀ i, 1 ≤ i ∧ i ≤ 23 →
      ((compute_prng_mask_23bit seed).testBit (23 - i) = true ↔ 32768 ≤ prSeq seed i)) ∧
    (∀ j, 23 ≤ j → (compute_prng_mask_23bit seed).testBit j = false) ∧
    compute_prng_mask_23bit seed < 2 ^ 23 := by
  refine ⟨?_, ?_, prng_mask_lt seed⟩
  · rintro i ⟨h1, h2⟩
    rw [prng_mask_testBit, decide_eq_true_eq]
    have e : 23 - (23 - i) = i := by omega
    rw [e]
    constructor
    · rintro ⟨_, a⟩; exact a
    · intro a; exact ⟨by omega, a⟩
  · intro j hj
    rw [prng_mask_testBit, decide_eq_false_iff_not]
    omega

/-- C6. For every frame, `decode_ambe_frame` outputs: payload bits 0..11 = the 12 low bits,
MSB first, of `field1 = decode24128 (frame bits 0..23 read MSB-first)`; payload bits
12..23 = the 12 low bits, MSB first, of `decode23127 ((frame bits 24..46 as a 23-bit word)
XOR compute_prng_mask_23bit field1)`; payload bits 24..48 = frame bits 47..71 verbatim. -/
theorem C6_decode_layout (decode24128 decode23127 : Nat → Nat) (frame72 : Buf Nat) :
    (∀ i, i < 12 → (decode_ambe_frame decode24128 decode23127 frame72).get i
      = (decode24128 (frameWord frame72 0 24) >>> (11 - i)) % 2) ∧
    (∀ i, i < 12 → (decode_ambe_frame decode24128 decode23127 frame72).get (12 + i)
      = (decode23127 (frameWord frame72 24 23 ^^^
          compute_prng_mask_23bit (decode24128 (frameWord frame72 0 24))) >>> (11 - i)) % 2) ∧
    (∀ i, i < 25 → (decode_ambe_frame decode24128 decode23127 frame72).get (24 + i)
      = frameBit frame72 (47 + i)) := by
  refine ⟨?_, ?_, ?_⟩
  · intro i hi
    rw [decode_get, if_pos hi, toNat_testBit_eq]
  · intro i hi
    have e : 23 - (12 + i) = 11 - i := by omega
    rw [decode_get, if_neg (by omega), if_pos (by omega), toNat_testBit_eq, e]
  · intro i hi
    have e : 24 + i + 23 = 47 + i := by omega
    rw [decode_get, if_neg (by omega), if_neg (by omega), if_pos (by omega), e]

/-- C7 as stated fails: in the frame of `prbaOneParams` (only bit 1 of the C block set)
frame bit `DMR_C_TABLE[1] = 50` is clear, so the blocks are not written through the
interleave tables. -/
theorem C7_interleave_counterexample :
    ¬ ((∀ i, i < 24 →
        frameBit (encode_ambe_frame golay24 golay23 prbaOneParams) (DMR_A_TABLE i)
          = (golay24 (payload_c0 prbaOneParams) >>> (23 - i)) % 2) ∧
      (∀ i, i < 23 →
        frameBit (encode_ambe_frame golay24 golay23 prbaOneParams) (DMR_B_TABLE i)
          = ((golay23 (payload_c1 prbaOneParams) ^^^
              compute_prng_mask_23bit (payload_c0 prbaOneParams)) >>> (22 - i)) % 2) ∧
      (∀ i, i < 25 →
        frameBit (encode_ambe_frame golay24 golay23 prbaOneParams) (DMR_C_TABLE i)
          = (payload_c prbaOneParams >>> (24 - i)) % 2)) := by
  intro h
  have h1 := h.2.2 1 (by decide)
  have h2 := frameBit_encode_C golay24 golay23 prbaOneParams 3 (by decide)
  have e : DMR_C_TABLE 1 = 47 + 3 := by decide
  rw [e, h2] at h1
  revert h1
  decide

/-- C7, amended. `encode_ambe_frame` writes the blocks one after the other: bit `i` of the
A block (`encode24128 c0`, 24 bits) goes to frame bit `i`, bit `i` of the B block (the
scrambled `encode23127 c1`, 23 bits) to frame bit `24 + i`, bit `i` of the C block (25 bits)
to frame bit `47 + i`. -/
theorem C7_blocks_in_sequence (encode24128 encode23127 : Nat → Nat) (b : Buf Int) :
    (∀ i, i < 24 → frameBit (encode_ambe_frame encode24128 encode23127 b) i
      = (encode24128 (payload_c0 b) >>> (23 - i)) % 2) ∧
    (∀ i, i < 23 → frameBit (encode_ambe_frame encode24128 encode23127 b) (24 + i)
      = ((encode23127 (payload_c1 b) ^^^ compute_prng_mask_23bit (payload_c0 b))
          >>> (22 - i)) % 2) ∧
    (∀ i, i < 25 → frameBit (encode_ambe_frame encode24128 encode23127 b) (47 + i)
      = (payload_c b >>> (24 - i)) % 2) := by
  refine ⟨?_, ?_, ?_⟩
  · intro i hi
    rw [frameBit_encode, if_pos hi, toNat_testBit_eq]
  · intro i hi
    have e : 46 - (24 + i) = 22 - i := by omega
    rw [frameBit_encode, if_neg (by omega), if_pos (by omega), toNat_testBit_eq, e]
  · intro i hi
    have e : 71 - (47 + i) = 24 - i := by omega
    rw [frameBit_encode, if_neg (by omega), if_neg (by omega), if_pos (by omega),
      toNat_testBit_eq, e]

/-- C8. The 23 B-block bits written by `encode_ambe_frame` are the low 23 bits of
`encode23127 c1 XOR mask c0`: the encoder output is used as returned, without the
`>> 1` of `MBEEncoder::encode_dmr`.  With the encoder in the reference convention and the
parameter set `prbaFourParams` (`c0 = 0`, `c1 = 1`) the written block is `0x217EC9`, the
block of the reference formula `0x216A56`. -/
theorem C8_B_block_not_shifted :
    (∀ (encode24128 encode23127 : Nat → Nat) (b : Buf Int),
      frameWord (encode_ambe_frame encode24128 encode23127 b) 24 23
        = (encode23127 (payload_c1 b) ^^^ compute_prng_mask_23bit (payload_c0 b)) % 2 ^ 23) ∧
    payload_c0 prbaFourParams = 0 ∧ payload_c1 prbaFourParams = 1 ∧
    encode23127_ref 1 = 0x0018EA ∧
    frameWord (encode_ambe_frame golay24 encode23127_ref prbaFourParams) 24 23 = 0x217EC9 ∧
    (encode23127_ref (payload_c1 prbaFourParams) >>> 1) ^^^
      compute_prng_mask_23bit (payload_c0 prbaFourParams) = 0x216A56 := by
  refine ⟨fun e24 e23 b => frameWord_encode_B e24 e23 b, by decide, by decide, by decide,
    ?_, by decide⟩
  rw [frameWord_encode_B]
  decide

/-- C9. For every parameter tuple `b`, frame bits 0..23 of `encode_ambe_frame b` are the 24
bits of `encode24128 c0`, MSB first, where `c0` is the first 12 payload bits read MSB-first,
and frame bits 47..71 are payload bits 24..48 verbatim (frame bit `i` being bit
`7 - i mod 8` of byte `i div 8`). -/
theorem C9_A_and_C_blocks (encode24128 encode23127 : Nat → Nat) (b : Buf Int) :
    (∀ i, i < 24 → frameBit (encode_ambe_frame encode24128 encode23127 b) i
      = (encode24128 (msbWord (fun k => (encode_ambe_frame_bits49 b).get k) 12)
          >>> (23 - i)) % 2) ∧
    (∀ i, i < 25 → frameBit (encode_ambe_frame encode24128 encode23127 b) (47 + i)
      = (encode_ambe_frame_bits49 b).get (24 + i)) ∧
    (∀ i, frameBit (encode_ambe_frame encode24128 encode23127 b) i
      = ((encode_ambe_frame encode24128 encode23127 b).get (i / 8) >>> (7 - i % 8)) % 2) := by
  refine ⟨?_, ?_, ?_⟩
  · intro i hi
    rw [frameBit_encode, if_pos hi, toNat_testBit_eq]
    rfl
  · intro i hi
    exact frameBit_encode_C encode24128 encode23127 b i hi
  · intro i
    rw [frameBit, Nat.and_one_is_mod]

/-- C10. For every frame and every set of bit positions inside 47..71 (the C block),
inverting those frame bits changes the output of `decode_ambe_frame` only at the
corresponding payload positions (frame bit `47 + i` corresponds to payload bit `24 + i`),
each of which is inverted; payload bits 0..23 are unchanged. -/
theorem C10_C_block_flips (decode24128 decode23127 : Nat → Nat) (frame72 : Buf Nat)
    (ps : List Nat) (hnd : ps.Nodup) (hps : ∀ p ∈ ps, 47 ≤ p ∧ p ≤ 71) :
    (∀ i, i < 24 →
      (decode_ambe_frame decode24128 decode23127 (flipFrameBits frame72 ps)).get i
        = (decode_ambe_frame decode24128 decode23127 frame72).get i) ∧
    (∀ i, i < 25 →
      (decode_ambe_frame decode24128 decode23127 (flipFrameBits frame72 ps)).get (24 + i)
        = if 47 + i ∈ ps then 1 - (decode_ambe_frame decode24128 decode23127 frame72).get (24 + i)
          else (decode_ambe_frame decode24128 decode23127 frame72).get (24 + i)) := by
  have hlow : ∀ q, q < 47 → frameBit (flipFrameBits frame72 ps) q = frameBit frame72 q := by
    intro q hq
    rw [frameBit_flipBits ps hnd, if_neg (fun h => by have := hps q h; omega)]
  have hA : frameWord (flipFrameBits frame72 ps) 0 24 = frameWord frame72 0 24 :=
    frameWord_congr _ _ 0 24 (fun i hi => hlow _ (by omega))
  have hB : frameWord (flipFrameBits frame72 ps) 24 23 = frameWord frame72 24 23 :=
    frameWord_congr _ _ 24 23 (fun i hi => hlow _ (by omega))
  constructor
  · intro i hi
    rw [decode_get, decode_get, hA, hB]
    by_cases h1 : i < 12
    · rw [if_pos h1, if_pos h1]
    · rw [if_neg h1, if_neg h1, if_pos hi, if_pos hi]
  · intro i hi
    have hC : ∀ fr : Buf Nat, (decode_ambe_frame decode24128 decode23127 fr).get (24 + i)
        = frameBit fr (47 + i) := by
      intro fr
      have e : 24 + i + 23 = 47 + i := by omega
      rw [decode_get, if_neg (by omega), if_neg (by omega), if_pos (by omega), e]
    rw [hC, hC, frameBit_flipBits ps hnd]

/-- C10 at the frame `01 23 45 67 89 AB CD EF 5A` with frame bits 50 and 63 inverted. -/
theorem C10_C_block_flips_witness :
    [50, 63].Nodup ∧ (∀ p ∈ [50, 63], 47 ≤ p ∧ p ≤ 71) ∧
    ((∀ i, i < 24 →
      (decode_ambe_frame golay24_decode golay23_decode
          (flipFrameBits (Buf.ofList [0x01, 0x23, 0x45, 0x67, 0x89, 0xAB, 0xCD, 0xEF, 0x5A] 0)
            [50, 63])).get i
        = (decode_ambe_frame golay24_decode golay23_decode
          (Buf.ofList [0x01, 0x23, 0x45, 0x67, 0x89, 0xAB, 0xCD, 0xEF, 0x5A] 0)).get i) ∧
    (∀ i, i < 25 →
      (decode_ambe_frame golay24_decode golay23_decode
          (flipFrameBits (Buf.ofList [0x01, 0x23, 0x45, 0x67, 0x89, 0xAB, 0xCD, 0xEF, 0x5A] 0)
            [50, 63])).get (24 + i)
        = if 47 + i ∈ [50, 63] then
            1 - (decode_ambe_frame golay24_decode golay23_decode
              (Buf.ofList [0x01, 0x23, 0x45, 0x67, 0x89, 0xAB, 0xCD, 0xEF, 0x5A] 0)).get (24 + i)
          else (decode_ambe_frame golay24_decode golay23_decode
              (Buf.ofList [0x01, 0x23, 0x45, 0x67, 0x89, 0xAB, 0xCD, 0xEF, 0x5A] 0)).get
                (24 + i))) :=
  ⟨by decide, by decide,
    C10_C_block_flips golay24_decode golay23_decode
      (Buf.ofList [0x01, 0x23, 0x45, 0x67, 0x89, 0xAB, 0xCD, 0xEF, 0x5A] 0) [50, 63]
      (by decide) (by decide)⟩


/-- C12. A call of `encode_ambe` that aborts with the fallback frame returns the two
parameter sets exactly as it received them: the predictor state is not replaced by the
decode of the emitted indices.  At the rational stand-ins, pitch period 0: the state keeps
`L = 9`, where the decode of the emitted frame `b = {40, 0, ...}` has `L = 105`. -/
theorem C12_abort_skips_state_update :
    (∀ (F R : Type) [Add F] [Sub F] [Mul F] [Div F] [LT F]
        [DecidableRel (fun a b : F => a < b)] (fl : FloatFns F) (T : AmbeTables F)
        (dec : Buf Nat → mbe_parms F R → mbe_parms F R → mbe_parms F R × mbe_parms F R)
        (mv : mbe_parms F R → mbe_parms F R → mbe_parms F R × mbe_parms F R)
        (fuel : Nat) (p : IMBE_PARAM) (b : Buf Int) (cur prev : mbe_parms F R) (g : F),
      ((p.ref_pitch >>> 5) - 159 < 0 ∨ (p.ref_pitch >>> 5) - 159 ≥ b0_lmax) ∨
        encode_ambe_pitch fl T p.num_harms fuel ((p.ref_pitch >>> 5) - 159)
          = PitchSearch.aborted →
      encode_ambe fl T dec mv fuel p b cur prev g
        = some { b := encode_ambe_fallback b, cur_mp := cur, prev_mp := prev }) ∧
    (encode_ambe ratFloat sampleTables sampleDecode sampleMove 0 (sampleFrame 0 9)
        ⟨fun _ => 0⟩ sampleParms sampleParms 1).map
      (fun r => ((List.range 9).map r.b.get, r.prev_mp.L))
        = some ([40, 0, 0, 0, 0, 0, 0, 0, 0], 9) ∧
    (encode_ambe ratFloat sampleTables sampleDecode sampleMove 0 (sampleFrame 0 9)
        ⟨fun _ => 0⟩ sampleParms sampleParms 1).map
      (fun r => (sampleMove (sampleDecode (encode_49bit r.b) sampleParms sampleParms).1
        (sampleDecode (encode_49bit r.b) sampleParms sampleParms).2).2.L) = some 105 := by
  refine ⟨fun F R _ _ _ _ _ _ fl T dec mv fuel p b cur prev g h =>
    encode_ambe_abort fl T dec mv fuel p b cur prev g h, by decide!, by decide!⟩

/-- C13. Quantizer boundedness: whenever `encode_ambe` returns (normally or through the
abort path), for any voice model, predictor state, tables and `float` behaviour, every
output field is non-negative and within its bit width: `b[0] < 128`, `b[1] < 32`,
`b[2] < 32`, `b[3] < 512`, `b[4] < 128`, `b[5] < 32`, `b[6] < 16`, `b[7] < 16`, `b[8] < 8`. -/
theorem C13_fields_within_width {F R : Type} [Add F] [Sub F] [Mul F] [Div F] [LT F]
    [DecidableRel (fun a b : F => a < b)] (fl : FloatFns F) (T : AmbeTables F)
    (mbe_decodeAmbe2450Parms :
      Buf Nat → mbe_parms F R → mbe_parms F R → mbe_parms F R × mbe_parms F R)
    (mbe_moveMbeParms : mbe_parms F R → mbe_parms F R → mbe_parms F R × mbe_parms F R)
    (fuel : Nat) (imbe_param : IMBE_PARAM) (b : Buf Int) (cur_mp prev_mp : mbe_parms F R)
    (gain_adjust : F) (r : AmbeResult F R)
    (h : encode_ambe fl T mbe_decodeAmbe2450Parms mbe_moveMbeParms fuel imbe_param b cur_mp
      prev_mp gain_adjust = some r) :
    (0 ≤ r.b.get 0 ∧ r.b.get 0 < 128) ∧ (0 ≤ r.b.get 1 ∧ r.b.get 1 < 32) ∧
    (0 ≤ r.b.get 2 ∧ r.b.get 2 < 32) ∧ (0 ≤ r.b.get 3 ∧ r.b.get 3 < 512) ∧
    (0 ≤ r.b.get 4 ∧ r.b.get 4 < 128) ∧ (0 ≤ r.b.get 5 ∧ r.b.get 5 < 32) ∧
    (0 ≤ r.b.get 6 ∧ r.b.get 6 < 16) ∧ (0 ≤ r.b.get 7 ∧ r.b.get 7 < 16) ∧
    (0 ≤ r.b.get 8 ∧ r.b.get 8 < 8) := by
  rcases encode_ambe_cases fl T _ _ fuel imbe_param b cur_mp prev_mp gain_adjust r h with
    hr | ⟨b0_i, hr⟩
  · have hf := fallback_get b
    rw [hr]
    dsimp only
    rw [hf.1, hf.2 1 (by omega) (by omega), hf.2 2 (by omega) (by omega),
      hf.2 3 (by omega) (by omega), hf.2 4 (by omega) (by omega),
      hf.2 5 (by omega) (by omega), hf.2 6 (by omega) (by omega),
      hf.2 7 (by omega) (by omega), hf.2 8 (by omega) (by omega)]
    decide
  · have hq := quantize_range fl T mbe_decodeAmbe2450Parms mbe_moveMbeParms imbe_param b
      cur_mp prev_mp gain_adjust b0_i
    have h0 := b0_lookup_range b0_i
    rw [hr]
    refine ⟨?_, ?_, hq.2.2.1, hq.2.2.2.1, hq.2.2.2.2.1, hq.2.2.2.2.2.1, hq.2.2.2.2.2.2.1,
      hq.2.2.2.2.2.2.2.1, hq.2.2.2.2.2.2.2.2⟩
    · rw [hq.1]; omega
    · have := hq.2.1; omega

/-- C13 at the rational stand-ins: pitch period 5088 and 12 harmonics. -/
theorem C13_fields_within_width_witness :
    ∃ r, encode_ambe ratFloat sampleTables sampleDecode sampleMove 30 (sampleFrame 5088 12)
        ⟨fun _ => 0⟩ sampleParms sampleParms 1 = some r ∧
      (0 ≤ r.b.get 0 ∧ r.b.get 0 < 128) ∧ (0 ≤ r.b.get 1 ∧ r.b.get 1 < 32) ∧
      (0 ≤ r.b.get 2 ∧ r.b.get 2 < 32) ∧ (0 ≤ r.b.get 3 ∧ r.b.get 3 < 512) ∧
      (0 ≤ r.b.get 4 ∧ r.b.get 4 < 128) ∧ (0 ≤ r.b.get 5 ∧ r.b.get 5 < 32) ∧
      (0 ≤ r.b.get 6 ∧ r.b.get 6 < 16) ∧ (0 ≤ r.b.get 7 ∧ r.b.get 7 < 16) ∧
      (0 ≤ r.b.get 8 ∧ r.b.get 8 < 8) :=
  ⟨_, encode_ambe_found ratFloat sampleTables sampleDecode sampleMove 30
      (sampleFrame 5088 12) ⟨fun _ => 0⟩ sampleParms sampleParms 1 24 (by decide!)
      (by decide!),
    C13_fields_within_width ratFloat sampleTables sampleDecode sampleMove 30
      (sampleFrame 5088 12) ⟨fun _ => 0⟩ sampleParms sampleParms 1 _
      (encode_ambe_found ratFloat sampleTables sampleDecode sampleMove 30
        (sampleFrame 5088 12) ⟨fun _ => 0⟩ sampleParms sampleParms 1 24 (by decide!)
        (by decide!))⟩

/-- C14. If the initial pitch index `(ref_pitch >> 5) - 159` lies outside `b0_lookup`, or
the index leaves the table while it is being stepped, `encode_ambe` returns normally with
`b[0] = 40` and `b[1..8] = 0`. -/
theorem C14_fallback_frame {F R : Type} [Add F] [Sub F] [Mul F] [Div F] [LT F]
    [DecidableRel (fun a b : F => a < b)] (fl : FloatFns F) (T : AmbeTables F)
    (mbe_decodeAmbe2450Parms :
      Buf Nat → mbe_parms F R → mbe_parms F R → mbe_parms F R × mbe_parms F R)
    (mbe_moveMbeParms : mbe_parms F R → mbe_parms F R → mbe_parms F R × mbe_parms F R)
    (fuel : Nat) (imbe_param : IMBE_PARAM) (b : Buf Int) (cur_mp prev_mp : mbe_parms F R)
    (gain_adjust : F)
    (h : ((imbe_param.ref_pitch >>> 5) - 159 < 0 ∨
        (imbe_param.ref_pitch >>> 5) - 159 ≥ b0_lmax) ∨
      encode_ambe_pitch fl T imbe_param.num_harms fuel ((imbe_param.ref_pitch >>> 5) - 159)
        = PitchSearch.aborted) :
    ∃ r, encode_ambe fl T mbe_decodeAmbe2450Parms mbe_moveMbeParms fuel imbe_param b cur_mp
        prev_mp gain_adjust = some r ∧
      r.b.get 0 = 40 ∧ ∀ i, 1 ≤ i → i ≤ 8 → r.b.get i = 0 :=
  ⟨_, encode_ambe_abort fl T _ _ fuel imbe_param b cur_mp prev_mp gain_adjust h,
    fallback_get b⟩

/-- C14 at the rational stand-ins: pitch period 5088 (table index 0, 9 harmonics) and a
model with 5 harmonics; the first step takes the index to `-1`. -/
theorem C14_fallback_frame_witness :
    encode_ambe_pitch ratFloat sampleTables 5 3 ((5088 >>> 5) - 159) = PitchSearch.aborted ∧
    ∃ r, encode_ambe ratFloat sampleTables sampleDecode sampleMove 3 (sampleFrame 5088 5)
        ⟨fun _ => 0⟩ sampleParms sampleParms 1 = some r ∧
      r.b.get 0 = 40 ∧ ∀ i, 1 ≤ i → i ≤ 8 → r.b.get i = 0 :=
  ⟨by decide!,
    C14_fallback_frame ratFloat sampleTables sampleDecode sampleMove 3 (sampleFrame 5088 5)
      ⟨fun _ => 0⟩ sampleParms sampleParms 1 (Or.inr (by decide!))⟩

/-- C15. The three interleave tables `DMR_A_TABLE` (24 entries), `DMR_B_TABLE` (23 entries)
and `DMR_C_TABLE` (25 entries) together form a permutation of the frame bit positions
`0..71`: every entry is below 72 and every position occurs exactly once across the three
tables, so the mapping has an inverse. -/
theorem C15_interleave_tables_permutation :
    (∀ i, i < 24 → DMR_A_TABLE i < 72) ∧ (∀ i, i < 23 → DMR_B_TABLE i < 72) ∧
    (∀ i, i < 25 → DMR_C_TABLE i < 72) ∧
    (∀ p, p < 72 →
      ((List.range 24).map DMR_A_TABLE ++ (List.range 23).map DMR_B_TABLE ++
        (List.range 25).map DMR_C_TABLE).count p = 1) ∧
    ((List.range 24).map DMR_A_TABLE ++ (List.range 23).map DMR_B_TABLE ++
      (List.range 25).map DMR_C_TABLE).Perm (List.range 72) := by
  refine ⟨by decide, by decide, by decide, by decide, ?_⟩
  decide

theorem encode_49bit_get (b : Buf Int) (k : Nat) (hk : k < 49) :
    (encode_49bit b).get k
      = ((b.get (encode_49bit_layout k).1 >>> (encode_49bit_layout k).2) % 2).toNat := by
  interval_cases k <;> rfl

theorem encode_49bit_position_spec :
    ∀ f, f < 9 → ∀ j, j < b_lengths f →
      encode_49bit_position f j < 49 ∧
        encode_49bit_layout (encode_49bit_position f j) = (f, j) := by
  decide

/-- An integer in `0 .. 2^w - 1` is determined by its `w` low bits. -/
theorem int_eq_of_bits (w : Nat) (x y : Int) (hx : 0 ≤ x ∧ x < 2 ^ w)
    (hy : 0 ≤ y ∧ y < 2 ^ w)
    (h : ∀ j, j < w → ((x >>> j) % 2).toNat = ((y >>> j) % 2).toNat) : x = y := by
  obtain ⟨n, rfl⟩ := Int.eq_ofNat_of_zero_le hx.1
  obtain ⟨m, rfl⟩ := Int.eq_ofNat_of_zero_le hy.1
  have hn : n < 2 ^ w := by exact_mod_cast hx.2
  have hm : m < 2 ^ w := by exact_mod_cast hy.2
  congr 1
  apply Nat.eq_of_testBit_eq
  intro j
  by_cases hj : j < w
  · have e := h j hj
    have cast : ∀ k : Nat, (((k : Int) >>> j) % 2).toNat = (k.testBit j).toNat := by
      intro k
      rw [Int.shiftRight_eq_div_pow, Nat.toNat_testBit]
      norm_cast
    rw [cast, cast] at e
    cases hn' : n.testBit j <;> cases hm' : m.testBit j <;> simp_all
  · have hw : 2 ^ w ≤ 2 ^ j := Nat.pow_le_pow_right (by decide) (by omega)
    rw [Nat.testBit_lt_two_pow (Nat.lt_of_lt_of_le hn hw),
      Nat.testBit_lt_two_pow (Nat.lt_of_lt_of_le hm hw)]

/-- C16. `encode_49bit` is a bit permutation of the field bits: every output element is 0
or 1, output position `k` holds one bit of one field, each of the 49 bits of the 9 fields
(widths 7,5,5,9,7,5,4,4,3) appears at exactly one of the 49 output positions, and two
in-range index tuples with the same 49-bit output are equal. -/
theorem C16_encode_49bit_permutation :
    (∀ (b : Buf Int) (k : Nat), (encode_49bit b).get k ≤ 1) ∧
    (∀ (b : Buf Int) (k : Nat), k < 49 → (encode_49bit b).get k
      = ((b.get (encode_49bit_layout k).1 >>> (encode_49bit_layout k).2) % 2).toNat) ∧
    ((List.range 49).map encode_49bit_layout).Perm
      ((List.range 9).flatMap (fun f => (List.range (b_lengths f)).map (fun j => (f, j)))) ∧
    (∀ b b' : Buf Int,
      (∀ f, f < 9 → 0 ≤ b.get f ∧ b.get f < 2 ^ b_lengths f) →
      (∀ f, f < 9 → 0 ≤ b'.get f ∧ b'.get f < 2 ^ b_lengths f) →
      (∀ k, k < 49 → (encode_49bit b).get k = (encode_49bit b').get k) →
      ∀ f, f < 9 → b.get f = b'.get f) := by
  refine ⟨?_, encode_49bit_get, by decide, ?_⟩
  · intro b k
    by_cases hk : k < 49
    · rw [encode_49bit_get b k hk]
      exact int_bit_le_one _ _
    · rw [encode_49bit_get_high b k (by omega)]
      exact Nat.zero_le _
  · intro b b' hb hb' h f hf
    apply int_eq_of_bits (b_lengths f) _ _ (hb f hf) (hb' f hf)
    intro j hj
    have hp := encode_49bit_position_spec f hf j hj
    have e := h _ hp.1
    rw [encode_49bit_get b _ hp.1, encode_49bit_get b' _ hp.1, hp.2] at e
    exact e

/-- C17 as stated fails: after a gain of 20 dB was set, the gain adjustment handed to the
quantizer after a reset is `powf(10, 20 / 20) = 10`, that of a freshly created encoder
is `1`. -/
theorem C17_reset_keeps_gain_counterexample :
    ((opendmr_encoder_reset ratFloat sampleEnv true
        (opendmr_encoder_set_gain ratFloat (opendmr_encoder_create ratFloat sampleEnv true true)
          20)).bind (fun h => h.enc)).map (fun m => m.d_gain_adjust) = some 10 ∧
    ((opendmr_encoder_create ratFloat sampleEnv true true).bind (fun h => h.enc)).map
      (fun m => m.d_gain_adjust) = some 1 := by
  constructor <;> decide!

/-- C17, amended. After `opendmr_encoder_reset` on an encoder stream whose inner encoder
exists (whatever gain was set and whatever frames were encoded before), with the
re-allocation succeeding, the predictor state and the analyser handed to the quantizer are
those of a freshly constructed encoder, the stored gain is kept, and the gain adjustment
is `powf(10, gain_db / 20)` for the stored gain. -/
theorem C17_reset_state {F R V : Type} [Div F] (fl : FloatFns F) (env : EncoderEnv F R V)
    (h : opendmr_encoder F R V) (m : MBEEncoder F R V) (hm : h.enc = some m) :
    opendmr_encoder_reset fl env true (some h)
      = some { enc := some { vocoder := (MBEEncoder_new fl env).vocoder
                             cur_mp := (MBEEncoder_new fl env).cur_mp
                             prev_mp := (MBEEncoder_new fl env).prev_mp
                             d_gain_adjust := fl.powf (fl.lit 10) (fl.ofInt h.gain_db / fl.lit 20) }
               gain_db := h.gain_db } := by
  simp only [opendmr_encoder_reset, hm, if_true, MBEEncoder.set_gain_adjust,
    MBEEncoder.set_dmr_mode]

/-- C17 (amended) at the rational stand-ins, for a stream with the gain set to 20 dB. -/
theorem C17_reset_state_witness :
    opendmr_encoder_reset ratFloat sampleEnv true
        (some { enc := some ((MBEEncoder_new ratFloat sampleEnv).set_gain_adjust 10)
                gain_db := 20 })
      = some { enc := some { vocoder := (MBEEncoder_new ratFloat sampleEnv).vocoder
                             cur_mp := (MBEEncoder_new ratFloat sampleEnv).cur_mp
                             prev_mp := (MBEEncoder_new ratFloat sampleEnv).prev_mp
                             d_gain_adjust :=
                               ratFloat.powf (ratFloat.lit 10)
                                 (ratFloat.ofInt 20 / ratFloat.lit 20) }
               gain_db := 20 } :=
  C17_reset_state ratFloat sampleEnv
    { enc := some ((MBEEncoder_new ratFloat sampleEnv).set_gain_adjust 10), gain_db := 20 }
    ((MBEEncoder_new ratFloat sampleEnv).set_gain_adjust 10) rfl

/-- C18. For every integer `gain_db` and every valid encoder, `opendmr_encoder_set_gain`
stores `min 20 (max (-20) gain_db)` as the encoder's gain: the stored value is always in
`[-20, 20]` and equals the argument whenever the argument is already in that range. -/
theorem C18_set_gain_clamps {F R V : Type} [Div F] (fl : FloatFns F)
    (h : opendmr_encoder F R V) (m : MBEEncoder F R V) (hm : h.enc = some m)
    (gain_db : Int) :
    ∃ h', opendmr_encoder_set_gain fl (some h) gain_db = some h' ∧
      h'.gain_db = min 20 (max (-20) gain_db) ∧
      (-20 ≤ h'.gain_db ∧ h'.gain_db ≤ 20) ∧
      (-20 ≤ gain_db ∧ gain_db ≤ 20 → h'.gain_db = gain_db) := by
  simp only [opendmr_encoder_set_gain, hm]
  refine ⟨_, rfl, ?_, ?_, ?_⟩ <;> dsimp only <;> split_ifs <;> omega

/-- C18 at the rational stand-ins: a fresh stream and the argument 35. -/
theorem C18_set_gain_clamps_witness :
    ∃ h', opendmr_encoder_set_gain ratFloat
        (some { enc := some (MBEEncoder_new ratFloat sampleEnv), gain_db := 0 }) 35 = some h' ∧
      h'.gain_db = min 20 (max (-20) 35) ∧
      (-20 ≤ h'.gain_db ∧ h'.gain_db ≤ 20) ∧
      (-20 ≤ (35 : Int) ∧ (35 : Int) ≤ 20 → h'.gain_db = 35) :=
  C18_set_gain_clamps ratFloat
    { enc := some (MBEEncoder_new ratFloat sampleEnv), gain_db := 0 }
    (MBEEncoder_new ratFloat sampleEnv) rfl 35

/-- C19. `opendmr_decode` returns false exactly when the decoder handle, the input frame
or the PCM output buffer is null, and in that case writes nothing (PCM buffer, error count
and decoder state unchanged); for every frame content with valid handles it returns true,
with or without an error-count pointer. -/
theorem C19_decode_null_handling {St Pcm : Type} (decode24128 decode23127 : Nat → Nat)
    (mbe_processAmbe2450Data : Int → Int → Buf Nat → St → Nat → MbeOut St Pcm)
    (dec : Option St) (ambe : Option (Buf Nat)) (pcm : Option Pcm) (errs : Option Int) :
    ((opendmr_decode decode24128 decode23127 mbe_processAmbe2450Data dec ambe pcm errs).ret
        = false ↔ (dec = none ∨ ambe = none ∨ pcm = none)) ∧
    ((dec = none ∨ ambe = none ∨ pcm = none) →
      opendmr_decode decode24128 decode23127 mbe_processAmbe2450Data dec ambe pcm errs
        = { ret := false, dec := dec, pcm := pcm, errs := errs }) ∧
    (∀ (st : St) (frame : Buf Nat) (p : Pcm),
      (opendmr_decode decode24128 decode23127 mbe_processAmbe2450Data (some st) (some frame)
        (some p) errs).ret = true) := by
  refine ⟨?_, ?_, fun _ _ _ => rfl⟩
  · cases dec <;> cases ambe <;> cases pcm <;> simp [opendmr_decode]
  · intro h
    cases dec <;> cases ambe <;> cases pcm <;> simp_all [opendmr_decode]

/-- C21. For every 9-byte frame, `opendmr_convert_frame` in the bytes-to-bits direction
leaves the bytes alone and stores 72 cells, each 0 or 1, with `bits[i]` equal to bit
`7 - i mod 8` of `bytes[i div 8]`; converting those bits back, into any byte buffer,
reproduces the original 9 bytes. -/
theorem C21_convert_frame_round_trip (bytes bits : Buf Nat)
    (hb : ∀ k < 9, bytes.get k < 256) :
    (opendmr_convert_frame bytes bits true).1 = bytes ∧
    (∀ i < 72, (opendmr_convert_frame bytes bits true).2.get i ≤ 1 ∧
      (opendmr_convert_frame bytes bits true).2.get i
        = (bytes.get (i / 8) >>> (7 - i % 8)) &&& 1) ∧
    (∀ bytes0 : Buf Nat, ∀ k < 9,
      (opendmr_convert_frame bytes0 (opendmr_convert_frame bytes bits true).2 false).1.get k
        = bytes.get k) := by
  have hbits : ∀ i < 72, (opendmr_convert_frame bytes bits true).2.get i = frameBit bytes i := by
    intro i hi
    have := get_setLoop (fun i => (bytes.get (i / 8) >>> (7 - i % 8)) &&& 1) 0 bits 72 i
    simp only [Nat.zero_add, Nat.sub_zero] at this
    simp only [opendmr_convert_frame, if_true, forLoop_eq, Nat.sub_zero]
    rw [this, if_pos ⟨by omega, hi⟩]
    rfl
  refine ⟨rfl, ?_, ?_⟩
  · intro i hi
    rw [hbits i hi]
    exact ⟨frameBit_le_one bytes i, rfl⟩
  · intro bytes0 k hk
    generalize (opendmr_convert_frame bytes bits true).2 = B at hbits
    simp only [opendmr_convert_frame, Bool.false_eq_true, if_false, forLoop_eq, Nat.sub_zero]
    apply byte_eq_of_frameBit _ _ _ (convert_bytes_lt _ 72 k) (hb k hk)
    intro q hq
    have hq72 : q < 72 := by omega
    have := frameBit_writeLoop (fun i => B.get i ≠ 0) 0 Buf.zero 72 q
    simp only [Nat.zero_add, Nat.sub_zero] at this
    rw [this]
    have h0 : frameBit Buf.zero q = 0 := by simp [frameBit]
    rw [h0, hbits q hq72]
    have := frameBit_le_one bytes q
    by_cases h1 : frameBit bytes q = 0
    · rw [if_neg (by omega), h1]
    · rw [if_pos ⟨by omega, hq72, h1⟩]; omega

theorem C21_convert_frame_round_trip_witness :
    (∀ k < 9, (Buf.ofList [0xB9, 0xE8, 0x81, 0x52, 0x61, 0x73, 0x00, 0x2A, 0x6B] 0).get k < 256) ∧
    (∀ k < 9, (opendmr_convert_frame Buf.zero
        (opendmr_convert_frame (Buf.ofList [0xB9, 0xE8, 0x81, 0x52, 0x61, 0x73, 0x00, 0x2A, 0x6B] 0)
          Buf.zero true).2 false).1.get k
      = (Buf.ofList [0xB9, 0xE8, 0x81, 0x52, 0x61, 0x73, 0x00, 0x2A, 0x6B] 0).get k) :=
  ⟨by decide!,
   (C21_convert_frame_round_trip
      (Buf.ofList [0xB9, 0xE8, 0x81, 0x52, 0x61, 0x73, 0x00, 0x2A, 0x6B] 0) Buf.zero
      (by decide!)).2.2 Buf.zero⟩

/-- C22. The two scrambler masks differ inside the range of `PRNG_TABLE`: for seed 0 the
table-driven mask `PRNG_TABLE[0] >> 1` is 0 while `compute_prng_mask_23bit(0)` is
0x216623, and the two disagree for every seed of the table. -/
theorem C22_prng_masks_diverge :
    (0 < PRNG_TABLE_size ∧ PRNG_TABLE 0 >>> 1 = 0 ∧ compute_prng_mask_23bit 0 = 0x216623) ∧
    (∃ seed, seed < PRNG_TABLE_size ∧ PRNG_TABLE seed >>> 1 ≠ compute_prng_mask_23bit seed) ∧
    (∀ seed, seed < PRNG_TABLE_size → PRNG_TABLE seed >>> 1 ≠ compute_prng_mask_23bit seed) := by
  refine ⟨by decide!, ⟨0, by decide!⟩, by decide!⟩

/-- C23. `PRNG_TABLE` has 248 entries, no more than the 256 of an 8-bit domain, while
`MBEEncoder::encode_dmr` indexes it with the 12-bit word of input bits 0..11: every
input whose word is at least 248 makes the read `PRNG_TABLE[aOrig]` fall outside the
table, and such inputs exist (first input byte 0xFF gives index 4080). -/
theorem C23_prng_table_index_out_of_bounds :
    PRNG_TABLE_size = 248 ∧ PRNG_TABLE_size ≤ 256 ∧
    (∀ inp : Buf Nat, (encode_dmr_ab inp).1 = frameWord inp 0 12 ∧
      (encode_dmr_ab inp).1 < 4096) ∧
    (∀ (encode24128 encode23127 : Nat → Nat) (inp : Buf Nat),
      PRNG_TABLE_size ≤ frameWord inp 0 12 →
        MBEEncoder.encode_dmr encode24128 encode23127 inp = none) ∧
    (encode_dmr_ab (Buf.ofList [0xFF, 0x00, 0x00, 0x00, 0x00, 0x00, 0x00] 0)).1 = 4080 ∧
    (∀ encode24128 encode23127 : Nat → Nat,
      MBEEncoder.encode_dmr encode24128 encode23127
        (Buf.ofList [0xFF, 0x00, 0x00, 0x00, 0x00, 0x00, 0x00] 0) = none) := by
  have hnone : ∀ (encode24128 encode23127 : Nat → Nat) (inp : Buf Nat),
      PRNG_TABLE_size ≤ frameWord inp 0 12 →
        MBEEncoder.encode_dmr encode24128 encode23127 inp = none := by
    intro e24 e23 inp h
    unfold MBEEncoder.encode_dmr
    simp only [encode_dmr_ab_eq]
    rw [if_neg (by omega)]
  have h4080 : frameWord (Buf.ofList [0xFF, 0x00, 0x00, 0x00, 0x00, 0x00, 0x00] 0) 0 12 = 4080 := by
    decide!
  refine ⟨by decide!, by decide!, ?_, hnone, ?_, ?_⟩
  · intro inp
    rw [encode_dmr_ab_eq]
    exact ⟨rfl, frameWord_lt inp 0 12⟩
  · rw [encode_dmr_ab_eq]; exact h4080
  · intro e24 e23
    apply hnone
    rw [h4080]; decide!

/-- C24, as stated, fails.  The harmonic counts of `gapTables` are non-decreasing in the
pitch value and along the table `b0_lookup`, yet with 10 harmonics and the table index 7
(pitch period 5312) the loop never ends: it reads count 9 at index 7, steps up, reads
count 11 at index 8, steps down, and so on, whatever the number of steps allowed. -/
theorem C24_monotone_lookup_counterexample :
    (∀ b0 c0 : Nat, b0 ≤ c0 →
      ratFloat.toInt (gapTables.AmbeLtable b0) ≤ ratFloat.toInt (gapTables.AmbeLtable c0)) ∧
    (∀ i j : Int, 0 ≤ i → i ≤ j → j < b0_lmax →
      ratFloat.toInt (gapTables.AmbeLtable (b0_lookup i).toNat)
        ≤ ratFloat.toInt (gapTables.AmbeLtable (b0_lookup j).toNat)) ∧
    ((5312 : Int) >>> 5) - 159 = 7 ∧ (7 : Int) < b0_lmax ∧
    (∀ fuel : Nat, encode_ambe_pitch ratFloat gapTables 10 fuel 7 = PitchSearch.running) ∧
    (∀ fuel : Nat, encode_ambe ratFloat gapTables sampleDecode sampleMove fuel
      (sampleFrame 5312 10) ⟨fun _ => 0⟩ sampleParms sampleParms 1 = none) := by
  refine ⟨gapTables_mono, ?_, by decide, by decide!, fun fuel => (gapTables_oscillates fuel).1,
    ?_⟩
  · intro i j h0 hij hj
    have hm := b0_lookup_mono i j h0 hij hj
    have hi := b0_lookup_range i
    exact gapTables_mono _ _ (by omega)
  · intro fuel
    have h := (gapTables_oscillates fuel).1
    unfold encode_ambe
    dsimp only
    have e : ((sampleFrame 5312 10).ref_pitch >>> 5) - 159 = 7 := by decide
    have hn : (sampleFrame 5312 10).num_harms = 10 := rfl
    rw [e, hn, if_neg (by decide!), h]

/-- C24, amended.  For every pitch period and harmonic count, the pitch-index adjustment
loop of `encode_ambe` ends within `b0_lmax` executions of its body, either on an index of
the table whose looked-up harmonic count equals the model's or by leaving the table --
given that the looked-up harmonic count rises by at most 1 from one table index to the
next. -/
theorem C24_pitch_loop_terminates {F : Type} (fl : FloatFns F) (T : AmbeTables F)
    (num_harms b0_i : Int) (h0 : 0 ≤ b0_i) (h1 : b0_i < b0_lmax)
    (hstep : ∀ i : Int, 0 ≤ i → i + 1 < b0_lmax →
      fl.toInt (T.AmbeLtable (b0_lookup (i + 1)).toNat)
        ≤ fl.toInt (T.AmbeLtable (b0_lookup i).toNat) + 1)
    (fuel : Nat) (hfuel : b0_lmax ≤ fuel) :
    encode_ambe_pitch fl T num_harms fuel b0_i = PitchSearch.aborted ∨
    ∃ i : Int, encode_ambe_pitch fl T num_harms fuel b0_i = PitchSearch.found i ∧
      0 ≤ i ∧ i < b0_lmax ∧ fl.toInt (T.AmbeLtable (b0_lookup i).toNat) = num_harms := by
  have hrun : encode_ambe_pitch fl T num_harms fuel b0_i ≠ PitchSearch.running := by
    by_cases hle : fl.toInt (T.AmbeLtable (b0_lookup b0_i).toNat) ≤ num_harms
    · exact pitch_up fl T num_harms hstep fuel b0_i h0 h1 hle (by omega)
    · exact pitch_down fl T num_harms hstep fuel b0_i h0 h1 (by omega) (by omega)
  cases hres : encode_ambe_pitch fl T num_harms fuel b0_i with
  | found i => exact Or.inr ⟨i, rfl, pitch_found_spec fl T num_harms fuel b0_i i h0 h1 hres⟩
  | aborted => exact Or.inl rfl
  | running => exact absurd hres hrun

/-- C24 at the rational stand-ins: `sampleTables` rises by at most 1 per table index;
from index 0 with 12 harmonics the loop ends on index 24. -/
theorem C24_pitch_loop_terminates_witness :
    ((0 : Int) ≤ 0 ∧ (0 : Int) < b0_lmax ∧ b0_lmax ≤ ((898 : Nat) : Int)) ∧
    (∀ i : Int, 0 ≤ i → i + 1 < b0_lmax →
      ratFloat.toInt (sampleTables.AmbeLtable (b0_lookup (i + 1)).toNat)
        ≤ ratFloat.toInt (sampleTables.AmbeLtable (b0_lookup i).toNat) + 1) ∧
    (encode_ambe_pitch ratFloat sampleTables 12 898 0 = PitchSearch.aborted ∨
      ∃ i : Int, encode_ambe_pitch ratFloat sampleTables 12 898 0 = PitchSearch.found i ∧
        0 ≤ i ∧ i < b0_lmax ∧
        ratFloat.toInt (sampleTables.AmbeLtable (b0_lookup i).toNat) = 12) :=
  ⟨by decide!, sampleTables_step,
    C24_pitch_loop_terminates ratFloat sampleTables 12 0 (by decide) (by decide!)
      sampleTables_step 898 (by decide!)⟩

/-- C25. Whenever `encode_ambe` returns without taking the abort path, the pitch loop has
ended on an index `i` of the table `b0_lookup`, `b[0] = b0_lookup[i]`, and the harmonic
count looked up for that value, `(int) AmbeLtable[b[0]]`, is the model's `num_harms`. -/
theorem C25_pitch_index_on_return {F R : Type} [Add F] [Sub F] [Mul F] [Div F] [LT F]
    [DecidableRel (fun a b : F => a < b)] (fl : FloatFns F) (T : AmbeTables F)
    (mbe_decodeAmbe2450Parms :
      Buf Nat → mbe_parms F R → mbe_parms F R → mbe_parms F R × mbe_parms F R)
    (mbe_moveMbeParms : mbe_parms F R → mbe_parms F R → mbe_parms F R × mbe_parms F R)
    (fuel : Nat) (imbe_param : IMBE_PARAM) (b : Buf Int) (cur_mp prev_mp : mbe_parms F R)
    (gain_adjust : F) (r : AmbeResult F R)
    (h : encode_ambe fl T mbe_decodeAmbe2450Parms mbe_moveMbeParms fuel imbe_param b cur_mp
      prev_mp gain_adjust = some r) :
    (r = { b := encode_ambe_fallback b, cur_mp := cur_mp, prev_mp := prev_mp } ∧
      (((imbe_param.ref_pitch >>> 5) - 159 < 0 ∨
          (imbe_param.ref_pitch >>> 5) - 159 ≥ b0_lmax) ∨
        encode_ambe_pitch fl T imbe_param.num_harms fuel
          ((imbe_param.ref_pitch >>> 5) - 159) = PitchSearch.aborted)) ∨
    ∃ i : Int, encode_ambe_pitch fl T imbe_param.num_harms fuel
        ((imbe_param.ref_pitch >>> 5) - 159) = PitchSearch.found i ∧
      0 ≤ i ∧ i < b0_lmax ∧ r.b.get 0 = b0_lookup i ∧
      fl.toInt (T.AmbeLtable (r.b.get 0).toNat) = imbe_param.num_harms := by
  unfold encode_ambe at h
  dsimp only at h
  split at h
  · rename_i h0
    exact Or.inl ⟨(Option.some.inj h).symm, Or.inl h0⟩
  · rename_i h0
    split at h
    · exact absurd h (by simp)
    · rename_i hp
      exact Or.inl ⟨(Option.some.inj h).symm, Or.inr hp⟩
    · rename_i i hp
      have hs := pitch_found_spec fl T imbe_param.num_harms fuel _ i (by omega) (by omega) hp
      have hr : r = encode_ambe_quantize fl T mbe_decodeAmbe2450Parms mbe_moveMbeParms
          imbe_param b cur_mp prev_mp gain_adjust i := (Option.some.inj h).symm
      refine Or.inr ⟨i, hp, hs.1, hs.2.1, ?_, ?_⟩
      · rw [hr, quantize_b0]
      · rw [hr, quantize_b0]; exact hs.2.2

/-- C25 at the rational stand-ins: pitch period 5088 and 12 harmonics end on table index
24, where `b0_lookup` holds 9 and the table count is 12. -/
theorem C25_pitch_index_on_return_witness :
    ∃ r, encode_ambe ratFloat sampleTables sampleDecode sampleMove 30 (sampleFrame 5088 12)
        ⟨fun _ => 0⟩ sampleParms sampleParms 1 = some r ∧
      ((r = { b := encode_ambe_fallback ⟨fun _ => 0⟩, cur_mp := sampleParms,
              prev_mp := sampleParms } ∧
        ((((sampleFrame 5088 12).ref_pitch >>> 5) - 159 < 0 ∨
            ((sampleFrame 5088 12).ref_pitch >>> 5) - 159 ≥ b0_lmax) ∨
          encode_ambe_pitch ratFloat sampleTables (sampleFrame 5088 12).num_harms 30
            (((sampleFrame 5088 12).ref_pitch >>> 5) - 159) = PitchSearch.aborted)) ∨
      ∃ i : Int, encode_ambe_pitch ratFloat sampleTables (sampleFrame 5088 12).num_harms 30
          (((sampleFrame 5088 12).ref_pitch >>> 5) - 159) = PitchSearch.found i ∧
        0 ≤ i ∧ i < b0_lmax ∧ r.b.get 0 = b0_lookup i ∧
        ratFloat.toInt (sampleTables.AmbeLtable (r.b.get 0).toNat)
          = (sampleFrame 5088 12).num_harms) :=
  ⟨_, encode_ambe_found ratFloat sampleTables sampleDecode sampleMove 30
      (sampleFrame 5088 12) ⟨fun _ => 0⟩ sampleParms sampleParms 1 24 (by decide!)
      (by decide!),
    C25_pitch_index_on_return ratFloat sampleTables sampleDecode sampleMove 30
      (sampleFrame 5088 12) ⟨fun _ => 0⟩ sampleParms sampleParms 1 _
      (encode_ambe_found ratFloat sampleTables sampleDecode sampleMove 30
        (sampleFrame 5088 12) ⟨fun _ => 0⟩ sampleParms sampleParms 1 24 (by decide!)
        (by decide!))⟩

/-- C26. Over exact arithmetic (`float` an ordered field whose literal `0` is its zero),
the voicing index `b[1]` that `encode_ambe` stores once the pitch index is settled is the
lowest pattern index `n` in `0..16` whose mismatch energy -- the sum of the squared
magnitudes over the harmonics `l` in `1..L` whose voiced flag differs from
`AmbeVuv[n][min(7, floor(l * 16 * w0))]` -- is minimal among the 17 patterns. -/
theorem C26_voicing_index_first_argmin {F R : Type} [LinearOrderedField F]
    (fl : FloatFns F) (hlit : fl.lit 0 = 0) (T : AmbeTables F)
    (mbe_decodeAmbe2450Parms :
      Buf Nat → mbe_parms F R → mbe_parms F R → mbe_parms F R × mbe_parms F R)
    (mbe_moveMbeParms : mbe_parms F R → mbe_parms F R → mbe_parms F R × mbe_parms F R)
    (imbe_param : IMBE_PARAM) (b : Buf Int) (cur_mp prev_mp : mbe_parms F R)
    (gain_adjust : F) (b0_i : Int) :
    ∃ k : Nat,
      (encode_ambe_quantize fl T mbe_decodeAmbe2450Parms mbe_moveMbeParms imbe_param b cur_mp
        prev_mp gain_adjust b0_i).b.get 1 = (k : Int) ∧
      IsFirstArgmin (vuv_mismatch_energy fl T imbe_param (b0_lookup b0_i)
        (fl.toInt (T.AmbeLtable (b0_lookup b0_i).toNat))) 17 k := by
  obtain ⟨k, hk, hmin⟩ := vuv_first_argmin fl hlit T imbe_param (b0_lookup b0_i)
    (fl.toInt (T.AmbeLtable (b0_lookup b0_i).toNat))
  refine ⟨k, ?_, hmin⟩
  rw [(quantize_b_get fl T mbe_decodeAmbe2450Parms mbe_moveMbeParms imbe_param b cur_mp
    prev_mp gain_adjust b0_i (fl.lit 0, 0)).1]
  exact hk

/-- C26 at the rational stand-ins, with the tables `bandTables` and an all-unvoiced
frame of 9 harmonics of magnitude 1: pattern 5 has energy 9, the other sixteen patterns
tie at energy 0, and `b[1]` is the lowest of them. -/
theorem C26_voicing_index_first_argmin_witness :
    ratFloat.lit 0 = 0 ∧
    (encode_ambe_quantize ratFloat bandTables sampleDecode sampleMove (sampleFrame 5088 9)
      ⟨fun _ => 0⟩ sampleParms sampleParms 1 0).b.get 1 = 0 ∧
    IsFirstArgmin (vuv_mismatch_energy ratFloat bandTables (sampleFrame 5088 9)
      (b0_lookup 0) (ratFloat.toInt (bandTables.AmbeLtable (b0_lookup 0).toNat))) 17 0 := by
  obtain ⟨k, hk, hmin⟩ := C26_voicing_index_first_argmin ratFloat rfl bandTables sampleDecode
    sampleMove (sampleFrame 5088 9) ⟨fun _ => 0⟩ sampleParms sampleParms 1 0
  have h0 : IsFirstArgmin (vuv_mismatch_energy ratFloat bandTables (sampleFrame 5088 9)
      (b0_lookup 0) (ratFloat.toInt (bandTables.AmbeLtable (b0_lookup 0).toNat))) 17 0 := by
    decide!
  have e := IsFirstArgmin_unique _ 17 k 0 hmin h0
  subst e
  exact ⟨rfl, hk, hmin⟩

/-- C27. Over exact arithmetic (`float` an ordered field, the literal `0` its zero,
`fabsf` the absolute value), the gain and PRBA searches of `encode_ambe` are exhaustive
argmins with first-found tie-break: `b[2]` is the lowest index in `0..31` minimising
`|diff_gain - AmbeDg[i]|`, `b[3]` the lowest index in `0..511` minimising the squared
distance of `(G[1], G[2], G[3])` to `AmbePRBA24[i]`, `b[4]` the lowest index in `0..127`
minimising the squared distance of `(G[4], G[5], G[6], G[7])` to `AmbePRBA58[i]`; and the
`(error, error_index)` a PRBA search is entered with does not influence its result. -/
theorem C27_gain_and_prba_first_argmin {F R : Type} [LinearOrderedField F]
    (fl : FloatFns F) (hlit : fl.lit 0 = 0) (hfabs : ∀ x, fl.fabsf x = |x|)
    (T : AmbeTables F)
    (mbe_decodeAmbe2450Parms :
      Buf Nat → mbe_parms F R → mbe_parms F R → mbe_parms F R × mbe_parms F R)
    (mbe_moveMbeParms : mbe_parms F R → mbe_parms F R → mbe_parms F R × mbe_parms F R)
    (imbe_param : IMBE_PARAM) (b : Buf Int) (cur_mp prev_mp : mbe_parms F R)
    (gain_adjust : F) (b0_i : Int) :
    (∃ k : Nat,
      (encode_ambe_quantize fl T mbe_decodeAmbe2450Parms mbe_moveMbeParms imbe_param b cur_mp
        prev_mp gain_adjust b0_i).b.get 2 = (k : Int) ∧
      IsFirstArgmin
        (gain_distance T (quantize_diff_gain fl T imbe_param prev_mp gain_adjust b0_i))
        32 k) ∧
    (∃ k : Nat,
      (encode_ambe_quantize fl T mbe_decodeAmbe2450Parms mbe_moveMbeParms imbe_param b cur_mp
        prev_mp gain_adjust b0_i).b.get 3 = (k : Int) ∧
      IsFirstArgmin (prba24_squared_distance T (quantize_G fl T imbe_param prev_mp b0_i))
        512 k) ∧
    (∃ k : Nat,
      (encode_ambe_quantize fl T mbe_decodeAmbe2450Parms mbe_moveMbeParms imbe_param b cur_mp
        prev_mp gain_adjust b0_i).b.get 4 = (k : Int) ∧
      IsFirstArgmin (prba58_squared_distance T (quantize_G fl T imbe_param prev_mp b0_i))
        128 k) ∧
    (∀ (G : Buf F) (st st1 : F × Int),
      encode_ambe_prba24 fl T G st = encode_ambe_prba24 fl T G st1) ∧
    (∀ (G : Buf F) (st st1 : F × Int),
      encode_ambe_prba58 fl T G st = encode_ambe_prba58 fl T G st1) := by
  have hq := quantize_b_get fl T mbe_decodeAmbe2450Parms mbe_moveMbeParms imbe_param b cur_mp
    prev_mp gain_adjust b0_i (fl.lit 0, 0)
  refine ⟨?_, ?_, ?_, prba24_init_irrelevant fl T, prba58_init_irrelevant fl T⟩
  · obtain ⟨k, hk, hmin⟩ := gain_first_argmin fl hfabs T imbe_param prev_mp.gamma gain_adjust
      (quantize_lsa fl T imbe_param b0_i).2
    exact ⟨k, by rw [hq.2.1]; exact hk, hmin⟩
  · obtain ⟨k, hk, hmin⟩ := prba24_first_argmin fl hlit T
      (quantize_G fl T imbe_param prev_mp b0_i) (fl.lit 0, 0)
    exact ⟨k, by rw [hq.2.2.1, hk], hmin⟩
  · obtain ⟨k, hk, hmin⟩ := prba58_first_argmin fl hlit T
      (quantize_G fl T imbe_param prev_mp b0_i) (fl.lit 0, 0)
    exact ⟨k, by rw [hq.2.2.2.1, hk], hmin⟩

/-- C27 at the rational stand-ins, with the tables `bandTables` and a frame of 9
harmonics. -/
theorem C27_gain_and_prba_first_argmin_witness :
    ratFloat.lit 0 = 0 ∧ (∀ x, ratFloat.fabsf x = |x|) ∧
    (∃ k : Nat,
      (encode_ambe_quantize ratFloat bandTables sampleDecode sampleMove (sampleFrame 5088 9)
        ⟨fun _ => 0⟩ sampleParms sampleParms 1 0).b.get 3 = (k : Int) ∧
      IsFirstArgmin (prba24_squared_distance bandTables
        (quantize_G ratFloat bandTables (sampleFrame 5088 9) sampleParms 0)) 512 k) :=
  ⟨rfl, ratFloat_fabsf,
    (C27_gain_and_prba_first_argmin ratFloat rfl ratFloat_fabsf bandTables sampleDecode
      sampleMove (sampleFrame 5088 9) ⟨fun _ => 0⟩ sampleParms sampleParms 1 0).2.1⟩

/-- C28 as stated fails in `float` arithmetic.  In the search of the first sub-band
(mbeenc.cpp:440-457) entered with `J[0] = 4` (two coefficients), `C[0][2] = 4096`,
`C[0][3] = 0` and the table `tieTable`, the error accumulated for entry 0 is
`16777216 + 1/4` and that for entry 1 is `16777216 + 1/16`; both sums round to
`16777216`, and no later entry has a smaller error, so the search stores `b[5] = 0`.  The
squared error of entry 1, `16777216 + 1/16`, is smaller than that of entry 0,
`16777216 + 1/4`: index 0 does not minimise the squared error. -/
theorem C28_float_rounding_counterexample :
    (2 : Int) < (fun _ : Nat => (4 : Int)) 0 ∧
    (encode_ambe_hoc binary32 tieTable 32 1 (fun _ => 4) tieC (binary32.lit 0, 0)).1 = 0 ∧
    (hoc_accumulated_error binary32 tieTable tieC 0 2 0).val = 16777216 ∧
    (hoc_accumulated_error binary32 tieTable tieC 0 2 1).val = 16777216 ∧
    hoc_squared_error (fun n j => (tieTable n j).val) ⟨fun k => (tieC.get k).val⟩ 0 2 0
      = 16777216 + 1 / 4 ∧
    hoc_squared_error (fun n j => (tieTable n j).val) ⟨fun k => (tieC.get k).val⟩ 0 2 1
      = 16777216 + 1 / 16 ∧
    ¬ HocFieldSpec (fun n j => (tieTable n j).val) 32 0 (fun _ => 4)
      ⟨fun k => (tieC.get k).val⟩
      (encode_ambe_hoc binary32 tieTable 32 1 (fun _ => 4) tieC (binary32.lit 0, 0)).1 := by
  have hb : (encode_ambe_hoc binary32 tieTable 32 1 (fun _ => 4) tieC
      (binary32.lit 0, 0)).1 = 0 := by decide!
  have h0 : hoc_squared_error (fun n j => (tieTable n j).val) ⟨fun k => (tieC.get k).val⟩
      0 2 0 = 16777216 + 1 / 4 := by decide!
  have h1 : hoc_squared_error (fun n j => (tieTable n j).val) ⟨fun k => (tieC.get k).val⟩
      0 2 1 = 16777216 + 1 / 16 := by decide!
  refine ⟨by decide, hb, by decide!, by decide!, h0, h1, ?_⟩
  rw [hb]
  intro h
  obtain ⟨k, hk, hmin⟩ := h.2 (by decide)
  have e : k = 0 := by omega
  subst e
  have hle := hmin.2.1 1 (by decide)
  have e2 : (min ((fun _ : Nat => (4 : Int)) 0 - 2) 4).toNat = 2 := by decide
  rw [e2, h0, h1] at hle
  norm_num at hle

/-- C28, amended. For each sub-band `i` in `1..4` of size `J[i-1]`: if `J[i-1] <= 2` then
`b[4+i] = 0`; otherwise `b[4+i]` is the lowest index of the sub-band's table (32, 16, 16
and 8 entries) minimising the squared error against the transform coefficients
`C[i-1][2]`, ... taken over exactly `min(J[i-1] - 2, 4)` coefficients -- in any `float`
arithmetic whose comparison orders the errors of the table entries, the error as the code
accumulates it; over exact arithmetic (`float` an ordered field whose literal `0` is its
zero), the squared error itself. -/
theorem C28_higher_order_fields :
    (∀ (F R : Type) [Add F] [Sub F] [Mul F] [Div F] [LT F]
        [DecidableRel (fun a b : F => a < b)] (fl : FloatFns F) (T : AmbeTables F)
        (mbe_decodeAmbe2450Parms :
          Buf Nat → mbe_parms F R → mbe_parms F R → mbe_parms F R × mbe_parms F R)
        (mbe_moveMbeParms : mbe_parms F R → mbe_parms F R → mbe_parms F R × mbe_parms F R)
        (imbe_param : IMBE_PARAM) (b : Buf Int) (cur_mp prev_mp : mbe_parms F R)
        (gain_adjust : F) (b0_i : Int),
      HocFloatSpec fl T.AmbeHOCb5 32 0 (T.AmbeLmprbl imbe_param.num_harms.toNat)
        (quantize_C fl T imbe_param prev_mp b0_i)
        ((encode_ambe_quantize fl T mbe_decodeAmbe2450Parms mbe_moveMbeParms imbe_param b
          cur_mp prev_mp gain_adjust b0_i).b.get 5) ∧
      HocFloatSpec fl T.AmbeHOCb6 16 1 (T.AmbeLmprbl imbe_param.num_harms.toNat)
        (quantize_C fl T imbe_param prev_mp b0_i)
        ((encode_ambe_quantize fl T mbe_decodeAmbe2450Parms mbe_moveMbeParms imbe_param b
          cur_mp prev_mp gain_adjust b0_i).b.get 6) ∧
      HocFloatSpec fl T.AmbeHOCb7 16 2 (T.AmbeLmprbl imbe_param.num_harms.toNat)
        (quantize_C fl T imbe_param prev_mp b0_i)
        ((encode_ambe_quantize fl T mbe_decodeAmbe2450Parms mbe_moveMbeParms imbe_param b
          cur_mp prev_mp gain_adjust b0_i).b.get 7) ∧
      HocFloatSpec fl T.AmbeHOCb8 8 3 (T.AmbeLmprbl imbe_param.num_harms.toNat)
        (quantize_C fl T imbe_param prev_mp b0_i)
        ((encode_ambe_quantize fl T mbe_decodeAmbe2450Parms mbe_moveMbeParms imbe_param b
          cur_mp prev_mp gain_adjust b0_i).b.get 8)) ∧
    (∀ (F R : Type) [LinearOrderedField F] (fl : FloatFns F), fl.lit 0 = 0 →
      ∀ (T : AmbeTables F)
        (mbe_decodeAmbe2450Parms :
          Buf Nat → mbe_parms F R → mbe_parms F R → mbe_parms F R × mbe_parms F R)
        (mbe_moveMbeParms : mbe_parms F R → mbe_parms F R → mbe_parms F R × mbe_parms F R)
        (imbe_param : IMBE_PARAM) (b : Buf Int) (cur_mp prev_mp : mbe_parms F R)
        (gain_adjust : F) (b0_i : Int),
      HocFieldSpec T.AmbeHOCb5 32 0 (T.AmbeLmprbl imbe_param.num_harms.toNat)
        (quantize_C fl T imbe_param prev_mp b0_i)
        ((encode_ambe_quantize fl T mbe_decodeAmbe2450Parms mbe_moveMbeParms imbe_param b
          cur_mp prev_mp gain_adjust b0_i).b.get 5) ∧
      HocFieldSpec T.AmbeHOCb6 16 1 (T.AmbeLmprbl imbe_param.num_harms.toNat)
        (quantize_C fl T imbe_param prev_mp b0_i)
        ((encode_ambe_quantize fl T mbe_decodeAmbe2450Parms mbe_moveMbeParms imbe_param b
          cur_mp prev_mp gain_adjust b0_i).b.get 6) ∧
      HocFieldSpec T.AmbeHOCb7 16 2 (T.AmbeLmprbl imbe_param.num_harms.toNat)
        (quantize_C fl T imbe_param prev_mp b0_i)
        ((encode_ambe_quantize fl T mbe_decodeAmbe2450Parms mbe_moveMbeParms imbe_param b
          cur_mp prev_mp gain_adjust b0_i).b.get 7) ∧
      HocFieldSpec T.AmbeHOCb8 8 3 (T.AmbeLmprbl imbe_param.num_harms.toNat)
        (quantize_C fl T imbe_param prev_mp b0_i)
        ((encode_ambe_quantize fl T mbe_decodeAmbe2450Parms mbe_moveMbeParms imbe_param b
          cur_mp prev_mp gain_adjust b0_i).b.get 8)) := by
  constructor
  · intro F R _ _ _ _ _ _ fl T mbe_decodeAmbe2450Parms mbe_moveMbeParms imbe_param b cur_mp
      prev_mp gain_adjust b0_i
    have hq := quantize_b_get fl T mbe_decodeAmbe2450Parms mbe_moveMbeParms imbe_param b
      cur_mp prev_mp gain_adjust b0_i (fl.lit 0, 0)
    rw [hq.2.2.2.2.1, hq.2.2.2.2.2.1, hq.2.2.2.2.2.2.1, hq.2.2.2.2.2.2.2]
    exact ⟨hoc_first_minimal fl _ 32 1 (by decide) _ _ _,
      hoc_first_minimal fl _ 16 2 (by decide) _ _ _,
      hoc_first_minimal fl _ 16 3 (by decide) _ _ _,
      hoc_first_minimal fl _ 8 4 (by decide) _ _ _⟩
  · intro F R _ fl hlit T mbe_decodeAmbe2450Parms mbe_moveMbeParms imbe_param b cur_mp
      prev_mp gain_adjust b0_i
    have hq := quantize_b_get fl T mbe_decodeAmbe2450Parms mbe_moveMbeParms imbe_param b
      cur_mp prev_mp gain_adjust b0_i (fl.lit 0, 0)
    have key : ∀ (AmbeHOCb : Nat → Nat → F) (size ii : Nat), 0 < size →
        HocFieldSpec AmbeHOCb size (ii - 1) (T.AmbeLmprbl imbe_param.num_harms.toNat)
          (quantize_C fl T imbe_param prev_mp b0_i)
          (encode_ambe_hoc fl AmbeHOCb size ii (T.AmbeLmprbl imbe_param.num_harms.toNat)
            (quantize_C fl T imbe_param prev_mp b0_i) (fl.lit 0, 0)).1 := by
      intro AmbeHOCb size ii hsize
      have h := hoc_first_argmin fl hlit AmbeHOCb size ii hsize
        (T.AmbeLmprbl imbe_param.num_harms.toNat) (quantize_C fl T imbe_param prev_mp b0_i)
        (fl.lit 0, 0)
      refine ⟨fun hJ => ?_, fun hJ => ?_⟩
      · rw [h.1 hJ]
      · obtain ⟨k, hk, hmin⟩ := h.2 hJ
        exact ⟨k, by rw [hk], hmin⟩
    rw [hq.2.2.2.2.1, hq.2.2.2.2.2.1, hq.2.2.2.2.2.2.1, hq.2.2.2.2.2.2.2]
    exact ⟨key _ 32 1 (by decide), key _ 16 2 (by decide), key _ 16 3 (by decide),
      key _ 8 4 (by decide)⟩

/-- C28 at a frame of pitch period 7680 and 18 harmonics (table index 81): the sub-bands
of `bandTables` have the sizes 2, 3, 5 and 8, so the first field is `0` and the others
are searched over 1, 3 and 4 coefficients.  Over the rationals `b[8]` is the lowest index
of least squared error; over the finite-precision `float`, the lowest index of least
accumulated error. -/
theorem C28_higher_order_fields_witness :
    ratFloat.lit 0 = 0 ∧
    ((7680 : Int) >>> 5) - 159 = 81 ∧
    ratFloat.toInt (bandTables.AmbeLtable (b0_lookup 81).toNat) = 18 ∧
    (List.range 4).map (bandTables.AmbeLmprbl (sampleFrame 7680 18).num_harms.toNat)
      = [2, 3, 5, 8] ∧
    (encode_ambe_quantize ratFloat bandTables sampleDecode sampleMove (sampleFrame 7680 18)
      ⟨fun _ => 0⟩ sampleParms sampleParms 1 81).b.get 5 = 0 ∧
    HocFieldSpec bandTables.AmbeHOCb8 8 3
      (bandTables.AmbeLmprbl (sampleFrame 7680 18).num_harms.toNat)
      (quantize_C ratFloat bandTables (sampleFrame 7680 18) sampleParms 81)
      ((encode_ambe_quantize ratFloat bandTables sampleDecode sampleMove (sampleFrame 7680 18)
        ⟨fun _ => 0⟩ sampleParms sampleParms 1 81).b.get 8) ∧
    (encode_ambe_quantize binary32 bandTables32 (fun _ c q => (c, q)) (fun c _ => (c, c))
      (sampleFrame 7680 18) ⟨fun _ => 0⟩ sampleParms32 sampleParms32 (binary32.lit 1)
      81).b.get 5 = 0 ∧
    (∃ k : Nat,
      (encode_ambe_quantize binary32 bandTables32 (fun _ c q => (c, q)) (fun c _ => (c, c))
        (sampleFrame 7680 18) ⟨fun _ => 0⟩ sampleParms32 sampleParms32 (binary32.lit 1)
        81).b.get 8 = (k : Int) ∧
      IsFirstMinimal (hoc_accumulated_error binary32 bandTables32.AmbeHOCb8
        (quantize_C binary32 bandTables32 (sampleFrame 7680 18) sampleParms32 81) 3 4) 8 k) :=
  ⟨rfl, by decide, by decide!, by decide,
    (C28_higher_order_fields.2 ℚ Unit ratFloat rfl bandTables sampleDecode sampleMove
      (sampleFrame 7680 18) ⟨fun _ => 0⟩ sampleParms sampleParms 1 81).1.1 (by decide),
    (C28_higher_order_fields.2 ℚ Unit ratFloat rfl bandTables sampleDecode sampleMove
      (sampleFrame 7680 18) ⟨fun _ => 0⟩ sampleParms sampleParms 1 81).2.2.2,
    (C28_higher_order_fields.1 Binary32 Unit binary32 bandTables32 (fun _ c q => (c, q))
      (fun c _ => (c, c)) (sampleFrame 7680 18) ⟨fun _ => 0⟩ sampleParms32 sampleParms32
      (binary32.lit 1) 81).1.1 (by decide),
    (C28_higher_order_fields.1 Binary32 Unit binary32 bandTables32 (fun _ c q => (c, q))
      (fun c _ => (c, c)) (sampleFrame 7680 18) ⟨fun _ => 0⟩ sampleParms32 sampleParms32
      (binary32.lit 1) 81).2.2.2.2 (by decide) (binary32_orders _ _)⟩

/-- C29. For every input whose first 12 bits, read MSB-first as `aOrig`, index inside
`PRNG_TABLE`, `MBEEncoder::encode_dmr` returns a frame whose bit `DMR_A_TABLE[i]` is bit
`23 - i` of `encode24128(aOrig)` for `i` in 0..23 and whose bit `DMR_C_TABLE[i]` is
input bit `24 + i` for `i` in 0..24. -/
theorem C29_encode_dmr_A_and_C_bits (encode24128 encode23127 : Nat → Nat) (inp : Buf Nat)
    (h : frameWord inp 0 12 < PRNG_TABLE_size) :
    (encode_dmr_ab inp).1 = frameWord inp 0 12 ∧
    ∃ out, MBEEncoder.encode_dmr encode24128 encode23127 inp = some out ∧
      (∀ i < 24, frameBit out (DMR_A_TABLE i)
        = (encode24128 (frameWord inp 0 12) >>> (23 - i)) &&& 1) ∧
      (∀ i < 25, frameBit out (DMR_C_TABLE i) = frameBit inp (24 + i)) := by
  refine ⟨by rw [encode_dmr_ab_eq], ?_⟩
  unfold MBEEncoder.encode_dmr
  simp only [forLoop_eq, Nat.sub_zero]
  simp only [encode_dmr_ab_eq, encode_dmr_c_eq]
  rw [if_pos h]
  refine ⟨_, rfl, ?_, ?_⟩
  · intro i hi
    rw [forCount_mask (fun i out M => WRITE_BIT out (DMR_C_TABLE i) (frameWord inp 24 25 &&& M)),
      frameBit_tableLoop_other _ _ _ _ _
        (fun j hj => DMR_tables_distinct.2.2.2 i hi j hj),
      forCount_mask (fun i out M => WRITE_BIT out (DMR_B_TABLE i) (_ &&& M)),
      frameBit_tableLoop_other _ _ _ _ _
        (fun j hj => DMR_tables_distinct.2.2.1 i hi j hj),
      forCount_mask (fun i out M => WRITE_BIT out (DMR_A_TABLE i) (_ &&& M)),
      frameBit_tableLoop _ _ _ _ DMR_tables_distinct.1 i hi, shr_and_one]
    have : (encode24128 (frameWord inp 0 12) &&& (8388608 >>> i) ≠ 0) ↔
        (encode24128 (frameWord inp 0 12)).testBit (23 - i) = true :=
      and_mask_ne_zero (encode24128 (frameWord inp 0 12)) 23 i (by omega)
    by_cases hb : (encode24128 (frameWord inp 0 12)).testBit (23 - i) = true
    · rw [if_pos (this.2 hb), hb]; rfl
    · rw [if_neg (fun c => hb (this.1 c))]
      simp only [Bool.not_eq_true] at hb
      rw [hb]; rfl
  · intro i hi
    rw [forCount_mask (fun i out M => WRITE_BIT out (DMR_C_TABLE i) (frameWord inp 24 25 &&& M)),
      frameBit_tableLoop _ _ _ _ DMR_tables_distinct.2.1 i hi]
    have : (frameWord inp 24 25 &&& (16777216 >>> i) ≠ 0) ↔
        (frameWord inp 24 25).testBit (24 - i) = true :=
      and_mask_ne_zero (frameWord inp 24 25) 24 i (by omega)
    have hf := frameWord_testBit inp 24 25 (24 - i)
    have e : 25 - 1 - (24 - i) = i := by omega
    rw [e] at hf
    have hle := frameBit_le_one inp (24 + i)
    by_cases hb : frameBit inp (24 + i) = 1
    · rw [if_pos (this.2 (by rw [hf]; simp [hb]; omega)), hb]
    · rw [if_neg (fun c => hb (by
        have h2 := this.1 c
        rw [hf] at h2
        exact (of_decide_eq_true h2).2))]
      omega

theorem C29_encode_dmr_A_and_C_bits_witness :
    frameWord (Buf.ofList [0x0F, 0x12, 0x34, 0x56, 0x78, 0x9A, 0x80] 0) 0 12 < PRNG_TABLE_size ∧
    ((encode_dmr_ab (Buf.ofList [0x0F, 0x12, 0x34, 0x56, 0x78, 0x9A, 0x80] 0)).1
        = frameWord (Buf.ofList [0x0F, 0x12, 0x34, 0x56, 0x78, 0x9A, 0x80] 0) 0 12 ∧
      ∃ out, MBEEncoder.encode_dmr golay24 golay23
          (Buf.ofList [0x0F, 0x12, 0x34, 0x56, 0x78, 0x9A, 0x80] 0) = some out ∧
        (∀ i < 24, frameBit out (DMR_A_TABLE i)
          = (golay24 (frameWord (Buf.ofList [0x0F, 0x12, 0x34, 0x56, 0x78, 0x9A, 0x80] 0) 0 12)
              >>> (23 - i)) &&& 1) ∧
        (∀ i < 25, frameBit out (DMR_C_TABLE i)
          = frameBit (Buf.ofList [0x0F, 0x12, 0x34, 0x56, 0x78, 0x9A, 0x80] 0) (24 + i))) :=
  ⟨by decide!, C29_encode_dmr_A_and_C_bits golay24 golay23
    (Buf.ofList [0x0F, 0x12, 0x34, 0x56, 0x78, 0x9A, 0x80] 0) (by decide!)⟩

/-- C30. The mask `compute_prng_mask_23bit` depends only on the low 12 bits of its seed:
the mask of `s` is the mask of `s mod 4096`, so two seeds that agree in their low 12
bits give the same mask. -/
theorem C30_prng_mask_low_12_bits :
    (∀ s : Nat, compute_prng_mask_23bit s = compute_prng_mask_23bit (s % 4096)) ∧
    (∀ s t : Nat, s % 4096 = t % 4096 →
      compute_prng_mask_23bit s = compute_prng_mask_23bit t) := by
  refine ⟨prng_mask_mod, ?_⟩
  intro s t h
  rw [prng_mask_mod s, prng_mask_mod t, h]

/-- C31. The pitch lookup table `b0_lookup` (898 entries) is non-decreasing, starts at 0,
ends at 124, and consecutive entries differ by at most 1; hence every entry is a pitch
index in `0..124`, which fits 7 bits, and every value `0..124` occurs in the table. -/
theorem C31_b0_lookup_shape :
    b0_lmax = 898 ∧
    (∀ i j : Int, 0 ≤ i → i ≤ j → j < b0_lmax → b0_lookup i ≤ b0_lookup j) ∧
    b0_lookup 0 = 0 ∧ b0_lookup (b0_lmax - 1) = 124 ∧
    (∀ i : Int, 0 ≤ i → i + 1 < b0_lmax →
      b0_lookup i ≤ b0_lookup (i + 1) ∧ b0_lookup (i + 1) ≤ b0_lookup i + 1) ∧
    (∀ i : Int, 0 ≤ i → i < b0_lmax →
      0 ≤ b0_lookup i ∧ b0_lookup i ≤ 124 ∧ b0_lookup i < 2 ^ 7) ∧
    (∀ v : Int, 0 ≤ v → v ≤ 124 → ∃ i : Int, 0 ≤ i ∧ i < b0_lmax ∧ b0_lookup i = v) ∧
    (∀ x ∈ b0_lookup_table, 0 ≤ x ∧ x ≤ 124) ∧
    (∀ v : Int, 0 ≤ v → v ≤ 124 → v ∈ b0_lookup_table) := by
  have hl : b0_lmax = 898 := by decide!
  have hlast : b0_lookup (b0_lmax - 1) = 124 := by rw [hl]; decide!
  have hocc : ∀ v : Int, 0 ≤ v → v ≤ 124 →
      ∃ i : Int, 0 ≤ i ∧ i < b0_lmax ∧ b0_lookup i = v := by
    intro v h0 hv
    have e : b0_lookup ((897 : Nat) : Int) = 124 := by
      rw [hl] at hlast; exact hlast
    obtain ⟨i, hi0, hik, hiv⟩ := b0_lookup_reaches 897 (by rw [hl]; decide) v h0
      (by rw [e]; exact hv)
    exact ⟨i, hi0, by rw [hl]; omega, hiv⟩
  refine ⟨hl, b0_lookup_mono, by decide!, hlast, b0_lookup_step, ?_, hocc,
    b0_lookup_table_range, ?_⟩
  · intro i _ _
    have h := b0_lookup_range i
    exact ⟨h.1, h.2, by omega⟩
  · intro v h0 hv
    obtain ⟨i, hi0, hi1, hiv⟩ := hocc v h0 hv
    rw [← hiv]
    unfold b0_lookup
    unfold b0_lmax at hi1
    rw [List.getD_eq_getElem _ _ (by omega)]
    exact List.getElem_mem _

end OpenDMR
